import Mathlib

/-!
# FedMCP go-sdk: artifacts, JWS signing and verification

A shallow embedding of `pkg/fedmcp` (`artifact.go`, `signer.go`, `verifier.go`).

Conventions of the embedding.

* A Go `string` is a list of Unicode characters (`GoString`); its bytes are the UTF-8
  encoding `utf8`. Of the strings that are not valid UTF-8, the embedding covers those in the
  field `Type` of an artifact (`quoteBytes`, `Artifact.marshalWithType`).
* A byte is a natural number below 256; a `[]byte` is a `List Nat`.
* `map[string]interface{}` is an association list in insertion order; a Go map has no
  repeated key, which is the predicate `JVal.wf` / `bodyWF`.
* A function that returns `error` returns an `Option`, `none` being the nil error; one that
  returns `(string, error)` returns a pair.
* The Go standard library is modelled next to the code that calls it: `encoding/json`
  marshalling, `encoding/base64` (`RawURLEncoding`), `strings.Split`, `math/big` byte
  strings, `crypto/sha256` (FIPS 180-4), `crypto/ecdsa` on P-256 (FIPS 186-4),
  `uuid.UUID.String`. `json.Unmarshal` is a parameter (`JSONDecoder`): the theorems hold for
  every decoder, and `refDecoder` instantiates it at concrete envelopes.
* The outcome of the random source and of the clock (`rand.Reader`, `uuid.New`, `time.Now`)
  is an explicit argument.
* Keys are P-256 keys, and the pointers held by a `Verifier` are non-nil.
-/

namespace FedMCP

/-! ## Strings and bytes -/

/-- Go `string`, as its sequence of Unicode code points. -/
abbrev GoString := List Char

/-- UTF-8 encoding of one code point. -/
def utf8Char (c : Char) : List Nat :=
  let v := c.toNat
  if v < 128 then [v]
  else if v < 2048 then [192 + v / 64, 128 + v % 64]
  else if v < 65536 then [224 + v / 4096, 128 + v / 64 % 64, 128 + v % 64]
  else [240 + v / 262144, 128 + v / 4096 % 64, 128 + v / 64 % 64, 128 + v % 64]

/-- Bytes of a Go string: `[]byte(s)`. -/
def utf8 (s : GoString) : List Nat := s.flatMap utf8Char

/-- Lowercase hexadecimal digit of a value below 16. -/
def hexDigit (d : Nat) : Char :=
  if d < 10 then Char.ofNat (48 + d) else Char.ofNat (87 + d)

/-- The `k` low hexadecimal digits of `v`, most significant first. -/
def hexDigits : Nat → Nat → List Char
  | 0, _ => []
  | k + 1, v => hexDigits k (v / 16) ++ [hexDigit (v % 16)]

/-- Decimal rendering of a Go integer (`strconv.AppendInt(_, v, 10)`). -/
def formatInt (v : Int) : List Char :=
  if v < 0 then '-' :: Nat.toDigits 10 v.natAbs else Nat.toDigits 10 v.natAbs

/-! ## UUIDs (`github.com/google/uuid`) -/

/-- A `uuid.UUID`: 16 bytes, held as the 128-bit big-endian number they spell. -/
structure UUID where
  val : Nat
  isLt : val < 2 ^ 128
deriving DecidableEq

/-- The all-zero identifier `uuid.Nil`. -/
def UUID.Nil : UUID := ⟨0, by decide⟩

/-- The identifier with the given number, reduced to 128 bits. -/
def UUID.ofNat (n : Nat) : UUID := ⟨n % 2 ^ 128, Nat.mod_lt _ (by decide)⟩

/-- Text form `xxxxxxxx-xxxx-xxxx-xxxx-xxxxxxxxxxxx` (`UUID.String`). -/
def UUID.String (u : UUID) : GoString :=
  let h := hexDigits 32 u.val
  h.take 8 ++ '-' :: (h.drop 8).take 4 ++ '-' :: (h.drop 12).take 4 ++ '-' ::
    (h.drop 16).take 4 ++ '-' :: h.drop 20

/-! ## `encoding/json` marshalling -/

/-- A `float64` that holds a whole number of magnitude at most `2 ^ 53` (every such number
is a `float64`). -/
structure WholeFloat where
  val : Int
  small : val.natAbs ≤ 2 ^ 53

/-- Values a `map[string]interface{}` can hold: the nil interface (`null`), a `bool`, an
`int`, a `string`, a non-nil `[]interface{}` (`arr`), a non-nil `map[string]interface{}`
(`obj`), a nil slice (`nilSlice`), a nil map (`nilMap`), a non-nil `[]byte` (`bytes`) and a
`float64` that holds a whole number (`float`). `unsupported` stands for every value
`json.Marshal` refuses (channels, functions, NaN and infinite floats). Other finite `float64`
values and other Go types are not part of the embedding. -/
inductive JVal where
  | null
  | bool (b : Bool)
  | int (n : Int)
  | str (s : GoString)
  | arr (xs : List JVal)
  | obj (kvs : List (GoString × JVal))
  | unsupported
  | nilSlice
  | nilMap
  | bytes (bs : List Nat)
  | float (f : WholeFloat)

/-- Escape of one character inside a JSON string, as `json.Marshal` writes it (HTML
escaping on): quote and backslash get a backslash, the control characters their short or
`\u00XX` form, `<`, `>`, `&` the `\u00XX` form, U+2028 and U+2029 the `\u202X` form. -/
def escapeChar (c : Char) : List Char :=
  if c = '"' then ['\\', '"']
  else if c = '\\' then ['\\', '\\']
  else if c.toNat = 8 then ['\\', 'b']
  else if c.toNat = 12 then ['\\', 'f']
  else if c = '\n' then ['\\', 'n']
  else if c = '\r' then ['\\', 'r']
  else if c = '\t' then ['\\', 't']
  else if c.toNat < 32 ∨ c = '<' ∨ c = '>' ∨ c = '&' then
    '\\' :: 'u' :: '0' :: '0' :: hexDigits 2 c.toNat
  else if c.toNat = 8232 ∨ c.toNat = 8233 then
    '\\' :: 'u' :: hexDigits 4 c.toNat
  else [c]

/-- A Go string as a JSON string literal. -/
def quote (s : GoString) : List Char := '"' :: s.flatMap escapeChar ++ ['"']

/-- Comma-separated concatenation. -/
def joinComma : List (List Char) → List Char
  | [] => []
  | [x] => x
  | x :: y :: rest => x ++ ',' :: joinComma (y :: rest)

/-- Order in which `json.Marshal` emits map keys: byte-wise on the key, which for UTF-8 is
code point by code point. -/
def keyLe : GoString → GoString → Bool
  | [], _ => true
  | _ :: _, [] => false
  | a :: as, b :: bs => a.toNat < b.toNat || (a.toNat == b.toNat && keyLe as bs)

/-- Insertion of one rendered entry into a key-sorted list. -/
def insertField (f : GoString × List Char) :
    List (GoString × List Char) → List (GoString × List Char)
  | [] => [f]
  | g :: rest => if keyLe f.1 g.1 then f :: g :: rest else g :: insertField f rest

/-- Rendered entries sorted by key. -/
def sortFields : List (GoString × List Char) → List (GoString × List Char)
  | [] => []
  | f :: rest => insertField f (sortFields rest)

/-- A JSON object from its rendered entries: keys sorted, `"key":value` joined by commas. -/
def encodeObject (fs : List (GoString × List Char)) : List Char :=
  '{' :: joinComma ((sortFields fs).map fun f => quote f.1 ++ ':' :: f.2) ++ ['}']

/-- Character of a 6-bit value in the standard base64 alphabet. -/
def stdChar (v : Nat) : Char :=
  if v < 26 then Char.ofNat (65 + v)
  else if v < 52 then Char.ofNat (71 + v)
  else if v < 62 then Char.ofNat (v - 4)
  else if v = 62 then '+'
  else '/'

/-- `base64.StdEncoding.EncodeToString`: three bytes give four characters, and the last
group is padded with `=`. -/
def stdEncode : List Nat → List Char
  | a :: b :: c :: rest =>
    stdChar (a / 4) :: stdChar (a % 4 * 16 + b / 16) :: stdChar (b % 16 * 4 + c / 64) ::
      stdChar (c % 64) :: stdEncode rest
  | [a, b] => [stdChar (a / 4), stdChar (a % 4 * 16 + b / 16), stdChar (b % 16 * 4), '=']
  | [a] => [stdChar (a / 4), stdChar (a % 4 * 16), '=', '=']
  | [] => []

mutual
/-- Rendering `json.Marshal` gives one value; `none` is a marshalling error. A nil slice and
a nil map are written `null`, a `[]byte` as the string of its standard base64 text, and a
`float64` that holds a whole number of magnitude at most `2 ^ 53` with the digits of that
number. -/
def marshalValue : JVal → Option (List Char)
  | .null => some ['n', 'u', 'l', 'l']
  | .bool true => some ['t', 'r', 'u', 'e']
  | .bool false => some ['f', 'a', 'l', 's', 'e']
  | .int n => some (formatInt n)
  | .str s => some (quote s)
  | .arr xs =>
    match marshalElems xs with
    | some es => some ('[' :: joinComma es ++ [']'])
    | none => none
  | .obj kvs =>
    match marshalEntries kvs with
    | some fs => some (encodeObject fs)
    | none => none
  | .unsupported => none
  | .nilSlice => some ['n', 'u', 'l', 'l']
  | .nilMap => some ['n', 'u', 'l', 'l']
  | .bytes bs => some ('"' :: stdEncode bs ++ ['"'])
  | .float f => some (formatInt f.val)
/-- Renderings of the elements of a slice. -/
def marshalElems : List JVal → Option (List (List Char))
  | [] => some []
  | x :: xs =>
    match marshalValue x, marshalElems xs with
    | some a, some b => some (a :: b)
    | _, _ => none
/-- Renderings of the entries of a map, in the order of the association list. -/
def marshalEntries : List (GoString × JVal) → Option (List (GoString × List Char))
  | [] => some []
  | (k, v) :: rest =>
    match marshalValue v, marshalEntries rest with
    | some a, some b => some ((k, a) :: b)
    | _, _ => none
end

/-- A `map[string]interface{}` field: `none` is the nil map. -/
abbrev Body := Option (List (GoString × JVal))

/-- Rendering `json.Marshal` gives the body map: `null` for the nil map. -/
def marshalBody : Body → Option (List Char)
  | none => some ['n', 'u', 'l', 'l']
  | some kvs => marshalValue (.obj kvs)

/-- Number of entries: `len(m)`. -/
def Body.len : Body → Nat
  | none => 0
  | some kvs => kvs.length

/-! ## Artifacts (`artifact.go`) -/

/-- The `Artifact` struct; the field `Type` is `Type_` here. -/
structure Artifact where
  ID : UUID
  Type_ : GoString
  Version : Int
  WorkspaceID : UUID
  CreatedAt : GoString
  JSONBody : Body

/-- `TypeSSPFragment`. -/
def TypeSSPFragment : GoString := "ssp_fragment".toList
/-- `TypePOAMTemplate`. -/
def TypePOAMTemplate : GoString := "poam_template".toList
/-- `TypeAgentRecipe`. -/
def TypeAgentRecipe : GoString := "agent_recipe".toList
/-- `TypeBaselineModule`. -/
def TypeBaselineModule : GoString := "baseline_module".toList
/-- `TypeAuditScript`. -/
def TypeAuditScript : GoString := "audit_script".toList

/-- `NewArtifact`; `id` is the outcome of `uuid.New()` and `now` the formatted result of
`time.Now().UTC().Format(time.RFC3339)`. -/
def NewArtifact (id : UUID) (now : GoString) (artifactType : GoString) (workspaceID : UUID)
    (jsonBody : Body) : Artifact :=
  { ID := id, Type_ := artifactType, Version := 1, WorkspaceID := workspaceID,
    CreatedAt := now, JSONBody := jsonBody }

/-- Text `json.Marshal(a)` writes for an artifact: the struct fields in declaration order
under their JSON tags. `none` is the marshalling error. -/
def Artifact.marshal (a : Artifact) : Option GoString :=
  match marshalBody a.JSONBody with
  | none => none
  | some body =>
    some ("\x7b\"id\":".toList ++ quote a.ID.String ++
      ",\"type\":".toList ++ quote a.Type_ ++
      ",\"version\":".toList ++ formatInt a.Version ++
      ",\"workspaceId\":".toList ++ quote a.WorkspaceID.String ++
      ",\"createdAt\":".toList ++ quote a.CreatedAt ++
      ",\"jsonBody\":".toList ++ body ++ ['}'])

/-- `Artifact.Canonicalize`: the bytes of `json.Marshal(a)`; `none` is the error return. -/
def Artifact.Canonicalize (a : Artifact) : Option (List Nat) :=
  match a.marshal with
  | none => none
  | some text => some (utf8 text)

/-- Errors of `Artifact.Validate`, in the order of its checks; `marshal` is the error
returned by `json.Marshal(a.JSONBody)`. -/
inductive ValidateError where
  | nilID
  | nilWorkspace
  | badVersion
  | emptyType
  | emptyBody
  | marshal
  | tooLarge
deriving DecidableEq

/-- `Artifact.Validate`; `none` is the nil error. -/
def Artifact.Validate (a : Artifact) : Option ValidateError :=
  if a.ID = UUID.Nil then some .nilID
  else if a.WorkspaceID = UUID.Nil then some .nilWorkspace
  else if a.Version < 1 then some .badVersion
  else if a.Type_ = [] then some .emptyType
  else if a.JSONBody.len = 0 then some .emptyBody
  else
    match marshalBody a.JSONBody with
    | none => some .marshal
    | some data =>
      if (utf8 data).length > 1024 * 1024 then some .tooLarge
      else none

/-! ## `crypto/sha256` -/

namespace SHA256

/-- Round constants of SHA-256: the first 32 bits of the fractional parts of the cube roots
of the first 64 primes. -/
def K : List Nat := [
  1116352408, 1899447441, 3049323471, 3921009573, 961987163, 1508970993,
  2453635748, 2870763221, 3624381080, 310598401, 607225278, 1426881987,
  1925078388, 2162078206, 2614888103, 3248222580, 3835390401, 4022224774,
  264347078, 604807628, 770255983, 1249150122, 1555081692, 1996064986,
  2554220882, 2821834349, 2952996808, 3210313671, 3336571891, 3584528711,
  113926993, 338241895, 666307205, 773529912, 1294757372, 1396182291,
  1695183700, 1986661051, 2177026350, 2456956037, 2730485921, 2820302411,
  3259730800, 3345764771, 3516065817, 3600352804, 4094571909, 275423344,
  430227734, 506948616, 659060556, 883997877, 958139571, 1322822218,
  1537002063, 1747873779, 1955562222, 2024104815, 2227730452, 2361852424,
  2428436474, 2756734187, 3204031479, 3329325298]

/-- Initial hash value: the first 32 bits of the fractional parts of the square roots of the
first 8 primes. -/
def H0 : List Nat :=
  [1779033703, 3144134277, 1013904242, 2773480762,
   1359893119, 2600822924, 528734635, 1541459225]

/-- Rotation of a 32-bit word to the right. -/
def rotr (x k : Nat) : Nat := ((x >>> k) ||| (x <<< (32 - k))) % 4294967296
/-- The function Σ0. -/
def bsig0 (x : Nat) : Nat := rotr x 2 ^^^ rotr x 13 ^^^ rotr x 22
/-- The function Σ1. -/
def bsig1 (x : Nat) : Nat := rotr x 6 ^^^ rotr x 11 ^^^ rotr x 25
/-- The function σ0. -/
def ssig0 (x : Nat) : Nat := rotr x 7 ^^^ rotr x 18 ^^^ (x >>> 3)
/-- The function σ1. -/
def ssig1 (x : Nat) : Nat := rotr x 17 ^^^ rotr x 19 ^^^ (x >>> 10)
/-- The function Ch. -/
def ch (x y z : Nat) : Nat := (x &&& y) ^^^ ((x ^^^ 4294967295) &&& z)
/-- The function Maj. -/
def maj (x y z : Nat) : Nat := (x &&& y) ^^^ (x &&& z) ^^^ (y &&& z)

/-- Message padding: a one bit, zeros, the bit length on 64 bits. -/
def pad (msg : List Nat) : List Nat :=
  let l := msg.length
  msg ++ 128 :: List.replicate ((119 - l % 64) % 64) 0 ++
    (List.range 8).map (fun i => (8 * l) >>> (8 * (7 - i)) % 256)

/-- Big-endian 32-bit words of a block. -/
def words : List Nat → List Nat
  | a :: b :: c :: d :: rest => (a * 16777216 + b * 65536 + c * 256 + d) :: words rest
  | _ => []

/-- The next `k` words of the message schedule; `w` holds the last 16 words. -/
def schedule : Nat → List Nat → List Nat
  | 0, _ => []
  | k + 1, w =>
    let x := (ssig1 (w.getD 14 0) + w.getD 9 0 + ssig0 (w.getD 1 0) + w.getD 0 0) % 4294967296
    x :: schedule k (w.tail ++ [x])

/-- One round on the eight working variables. -/
def round (s : List Nat) (kw : Nat × Nat) : List Nat :=
  match s with
  | [a, b, c, d, e, f, g, h] =>
    let t1 := (h + bsig1 e + ch e f g + kw.1 + kw.2) % 4294967296
    let t2 := (bsig0 a + maj a b c) % 4294967296
    [(t1 + t2) % 4294967296, a, b, c, (d + t1) % 4294967296, e, f, g]
  | _ => s

/-- Compression of one 64-byte block into the hash state. -/
def compress (h : List Nat) (block : List Nat) : List Nat :=
  let w16 := words block
  let w := w16 ++ schedule 48 w16
  let s := (K.zip w).foldl round h
  List.zipWith (fun x y => (x + y) % 4294967296) h s

/-- Compression of the first `k` blocks of `m`. -/
def blocks : Nat → List Nat → List Nat → List Nat
  | 0, h, _ => h
  | k + 1, h, m => blocks k (compress h (m.take 64)) (m.drop 64)

/-- The 32-byte digest: `sha256.Sum256`. -/
def sum256 (msg : List Nat) : List Nat :=
  let m := pad msg
  (blocks (m.length / 64) H0 m).flatMap
    (fun w => [w >>> 24 % 256, w >>> 16 % 256, w >>> 8 % 256, w % 256])

end SHA256

/-- Lowercase hexadecimal of a byte string: `fmt.Sprintf("%x", bytes)`. -/
def hexOfBytes (bs : List Nat) : GoString := bs.flatMap (hexDigits 2)

/-- `Artifact.Hash`: the pair `(string, error)` it returns, `true` standing for the
non-nil error of `Canonicalize`. -/
def Artifact.Hash (a : Artifact) : GoString × Bool :=
  match a.Canonicalize with
  | none => ([], true)
  | some canonical => (hexOfBytes (SHA256.sum256 canonical), false)

/-! ## `encoding/base64`: `RawURLEncoding` -/

/-- The URL-safe alphabet: the character of a 6-bit value. -/
def b64Char (v : Nat) : Char :=
  if v < 26 then Char.ofNat (65 + v)
  else if v < 52 then Char.ofNat (71 + v)
  else if v < 62 then Char.ofNat (v - 4)
  else if v = 62 then '-'
  else '_'

/-- The 6-bit value of a character of the URL-safe alphabet. -/
def b64Val (c : Char) : Option Nat :=
  let v := c.toNat
  if 65 ≤ v ∧ v ≤ 90 then some (v - 65)
  else if 97 ≤ v ∧ v ≤ 122 then some (v - 71)
  else if 48 ≤ v ∧ v ≤ 57 then some (v + 4)
  else if c = '-' then some 62
  else if c = '_' then some 63
  else none

/-- `RawURLEncoding.EncodeToString`: three bytes give four characters, no padding. -/
def b64Encode : List Nat → List Char
  | a :: b :: c :: rest =>
    b64Char (a / 4) :: b64Char (a % 4 * 16 + b / 16) :: b64Char (b % 16 * 4 + c / 64) ::
      b64Char (c % 64) :: b64Encode rest
  | [a, b] => [b64Char (a / 4), b64Char (a % 4 * 16 + b / 16), b64Char (b % 16 * 4)]
  | [a] => [b64Char (a / 4), b64Char (a % 4 * 16)]
  | [] => []

/-- Values of the characters of a segment; `none` when one is outside the alphabet. -/
def b64Vals : List Char → Option (List Nat)
  | [] => some []
  | c :: cs =>
    match b64Val c, b64Vals cs with
    | some v, some vs => some (v :: vs)
    | _, _ => none

/-- Bytes of a sequence of 6-bit values. A final group of two or three values gives one or
two bytes, its unused low bits ignored (the decoder is not strict); a final group of one
value is an error. -/
def b64Bytes : List Nat → Option (List Nat)
  | a :: b :: c :: d :: rest =>
    match b64Bytes rest with
    | some bs => some ((a * 4 + b / 16) :: (b % 16 * 16 + c / 4) :: (c % 4 * 64 + d) :: bs)
    | none => none
  | [a, b, c] => some [a * 4 + b / 16, b % 16 * 16 + c / 4]
  | [a, b] => some [a * 4 + b / 16]
  | [_] => none
  | [] => some []

/-- `RawURLEncoding.DecodeString`: carriage returns and line feeds are skipped, every other
character must belong to the alphabet; `none` is the error return. -/
def b64Decode (s : GoString) : Option (List Nat) :=
  match b64Vals (s.filter fun c => c ≠ '\n' ∧ c ≠ '\r') with
  | none => none
  | some vs => b64Bytes vs

/-! ## `math/big`: byte strings of natural numbers -/

/-- The `k` low bytes of `n`, most significant first. -/
def beBytes : Nat → Nat → List Nat
  | 0, _ => []
  | k + 1, n => beBytes k (n / 256) ++ [n % 256]

/-- Number of bytes of `n` without leading zeros, zero for `n = 0`; `fuel` bounds it. -/
def byteLen : Nat → Nat → Nat
  | 0, _ => 0
  | fuel + 1, n => if n = 0 then 0 else byteLen fuel (n / 256) + 1

/-- `big.Int.Bytes`: the big-endian bytes without leading zeros; empty for zero. -/
def natBytes (n : Nat) : List Nat := beBytes (byteLen n n) n

/-- `big.Int.SetBytes`: the number a big-endian byte string spells. -/
def ofBytes (bs : List Nat) : Nat := bs.foldl (fun acc b => acc * 256 + b) 0

/-! ## `crypto/ecdsa` on the curve P-256 -/

namespace P256

/-- The field prime. -/
def p : Nat := 0xffffffff00000001000000000000000000000000ffffffffffffffffffffffff
/-- The curve coefficient `b` (the coefficient `a` is `p - 3`). -/
def b : Nat := 0x5ac635d8aa3a93e7b3ebbd55769886bc651d06b0cc53b0f63bce3c3e27d2604b
/-- The x coordinate of the base point. -/
def gx : Nat := 0x6b17d1f2e12c4247f8bce6e563a440f277037d812deb33a0f4a13945d898c296
/-- The y coordinate of the base point. -/
def gy : Nat := 0x4fe342e2fe1a7f9b8ee7eb4a7c0f9e162bce33576b315ececbb6406837bf51f5
/-- The order of the base point. -/
def n : Nat := 0xffffffff00000000ffffffffffffffffbce6faada7179e84f3b9cac2fc632551

/-- Modular exponentiation by squaring, `fuel` bounding the bit length of `e`. -/
def powMod : Nat → Nat → Nat → Nat → Nat
  | 0, _, _, _ => 1
  | fuel + 1, x, e, m =>
    if e = 0 then 1
    else
      let h := powMod fuel (x * x % m) (e / 2) m
      if e % 2 = 1 then x * h % m else h

/-- Inverse modulo a prime `m` below `2 ^ 256`. -/
def invMod (x m : Nat) : Nat := powMod 256 (x % m) (m - 2) m

/-- A point in Jacobian coordinates; `z = 0` is the point at infinity. -/
structure JPoint where
  x : Nat
  y : Nat
  z : Nat

/-- The point at infinity. -/
def JPoint.infinity : JPoint := ⟨1, 1, 0⟩

/-- Point doubling. -/
def jdouble (P : JPoint) : JPoint :=
  if P.z = 0 ∨ P.y = 0 then JPoint.infinity
  else
    let yy := P.y * P.y % p
    let s := 4 * P.x * yy % p
    let zz := P.z * P.z % p
    let m := 3 * ((P.x + (p - zz)) * (P.x + zz) % p) % p
    let x3 := (m * m + 2 * (p - s)) % p
    let y3 := (m * (s + (p - x3)) + (p - 8 * (yy * yy % p) % p)) % p
    let z3 := 2 * P.y * P.z % p
    ⟨x3, y3, z3⟩

/-- Point addition. -/
def jadd (P Q : JPoint) : JPoint :=
  if P.z = 0 then Q
  else if Q.z = 0 then P
  else
    let z1z1 := P.z * P.z % p
    let z2z2 := Q.z * Q.z % p
    let u1 := P.x * z2z2 % p
    let u2 := Q.x * z1z1 % p
    let s1 := P.y * Q.z % p * z2z2 % p
    let s2 := Q.y * P.z % p * z1z1 % p
    if u1 = u2 then
      if s1 = s2 then jdouble P else JPoint.infinity
    else
      let h := (u2 + (p - u1)) % p
      let r := (s2 + (p - s1)) % p
      let hh := h * h % p
      let hhh := h * hh % p
      let v := u1 * hh % p
      let x3 := (r * r + (p - hhh) + 2 * (p - v)) % p
      let y3 := (r * (v + (p - x3)) + (p - s1 * hhh % p)) % p
      let z3 := P.z * Q.z % p * h % p
      ⟨x3, y3, z3⟩

/-- Scalar multiplication, `fuel` bounding the bit length of `k`. -/
def jmul : Nat → Nat → JPoint → JPoint
  | 0, _, _ => JPoint.infinity
  | fuel + 1, k, P =>
    if k = 0 then JPoint.infinity
    else
      let r := jmul fuel (k / 2) (jdouble P)
      if k % 2 = 1 then jadd P r else r

/-- Affine x coordinate of a point that is not at infinity. -/
def affineX (P : JPoint) : Nat :=
  let zi := invMod P.z p
  P.x * (zi * zi % p) % p

/-- Affine y coordinate of a point that is not at infinity. -/
def affineY (P : JPoint) : Nat :=
  let zi := invMod P.z p
  P.y * (zi * zi % p * zi % p) % p

/-- Membership of an affine point in the curve. -/
def onCurve (x y : Nat) : Bool :=
  x < p && y < p && (y * y % p == (x * x * x + (p - 3) * x + b) % p)

end P256

/-- An `ecdsa.PublicKey` on P-256: the affine coordinates. -/
structure PublicKey where
  X : Nat
  Y : Nat
deriving DecidableEq

/-- An `ecdsa.PrivateKey` on P-256: the public key and the secret scalar `D`. -/
structure PrivateKey where
  PublicKey : PublicKey
  D : Nat
deriving DecidableEq

/-- The public key of a secret scalar: the point `D * G`. -/
def publicKeyOf (d : Nat) : PublicKey :=
  let q := P256.jmul 256 d ⟨P256.gx, P256.gy, 1⟩
  ⟨P256.affineX q, P256.affineY q⟩

/-- A key pair `ecdsa.GenerateKey(elliptic.P256(), _)` can return. -/
def PrivateKey.Valid (k : PrivateKey) : Prop :=
  1 ≤ k.D ∧ k.D < P256.n ∧ k.PublicKey = publicKeyOf k.D

/-- `ecdsa.Sign` with the per-signature secret `nonce` drawn from the random source: the
pair `(r, s)`. `none` stands for the error return (no usable nonce). -/
def ecdsaSign (priv : PrivateKey) (hash : List Nat) (nonce : Nat) : Option (Nat × Nat) :=
  if nonce = 0 ∨ P256.n ≤ nonce then none
  else
    let r := P256.affineX (P256.jmul 256 nonce ⟨P256.gx, P256.gy, 1⟩) % P256.n
    let s := P256.invMod nonce P256.n * ((ofBytes hash + r * priv.D) % P256.n) % P256.n
    if r = 0 ∨ s = 0 then none else some (r, s)

/-- `ecdsa.Verify`. -/
def ecdsaVerify (pub : PublicKey) (hash : List Nat) (r s : Nat) : Bool :=
  if r = 0 ∨ P256.n ≤ r ∨ s = 0 ∨ P256.n ≤ s then false
  else if !P256.onCurve pub.X pub.Y then false
  else
    let w := P256.invMod s P256.n
    let u1 := ofBytes hash % P256.n * w % P256.n
    let u2 := r * w % P256.n
    let R := P256.jadd (P256.jmul 256 u1 ⟨P256.gx, P256.gy, 1⟩)
      (P256.jmul 256 u2 ⟨pub.X, pub.Y, 1⟩)
    if R.z = 0 then false
    else P256.affineX R % P256.n == r

/-! ## The JWS envelope (`signer.go`) -/

/-- The `JWSHeader` struct. -/
structure JWSHeader where
  Alg : GoString
  Typ : GoString
  Kid : GoString
deriving DecidableEq

/-- The `JWSPayload` struct. -/
structure JWSPayload where
  Iss : GoString
  Sub : GoString
  Iat : Int
  Artifact : GoString
deriving DecidableEq

/-- Text `json.Marshal(header)` writes. -/
def JWSHeader.marshal (h : JWSHeader) : GoString :=
  "\x7b\"alg\":".toList ++ quote h.Alg ++ ",\"typ\":".toList ++ quote h.Typ ++
    ",\"kid\":".toList ++ quote h.Kid ++ ['}']

/-- Text `json.Marshal(payload)` writes. -/
def JWSPayload.marshal (c : JWSPayload) : GoString :=
  "\x7b\"iss\":".toList ++ quote c.Iss ++ ",\"sub\":".toList ++ quote c.Sub ++
    ",\"iat\":".toList ++ formatInt c.Iat ++ ",\"artifact\":".toList ++ quote c.Artifact ++ ['}']

/-- The only algorithm name `Sign` writes and `Verify` accepts. -/
def ES256 : GoString := "ES256".toList

/-- The `LocalSigner` struct. -/
structure LocalSigner where
  privateKey : PrivateKey
  keyID : GoString

/-- Errors of `LocalSigner.Sign`: the wrapped `Validate` error, the error of
`Canonicalize`, the error of `ecdsa.Sign`. -/
inductive SignError where
  | invalidArtifact (cause : ValidateError)
  | canonicalize
  | signing
deriving DecidableEq

/-- The header `Sign` builds. -/
def LocalSigner.header (s : LocalSigner) : JWSHeader :=
  { Alg := ES256, Typ := "JWT".toList, Kid := s.keyID }

/-- The claims `Sign` builds from an artifact, its canonical text and the clock. -/
def claimsOf (artifact : Artifact) (canonical : GoString) (now : Int) : JWSPayload :=
  { Iss := artifact.WorkspaceID.String, Sub := artifact.ID.String, Iat := now,
    Artifact := canonical }

/-- The string `headerB64 + "." + payloadB64` of `Sign`. -/
def signingInputOf (header : JWSHeader) (payload : JWSPayload) : GoString :=
  b64Encode (utf8 header.marshal) ++ '.' :: b64Encode (utf8 payload.marshal)

/-- The line `append(r.Bytes(), s.Bytes()...)` of `Sign`. -/
def encodeSignature (r s : Nat) : List Nat := natBytes r ++ natBytes s

/-- `LocalSigner.Sign`: the pair `(string, error)` it returns. `now` is the value of
`time.Now().Unix()` and `nonce` the secret `ecdsa.Sign` draws from `rand.Reader`. The source
binds the two components of the signature with `r, s, err := ecdsa.Sign(...)`, where `s` is
also the name of the receiver; the embedding reads them as two fresh variables, `r` and
`s'`. -/
def LocalSigner.Sign (s : LocalSigner) (artifact : Artifact) (now : Int) (nonce : Nat) :
    GoString × Option SignError :=
  match artifact.Validate with
  | some err => ([], some (.invalidArtifact err))
  | none =>
    match artifact.marshal with
    | none => ([], some .canonicalize)
    | some canonical =>
      let signingInput := signingInputOf s.header (claimsOf artifact canonical now)
      let hash := SHA256.sum256 (utf8 signingInput)
      match ecdsaSign s.privateKey hash nonce with
      | none => ([], some .signing)
      | some (r, s') =>
        (signingInput ++ '.' :: b64Encode (encodeSignature r s'), none)

/-- `LocalSigner.GetKeyID`. -/
def LocalSigner.GetKeyID (s : LocalSigner) : GoString := s.keyID

/-- `LocalSigner.GetPublicKey`. -/
def LocalSigner.GetPublicKey (s : LocalSigner) : PublicKey := s.privateKey.PublicKey

/-! ## Verification (`verifier.go`) -/

/-- `strings.Split(s, ".")`. -/
def splitDots : GoString → List GoString
  | [] => [[]]
  | c :: cs =>
    if c = '.' then [] :: splitDots cs
    else
      match splitDots cs with
      | [] => [[c]]
      | part :: parts => (c :: part) :: parts

/-- `json.Unmarshal` into a zero `JWSHeader` and into a zero `JWSPayload`, from the bytes of
the document; `none` is the error return. The decoder is a parameter of `Verify`. -/
structure JSONDecoder where
  unmarshalHeader : List Nat → Option JWSHeader
  unmarshalPayload : List Nat → Option JWSPayload

/-- The `Verifier` struct: the map from key ID to public key. -/
structure Verifier where
  publicKeys : GoString → Option PublicKey

/-- `NewVerifier`: the empty registry. -/
def NewVerifier : Verifier := ⟨fun _ => none⟩

/-- `Verifier.AddPublicKey`: `v.publicKeys[keyID] = publicKey`. -/
def Verifier.AddPublicKey (v : Verifier) (keyID : GoString) (publicKey : PublicKey) :
    Verifier :=
  ⟨fun k => if k = keyID then some publicKey else v.publicKeys k⟩

/-- Errors `Verify` returns, in the order of its checks. -/
inductive VerifyError where
  | invalidFormat
  | headerEncoding
  | headerJSON
  | unsupportedAlgorithm (alg : GoString)
  | unknownKeyID (kid : GoString)
  | payloadEncoding
  | payloadJSON
  | issuerMismatch
  | subjectMismatch
  | signatureEncoding
  | invalidSignature
deriving DecidableEq

/-- What a call of `Verify` does: return nil, return an error, or stop in a run-time panic
(slice bounds out of range). -/
inductive VerifyResult where
  | ok
  | error (e : VerifyError)
  | panic
deriving DecidableEq

/-- `Verifier.Verify`. Of the two slices, `signature[:32]` panics when the capacity of the
decoded signature is below 32 and `signature[32:]` when its length is: together they panic
exactly when the decoded signature has fewer than 32 bytes. -/
def Verifier.Verify (dec : JSONDecoder) (v : Verifier) (jws : GoString) (artifact : Artifact) :
    VerifyResult :=
  match splitDots jws with
  | [p0, p1, p2] =>
    match b64Decode p0 with
    | none => .error .headerEncoding
    | some headerJSON =>
      match dec.unmarshalHeader headerJSON with
      | none => .error .headerJSON
      | some header =>
        if header.Alg ≠ ES256 then .error (.unsupportedAlgorithm header.Alg)
        else
          match v.publicKeys header.Kid with
          | none => .error (.unknownKeyID header.Kid)
          | some publicKey =>
            match b64Decode p1 with
            | none => .error .payloadEncoding
            | some payloadJSON =>
              match dec.unmarshalPayload payloadJSON with
              | none => .error .payloadJSON
              | some payload =>
                if payload.Iss ≠ artifact.WorkspaceID.String then .error .issuerMismatch
                else if payload.Sub ≠ artifact.ID.String then .error .subjectMismatch
                else
                  match b64Decode p2 with
                  | none => .error .signatureEncoding
                  | some signature =>
                    if signature.length < 32 then .panic
                    else
                      let r := ofBytes (signature.take 32)
                      let s := ofBytes (signature.drop 32)
                      let hash := SHA256.sum256 (utf8 (p0 ++ '.' :: p1))
                      if !ecdsaVerify publicKey hash r s then .error .invalidSignature
                      else .ok
  | _ => .error .invalidFormat

/-! ## A reference JSON decoder

`refDecoder` reads exactly the documents `json.Marshal` writes for a `JWSHeader` and a
`JWSPayload` with ASCII content (compact, the fields in struct order) and returns on them
what `json.Unmarshal` returns; it refuses every other document. It instantiates the decoder
parameter at concrete envelopes. -/

/-- Characters of an ASCII byte string. -/
def asciiText : List Nat → Option GoString
  | [] => some []
  | b :: bs =>
    if b < 128 then
      match asciiText bs with
      | some cs => some (Char.ofNat b :: cs)
      | none => none
    else none

/-- Removal of a literal at the head of the input. -/
def stripLit : List Char → List Char → Option (List Char)
  | [], s => some s
  | _ :: _, [] => none
  | l :: ls, c :: cs => if l = c then stripLit ls cs else none

/-- Value of a hexadecimal digit. -/
def hexVal (c : Char) : Option Nat :=
  let v := c.toNat
  if 48 ≤ v ∧ v ≤ 57 then some (v - 48)
  else if 97 ≤ v ∧ v ≤ 102 then some (v - 87)
  else if 65 ≤ v ∧ v ≤ 70 then some (v - 55)
  else none

/-- Character named by a one-letter escape. -/
def unescapeLetter (e : Char) : Option Char :=
  if e = '"' then some '"'
  else if e = '\\' then some '\\'
  else if e = '/' then some '/'
  else if e = 'b' then some (Char.ofNat 8)
  else if e = 'f' then some (Char.ofNat 12)
  else if e = 'n' then some '\n'
  else if e = 'r' then some '\r'
  else if e = 't' then some '\t'
  else none

/-- Rest of a JSON string literal after its opening quote: the string it denotes and the
input after the closing quote. `fuel` bounds the number of characters read. -/
def unquoteRest : Nat → List Char → Option (GoString × List Char)
  | 0, _ => none
  | _ + 1, [] => none
  | fuel + 1, c :: cs =>
    if c = '"' then some ([], cs)
    else if c = '\\' then
      match cs with
      | 'u' :: h1 :: h2 :: h3 :: h4 :: rest =>
        match hexVal h1, hexVal h2, hexVal h3, hexVal h4 with
        | some a, some b, some c', some d =>
          let v := a * 4096 + b * 256 + c' * 16 + d
          if 55296 ≤ v ∧ v < 57344 then none
          else
            match unquoteRest fuel rest with
            | some (t, out) => some (Char.ofNat v :: t, out)
            | none => none
        | _, _, _, _ => none
      | e :: rest =>
        match unescapeLetter e, unquoteRest fuel rest with
        | some x, some (t, out) => some (x :: t, out)
        | _, _ => none
      | [] => none
    else if c.toNat < 32 then none
    else
      match unquoteRest fuel cs with
      | some (t, out) => some (c :: t, out)
      | none => none

/-- A JSON string literal at the head of the input. -/
def unquote : List Char → Option (GoString × List Char)
  | [] => none
  | c :: cs => if c = '"' then unquoteRest (cs.length + 1) cs else none

/-- Leading decimal digits of the input, as a number, and the rest of the input. -/
def readDigits : List Char → Nat → List Char × Nat × List Char
  | [], acc => ([], acc, [])
  | c :: cs, acc =>
    if 48 ≤ c.toNat ∧ c.toNat ≤ 57 then
      let r := readDigits cs (acc * 10 + (c.toNat - 48))
      (c :: r.1, r.2.1, r.2.2)
    else ([], acc, c :: cs)

/-- A JSON integer that fits an `int64`, at the head of the input. -/
def readInt (s : List Char) : Option (Int × List Char) :=
  let neg := s.head? = some '-'
  let r := readDigits (if neg then s.tail else s) 0
  if r.1 = [] ∨ (r.1.head? = some '0' ∧ r.1.length ≠ 1) then none
  else
    let v : Int := if neg then - (r.2.1 : Int) else (r.2.1 : Int)
    if v < -9223372036854775808 ∨ 9223372036854775807 < v then none
    else some (v, r.2.2)

/-- Header of a compact header document. -/
def parseHeader (s : List Char) : Option JWSHeader :=
  match stripLit "\x7b\"alg\":".toList s with
  | none => none
  | some s1 =>
    match unquote s1 with
    | none => none
    | some (alg, s2) =>
      match stripLit ",\"typ\":".toList s2 with
      | none => none
      | some s3 =>
        match unquote s3 with
        | none => none
        | some (typ, s4) =>
          match stripLit ",\"kid\":".toList s4 with
          | none => none
          | some s5 =>
            match unquote s5 with
            | some (kid, ['}']) => some { Alg := alg, Typ := typ, Kid := kid }
            | _ => none

/-- Claims of a compact payload document. -/
def parsePayload (s : List Char) : Option JWSPayload :=
  match stripLit "\x7b\"iss\":".toList s with
  | none => none
  | some s1 =>
    match unquote s1 with
    | none => none
    | some (iss, s2) =>
      match stripLit ",\"sub\":".toList s2 with
      | none => none
      | some s3 =>
        match unquote s3 with
        | none => none
        | some (sub, s4) =>
          match stripLit ",\"iat\":".toList s4 with
          | none => none
          | some s5 =>
            match readInt s5 with
            | none => none
            | some (iat, s6) =>
              match stripLit ",\"artifact\":".toList s6 with
              | none => none
              | some s7 =>
                match unquote s7 with
                | some (art, ['}']) => some { Iss := iss, Sub := sub, Iat := iat, Artifact := art }
                | _ => none

/-- The reference decoder. -/
def refDecoder : JSONDecoder where
  unmarshalHeader bytes :=
    match asciiText bytes with
    | none => none
    | some s => parseHeader s
  unmarshalPayload bytes :=
    match asciiText bytes with
    | none => none
    | some s => parsePayload s

/-! ## Bodies that differ only in the order of insertion -/

mutual
/-- No map of the value has a repeated key, at any depth: what a Go map guarantees. -/
def JVal.wf : JVal → Bool
  | .arr xs => wfElems xs
  | .obj kvs => decide (kvs.map Prod.fst).Nodup && wfEntries kvs
  | _ => true
/-- Every element of a slice is well formed. -/
def wfElems : List JVal → Bool
  | [] => true
  | x :: xs => x.wf && wfElems xs
/-- Every value of a map is well formed. -/
def wfEntries : List (GoString × JVal) → Bool
  | [] => true
  | (_, v) :: rest => v.wf && wfEntries rest
end

/-- A body is well formed when it is nil or a map without repeated keys at any depth. -/
def bodyWF : Body → Bool
  | none => true
  | some kvs => (JVal.obj kvs).wf

mutual
/-- Two values hold the same data: equal scalars, slices equal element by element, maps
with the same key/value pairs whatever the order of their entries. -/
def sameVal : JVal → JVal → Prop
  | .null, .null => True
  | .bool a, .bool b => a = b
  | .int a, .int b => a = b
  | .str a, .str b => a = b
  | .arr xs, .arr ys => sameElems xs ys
  | .obj kvs, .obj kvs2 => ∃ kvs1, sameFields kvs kvs1 ∧ kvs1.Perm kvs2
  | .unsupported, .unsupported => True
  | .nilSlice, .nilSlice => True
  | .nilMap, .nilMap => True
  | .bytes a, .bytes b => a = b
  | .float a, .float b => a.val = b.val
  | _, _ => False
/-- Slices that hold the same data, element by element. -/
def sameElems : List JVal → List JVal → Prop
  | [], [] => True
  | x :: xs, y :: ys => sameVal x y ∧ sameElems xs ys
  | _, _ => False
/-- Entry lists with the same keys in the same order and values that hold the same data. -/
def sameFields : List (GoString × JVal) → List (GoString × JVal) → Prop
  | [], [] => True
  | (k, v) :: rest, (k2, w) :: rest2 => k = k2 ∧ sameVal v w ∧ sameFields rest rest2
  | _, _ => False
end

/-- Two bodies hold the same data. -/
def sameBody : Body → Body → Prop
  | none, none => True
  | some kvs, some kvs2 => sameVal (.obj kvs) (.obj kvs2)
  | _, _ => False

mutual
/-- The value and every value inside it has one of the dynamic types nil interface, `bool`,
`int`, `string`, non-nil `[]interface{}` and non-nil `map[string]interface{}`. -/
def JVal.plain : JVal → Bool
  | .null => true
  | .bool _ => true
  | .int _ => true
  | .str _ => true
  | .arr xs => plainElems xs
  | .obj kvs => plainEntries kvs
  | _ => false
/-- Every element of a slice is plain. -/
def plainElems : List JVal → Bool
  | [] => true
  | x :: xs => x.plain && plainElems xs
/-- Every value of a map is plain. -/
def plainEntries : List (GoString × JVal) → Bool
  | [] => true
  | (_, v) :: rest => v.plain && plainEntries rest
end

/-- A body is plain when it is nil or a map of plain values. -/
def bodyPlain : Body → Bool
  | none => true
  | some kvs => plainEntries kvs

/-! ## Strings that are not valid UTF-8

A `GoString` holds valid text. `json.Marshal` also accepts a Go string whose bytes are not
valid UTF-8 and writes the escape of U+FFFD for every offending byte; `quoteBytes` is the
string encoder on arbitrary bytes, and `Artifact.marshalWithType` puts such a string in the
field `Type`. -/

/-- The UTF-8 sequence at the head of a byte string, as `utf8.DecodeRuneInString` reads it:
the character and the bytes after it. `none` stands for the result `(RuneError, 1)` of an
empty or invalid input: a byte that starts no sequence, a truncated sequence, an overlong
form, a surrogate or a value above U+10FFFF. -/
def decodeRune : List Nat → Option (Char × List Nat)
  | [] => none
  | b0 :: rest =>
    if b0 < 128 then some (Char.ofNat b0, rest)
    else if 194 ≤ b0 ∧ b0 < 224 then
      match rest with
      | b1 :: rest1 =>
        if 128 ≤ b1 ∧ b1 < 192 then some (Char.ofNat ((b0 - 192) * 64 + (b1 - 128)), rest1)
        else none
      | _ => none
    else if 224 ≤ b0 ∧ b0 < 240 then
      match rest with
      | b1 :: b2 :: rest2 =>
        if (if b0 = 224 then 160 else 128) ≤ b1 ∧ b1 < (if b0 = 237 then 160 else 192) ∧
            128 ≤ b2 ∧ b2 < 192 then
          some (Char.ofNat ((b0 - 224) * 4096 + (b1 - 128) * 64 + (b2 - 128)), rest2)
        else none
      | _ => none
    else if 240 ≤ b0 ∧ b0 < 245 then
      match rest with
      | b1 :: b2 :: b3 :: rest3 =>
        if (if b0 = 240 then 144 else 128) ≤ b1 ∧ b1 < (if b0 = 244 then 144 else 192) ∧
            128 ≤ b2 ∧ b2 < 192 ∧ 128 ≤ b3 ∧ b3 < 192 then
          some (Char.ofNat ((b0 - 240) * 262144 + (b1 - 128) * 4096 + (b2 - 128) * 64 +
            (b3 - 128)), rest3)
        else none
      | _ => none
    else none

/-- What `json.Marshal` writes between the quotes for a Go string given by its bytes, which
need not be valid UTF-8: every character as `escapeChar` writes it, and the six characters
of the escape of U+FFFD (backslash, `u`, `f`, `f`, `f`, `d`) for every byte at which no valid
sequence starts. `fuel` bounds the number of steps. -/
def escapeBytes : Nat → List Nat → List Char
  | 0, _ => []
  | _ + 1, [] => []
  | fuel + 1, b :: rest =>
    match decodeRune (b :: rest) with
    | some (c, rest1) => escapeChar c ++ escapeBytes fuel rest1
    | none => '\\' :: 'u' :: 'f' :: 'f' :: 'f' :: 'd' :: escapeBytes fuel rest

/-- A Go string given by its bytes, as a JSON string literal. -/
def quoteBytes (bs : List Nat) : List Char := '"' :: escapeBytes bs.length bs ++ ['"']

/-- Text `json.Marshal(a)` writes for the artifact that has the string with the bytes `type`
in its field `Type` and the other fields of `a`. -/
def Artifact.marshalWithType (a : Artifact) (type : List Nat) : Option GoString :=
  match marshalBody a.JSONBody with
  | none => none
  | some body =>
    some ("\x7b\"id\":".toList ++ quote a.ID.String ++
      ",\"type\":".toList ++ quoteBytes type ++
      ",\"version\":".toList ++ formatInt a.Version ++
      ",\"workspaceId\":".toList ++ quote a.WorkspaceID.String ++
      ",\"createdAt\":".toList ++ quote a.CreatedAt ++
      ",\"jsonBody\":".toList ++ body ++ ['}'])

/-- `Canonicalize` for the artifact that has the string with the bytes `type` in its field
`Type` and the other fields of `a`. -/
def Artifact.CanonicalizeWithType (a : Artifact) (type : List Nat) : Option (List Nat) :=
  match a.marshalWithType type with
  | none => none
  | some text => some (utf8 text)

/-! ## Reading a compact JSON document -/

/-- Rest of a compact JSON document after the value at its head: the input from the first
comma or closing bracket that is outside every string and every bracket pair opened by the
value. `depth` counts the open brackets, `inStr` tells whether the position is inside a
string literal and `esc` whether the last character was the backslash of an escape. -/
def skipValue : Nat → Bool → Bool → List Char → Option (List Char)
  | _, _, _, [] => none
  | depth, true, true, _ :: cs => skipValue depth true false cs
  | depth, true, false, c :: cs =>
    if c = '\\' then skipValue depth true true cs
    else if c = '"' then skipValue depth false false cs
    else skipValue depth true false cs
  | depth, false, _, c :: cs =>
    if c = '"' then skipValue depth true false cs
    else if c = '[' ∨ c = '{' then skipValue (depth + 1) false false cs
    else if c = ']' ∨ c = '}' then
      match depth with
      | 0 => some (c :: cs)
      | d + 1 => skipValue d false false cs
    else if c = ',' ∧ depth = 0 then some (c :: cs)
    else skipValue depth false false cs

/-- Keys of the entries of a compact JSON object after its opening brace, in the order in
which they are written. `fuel` bounds the number of entries. -/
def entryKeys : Nat → List Char → Option (List GoString)
  | 0, _ => none
  | fuel + 1, s =>
    match unquote s with
    | none => none
    | some (key, s1) =>
      match stripLit [':'] s1 with
      | none => none
      | some s2 =>
        match skipValue 0 false false s2 with
        | some (',' :: s3) =>
          match entryKeys fuel s3 with
          | some keys => some (key :: keys)
          | none => none
        | some ['}'] => some [key]
        | _ => none

/-- Keys of the top-level object of a compact JSON document, in the order in which they are
written. -/
def objectKeys (s : List Char) : Option (List GoString) :=
  match s with
  | ['{', '}'] => some []
  | '{' :: rest => entryKeys rest.length rest
  | _ => none

/-- A list of keys is in lexicographic order. -/
def keysSorted : List GoString → Bool
  | a :: b :: rest => keyLe a b && keysSorted (b :: rest)
  | _ => true

/-! ## Auxiliary functions of the proofs -/

/-- A decimal digit. -/
def isDigit (c : Char) : Bool := decide (48 ≤ c.toNat) && decide (c.toNat ≤ 57)

/-- What can follow a value in a compact document: the end of the input or a character that
is no digit. -/
def Stop (r : List Char) : Prop := ∀ c rest, r = c :: rest → isDigit c = false

/-- Number spelled by decimal digits. -/
def digitsValue (ds : List Char) : Nat := ds.foldl (fun acc c => acc * 10 + (c.toNat - 48)) 0

/-- Kind of a value; for a plain value its first character tells it. -/
def kindOf : JVal → Nat
  | .null => 0
  | .bool true => 1
  | .bool false => 2
  | .int _ => 3
  | .str _ => 4
  | .arr _ => 5
  | .obj _ => 6
  | .unsupported => 7
  | .nilSlice => 8
  | .nilMap => 9
  | .bytes _ => 10
  | .float _ => 11

/-- Kind of the value a character starts. -/
def kindOfChar (c : Char) : Nat :=
  if c = 'n' then 0 else if c = 't' then 1 else if c = 'f' then 2 else if c = '"' then 4
  else if c = '[' then 5 else if c = '{' then 6 else 3

/-- The text of a value is read back without ambiguity from the head of a longer text that
starts with the text of a plain value, when what follows it is no digit. -/
def ReadsBack (v : JVal) : Prop :=
  ∀ (w : JVal) (t u r r' : List Char), w.plain = true → marshalValue v = some t →
    marshalValue w = some u → t ++ r = u ++ r' → Stop r → Stop r' → t = u ∧ r = r'

/-- The 6-bit values `b64Encode` turns into characters. -/
def sextets : List Nat → List Nat
  | a :: b :: c :: rest =>
    a / 4 :: (a % 4 * 16 + b / 16) :: (b % 16 * 4 + c / 64) :: c % 64 :: sextets rest
  | [a, b] => [a / 4, a % 4 * 16 + b / 16, b % 16 * 4]
  | [a] => [a / 4, a % 4 * 16]
  | [] => []

/-- Number of characters of a segment the base64 decoder reads (all but CR and LF). -/
def significant (s : GoString) : Nat := (s.filter fun c => c ≠ '\n' ∧ c ≠ '\r').length

/-- Two lists of rendered entries are both absent, or both present and permutations of one
another. -/
def optPerm : Option (List (GoString × List Char)) → Option (List (GoString × List Char)) → Prop
  | none, none => True
  | some a, some b => a.Perm b
  | _, _ => False

/-! ## The scenario of the test suite, with fixed randomness

The key pair is the P-256 key of RFC 6979, appendix A.2.5; the artifact is the one of
`TestSigningAndVerification` with fixed identifiers and time stamp. -/

/-- The key pair. -/
def exampleKey : PrivateKey :=
  { PublicKey :=
      { X := 0x60fed4ba255a9d31c961eb74c6356d68c049b8923b61fa6ce669622e60f29fb6
        Y := 0x7903fe1008b8bc99a41ae9e95628bc64f2f1b20c2d7e9f5177a3c294d4462299 }
    D := 0xc9afa9d845ba75166b5c215767b1d6934e50c3db36e89b127b8a622b120f6721 }

/-- The signer, with key ID `kid1`. -/
def exampleSigner : LocalSigner := { privateKey := exampleKey, keyID := "kid1".toList }

/-- The artifact `agent_recipe` with body `{"name":"test-agent"}`. -/
def exampleArtifact : Artifact :=
  NewArtifact (UUID.ofNat 0x0123456789abcdef0123456789abcdef) "2024-01-01T00:00:00Z".toList
    TypeAgentRecipe (UUID.ofNat 0x11111122223333444455556666777788)
    (some [("name".toList, .str "test-agent".toList)])

/-- The verifier of the test: `kid1` registered to the signer's public key. -/
def exampleVerifier : Verifier :=
  NewVerifier.AddPublicKey exampleSigner.GetKeyID exampleSigner.GetPublicKey

/-- Time of signing, `time.Now().Unix()`. -/
def exampleNow : Int := 1700000000

/-- A nonce whose signature has `r` and `s` of 32 bytes each. -/
def longNonce : Nat := 12345

/-- A nonce whose signature has an `r` of 31 bytes. -/
def shortNonce : Nat := 379

/-- The text of `exampleArtifact.Canonicalize()`. -/
def exampleCanonical : GoString :=
  ("\x7b\"id\":\"01234567-89ab-cdef-0123-456789abcdef\",\"type\":\"agent_recipe\"," ++
   "\"version\":1,\"workspaceId\":\"11111122-2233-3344-4455-556666777788\"," ++
   "\"createdAt\":\"2024-01-01T00:00:00Z\",\"jsonBody\":\x7b\"name\":\"test-agent\"\x7d\x7d").toList

/-- The header segment of the envelopes `exampleSigner` makes. -/
def exampleHeaderB64 : GoString :=
  "eyJhbGciOiJFUzI1NiIsInR5cCI6IkpXVCIsImtpZCI6ImtpZDEifQ".toList

/-- The payload segment of the envelopes made for `exampleArtifact` at `exampleNow`. -/
def examplePayloadB64 : GoString :=
  ("eyJpc3MiOiIxMTExMTEyMi0yMjMzLTMzNDQtNDQ1NS01NTY2NjY3Nzc3ODgiLCJzdWIiOiIwMTIzNDU2Ny04OWFi" ++
   "LWNkZWYtMDEyMy00NTY3ODlhYmNkZWYiLCJpYXQiOjE3MDAwMDAwMDAsImFydGlmYWN0Ijoie1wiaWRcIjpcIjAx" ++
   "MjM0NTY3LTg5YWItY2RlZi0wMTIzLTQ1Njc4OWFiY2RlZlwiLFwidHlwZVwiOlwiYWdlbnRfcmVjaXBlXCIsXCJ2" ++
   "ZXJzaW9uXCI6MSxcIndvcmtzcGFjZUlkXCI6XCIxMTExMTEyMi0yMjMzLTMzNDQtNDQ1NS01NTY2NjY3Nzc3ODhc" ++
   "IixcImNyZWF0ZWRBdFwiOlwiMjAyNC0wMS0wMVQwMDowMDowMFpcIixcImpzb25Cb2R5XCI6e1wibmFtZVwiOlwi" ++
   "dGVzdC1hZ2VudFwifX0ifQ").toList

/-- The string `Sign` and `Verify` hash: header segment, dot, payload segment. -/
def exampleSigningInput : GoString := exampleHeaderB64 ++ '.' :: examplePayloadB64

/-- The SHA-256 digest of `exampleSigningInput`. -/
def exampleDigest : List Nat :=
  [188, 33, 162, 252, 140, 33, 145, 121, 26, 191, 127, 165, 94, 57, 69, 48,
   254, 126, 184, 42, 137, 203, 98, 129, 193, 27, 206, 82, 248, 115, 215, 136]

/-- The pair `(r, s)` that `ecdsa.Sign` returns with `longNonce`. -/
def longSignature : Nat × Nat :=
  (0x26efcebd0ee9e34a669187e18b3a9122b2f733945b649cc9f9f921e9f9dad812,
   0x89ea403680818a04f22eb53380af4bbd7d9501830e49092dec38570b4bf5c260)

/-- The signature segment `Sign` writes with `longNonce`, without its last character `A`. -/
def exampleSignatureInit : GoString :=
  "Ju_OvQ7p40pmkYfhizqRIrL3M5RbZJzJ-fkh6fna2BKJ6kA2gIGKBPIutTOAr0u9fZUBgw5JCS3sOFcLS_XCY".toList

/-- The envelope `Sign` returns with `longNonce`. -/
def exampleJWS : GoString :=
  exampleHeaderB64 ++ '.' :: (examplePayloadB64 ++ '.' :: (exampleSignatureInit ++ ['A']))

/-- `exampleJWS` with the last character of its signature, `A`, replaced by `B`. -/
def tamperedJWS : GoString :=
  exampleHeaderB64 ++ '.' :: (examplePayloadB64 ++ '.' :: (exampleSignatureInit ++ ['B']))

/-- The pair `(r, s)` that `ecdsa.Sign` returns with `shortNonce`: `r` is below `2 ^ 248`. -/
def shortSignature : Nat × Nat :=
  (0x5543894af3d00ed7d740abdbd75c96b06877b787db5f70eea78b90a8d7c00a,
   0x182945ae16acfc80dcfe9823285d8ae0c38c2587baf10a0547d3fa978c72a687)

/-- The signature segment `Sign` writes with `shortNonce`: 84 characters, 63 bytes. -/
def shortSignatureB64 : GoString :=
  "VUOJSvPQDtfXQKvb11yWsGh3t4fbX3Dup4uQqNfAChgpRa4WrPyA3P6YIyhdiuDDjCWHuvEKBUfT-peMcqaH".toList

/-- The envelope `Sign` returns with `shortNonce`. -/
def shortJWS : GoString :=
  exampleHeaderB64 ++ '.' :: (examplePayloadB64 ++ '.' :: shortSignatureB64)

/-- The claims an envelope carries, as the decoder reads them from its second segment. -/
def payloadOf (dec : JSONDecoder) (jws : GoString) : Option JWSPayload :=
  match splitDots jws with
  | [_, p1, _] =>
    match b64Decode p1 with
    | some payloadJSON => dec.unmarshalPayload payloadJSON
    | none => none
  | _ => none

/-- Number of positions at which two strings of the same length differ. -/
def differences (s t : GoString) : Nat := ((s.zip t).filter fun p => p.1 ≠ p.2).length

/-- The example artifact with another body, `{"name":"evil-agent"}`. -/
def otherBodyArtifact : Artifact :=
  { exampleArtifact with JSONBody := some [("name".toList, .str "evil-agent".toList)] }

/-- An artifact with the identifier of another artifact of the same workspace. -/
def otherIDArtifact : Artifact :=
  { exampleArtifact with ID := UUID.ofNat 0xfedcba9876543210fedcba9876543210 }

/-- An artifact whose type is outside the enumeration. -/
def freeFormArtifact : Artifact :=
  { exampleArtifact with Type_ := "free_form".toList }

/-- An artifact whose body holds a value `json.Marshal` refuses. -/
def unsupportedArtifact : Artifact :=
  { exampleArtifact with JSONBody := some [("callback".toList, .unsupported)] }

/-- An artifact whose body is `{"k":"aa...a"}` with `n` letters: `n + 8` bytes of JSON. -/
def paddedArtifact (n : Nat) : Artifact :=
  { exampleArtifact with JSONBody := some [(['k'], .str (List.replicate n 'a'))] }

/-- A header segment whose algorithm is `none`. -/
def noneAlgJWS : GoString :=
  b64Encode (utf8 ({ Alg := "none".toList, Typ := "JWT".toList, Kid := "kid1".toList } :
    JWSHeader).marshal) ++ ".e30.".toList

/-- A header segment with a key ID that `exampleVerifier` does not know. -/
def unknownKidJWS : GoString :=
  b64Encode (utf8 ({ Alg := ES256, Typ := "JWT".toList, Kid := "kid2".toList } :
    JWSHeader).marshal) ++ ".e30.".toList

/-- A body with nested maps. -/
def nestedBody : Body :=
  some [("name".toList, .str "test-agent".toList),
        ("limits".toList, .obj [("cpu".toList, .int 2), ("mem".toList, .int 512)]),
        ("tags".toList, .arr [.str "a".toList, .obj [("x".toList, .null), ("y".toList, .bool true)]])]

/-- The same data as `nestedBody`, the keys inserted in another order at every level. -/
def reorderedBody : Body :=
  some [("tags".toList, .arr [.str "a".toList, .obj [("y".toList, .bool true), ("x".toList, .null)]]),
        ("name".toList, .str "test-agent".toList),
        ("limits".toList, .obj [("mem".toList, .int 512), ("cpu".toList, .int 2)])]

/-- The example envelope with an empty signature segment. -/
def emptySignatureJWS : GoString :=
  exampleHeaderB64 ++ '.' :: (examplePayloadB64 ++ ['.'])

/-- The two halves of `longSignature` at the fixed width of 32 bytes, with four zero bytes
between them: 68 bytes, which `signature[:32]` and `signature[32:]` read as the same pair. -/
def paddedSignature : List Nat :=
  beBytes 32 longSignature.1 ++ [0, 0, 0, 0] ++ beBytes 32 longSignature.2

/-- The base64url text of `paddedSignature`. -/
def paddedSignatureB64 : GoString :=
  ("Ju_OvQ7p40pmkYfhizqRIrL3M5RbZJzJ-fkh6fna2BIAAAAAiepANoCBigTyLrUzgK9LvX2VAYMOSQkt7DhXC0v1" ++
   "wmA").toList

/-- The example envelope with `paddedSignature` for its signature. -/
def paddedJWS : GoString :=
  exampleHeaderB64 ++ '.' :: (examplePayloadB64 ++ '.' :: paddedSignatureB64)

/-- The text of `otherBodyArtifact.Canonicalize()`. -/
def otherBodyCanonical : GoString :=
  ("\x7b\"id\":\"01234567-89ab-cdef-0123-456789abcdef\",\"type\":\"agent_recipe\"," ++
   "\"version\":1,\"workspaceId\":\"11111122-2233-3344-4455-556666777788\"," ++
   "\"createdAt\":\"2024-01-01T00:00:00Z\",\"jsonBody\":\x7b\"name\":\"evil-agent\"\x7d\x7d").toList

/-- The canonical text of the example artifact when its type is a string of one byte that is
not valid UTF-8. -/
def replacedTypeCanonical : GoString :=
  ("\x7b\"id\":\"01234567-89ab-cdef-0123-456789abcdef\",\"type\":\"\\ufffd\"," ++
   "\"version\":1,\"workspaceId\":\"11111122-2233-3344-4455-556666777788\"," ++
   "\"createdAt\":\"2024-01-01T00:00:00Z\",\"jsonBody\":\x7b\"name\":\"test-agent\"\x7d\x7d").toList

/-- The example artifact with a body of one entry, the value `v` under the key `a`. -/
def withValue (v : JVal) : Artifact :=
  { exampleArtifact with JSONBody := some [(['a'], v)] }

/-- The whole number 1 as a `float64`. -/
def floatOne : WholeFloat := ⟨1, by decide⟩

/-! # Theorems -/

set_option maxRecDepth 100000

/-! ## Base64 and `strings.Split` -/

theorem b64Val_b64Char (v : Nat) (h : v < 64) : b64Val (b64Char v) = some v := by
  interval_cases v <;> rfl

theorem b64Char_ne (v : Nat) : b64Char v ≠ '.' ∧ b64Char v ≠ '\n' ∧ b64Char v ≠ '\r' := by
  by_cases h : v < 64
  · interval_cases v <;> decide
  · have h1 : ¬ v < 26 := by omega
    have h2 : ¬ v < 52 := by omega
    have h3 : ¬ v < 62 := by omega
    simp only [b64Char, h1, h2, h3, if_false]
    split_ifs <;> decide

theorem b64Encode_eq_map (bs : List Nat) : b64Encode bs = (sextets bs).map b64Char := by
  induction bs using sextets.induct with
  | case1 a b c rest ih => simp [b64Encode, sextets, ih]
  | case2 a b => simp [b64Encode, sextets]
  | case3 a => simp [b64Encode, sextets]
  | case4 => simp [b64Encode, sextets]

theorem sextets_lt (bs : List Nat) (h : ∀ b ∈ bs, b < 256) : ∀ v ∈ sextets bs, v < 64 := by
  induction bs using sextets.induct with
  | case1 a b c rest ih =>
    simp only [List.mem_cons, forall_eq_or_imp] at h
    obtain ⟨ha, hb, hc, hr⟩ := h
    simp only [sextets, List.mem_cons, forall_eq_or_imp]
    refine ⟨by omega, by omega, by omega, by omega, ih hr⟩
  | case2 a b =>
    simp only [List.mem_cons, forall_eq_or_imp] at h
    obtain ⟨ha, hb, _⟩ := h
    simp only [sextets, List.mem_cons, forall_eq_or_imp]
    refine ⟨by omega, by omega, by omega, ?_⟩
    simp
  | case3 a =>
    simp only [List.mem_cons, forall_eq_or_imp] at h
    obtain ⟨ha, _⟩ := h
    simp only [sextets, List.mem_cons, forall_eq_or_imp]
    refine ⟨by omega, by omega, ?_⟩
    simp
  | case4 => simp [sextets]

theorem b64Vals_map (vs : List Nat) (h : ∀ v ∈ vs, v < 64) :
    b64Vals (vs.map b64Char) = some vs := by
  induction vs with
  | nil => rfl
  | cons v vs ih =>
    simp only [List.mem_cons, forall_eq_or_imp] at h
    simp [b64Vals, b64Val_b64Char v h.1, ih h.2]

theorem b64Bytes_sextets (bs : List Nat) (h : ∀ b ∈ bs, b < 256) :
    b64Bytes (sextets bs) = some bs := by
  induction bs using sextets.induct with
  | case1 a b c rest ih =>
    simp only [List.mem_cons, forall_eq_or_imp] at h
    obtain ⟨ha, hb, hc, hr⟩ := h
    simp only [sextets, b64Bytes, ih hr]
    congr 2
    · omega
    · congr 1
      · omega
      · congr 1
        omega
  | case2 a b =>
    simp only [List.mem_cons, forall_eq_or_imp] at h
    obtain ⟨ha, hb, _⟩ := h
    simp only [sextets, b64Bytes]
    congr 2
    · omega
    · congr 1
      omega
  | case3 a =>
    simp only [List.mem_cons, forall_eq_or_imp] at h
    obtain ⟨ha, _⟩ := h
    simp only [sextets, b64Bytes]
    congr 2
    omega
  | case4 => rfl

theorem filter_b64Encode (bs : List Nat) :
    (b64Encode bs).filter (fun c => decide (c ≠ '\n' ∧ c ≠ '\r')) = b64Encode bs := by
  rw [List.filter_eq_self]
  intro c hc
  rw [b64Encode_eq_map] at hc
  obtain ⟨v, _, rfl⟩ := List.mem_map.1 hc
  have := b64Char_ne v
  simp [this.2.1, this.2.2]

theorem b64Decode_b64Encode (bs : List Nat) (h : ∀ b ∈ bs, b < 256) :
    b64Decode (b64Encode bs) = some bs := by
  unfold b64Decode
  rw [filter_b64Encode, b64Encode_eq_map, b64Vals_map _ (sextets_lt bs h)]
  exact b64Bytes_sextets bs h

theorem dot_not_mem_b64Encode (bs : List Nat) : '.' ∉ b64Encode bs := by
  rw [b64Encode_eq_map]
  intro hc
  obtain ⟨v, _, hv⟩ := List.mem_map.1 hc
  exact (b64Char_ne v).1 hv

theorem splitDots_of_not_mem (s : GoString) (h : '.' ∉ s) : splitDots s = [s] := by
  induction s with
  | nil => rfl
  | cons c cs ih =>
    simp only [List.mem_cons, not_or] at h
    have hc : c ≠ '.' := fun e => h.1 e.symm
    simp [splitDots, hc, ih h.2]

theorem splitDots_append (s t : GoString) (h : '.' ∉ s) :
    splitDots (s ++ '.' :: t) = s :: splitDots t := by
  induction s with
  | nil => simp [splitDots]
  | cons c cs ih =>
    simp only [List.mem_cons, not_or] at h
    have hc : c ≠ '.' := fun e => h.1 e.symm
    simp [splitDots, hc, ih h.2]

theorem splitDots_three (p0 p1 p2 : GoString) (h0 : '.' ∉ p0) (h1 : '.' ∉ p1) (h2 : '.' ∉ p2) :
    splitDots (p0 ++ '.' :: (p1 ++ '.' :: p2)) = [p0, p1, p2] := by
  rw [splitDots_append _ _ h0, splitDots_append _ _ h1, splitDots_of_not_mem _ h2]

theorem utf8_lt (s : GoString) : ∀ b ∈ utf8 s, b < 256 := by
  intro b hb
  simp only [utf8, List.mem_flatMap] at hb
  obtain ⟨c, _, hc⟩ := hb
  have hv : c.toNat < 1114112 := by
    have h : c.val.toNat.isValidChar := c.valid
    have e : c.toNat = c.val.toNat := rfl
    unfold Nat.isValidChar at h
    omega
  unfold utf8Char at hc
  simp only at hc
  split_ifs at hc <;> simp only [List.mem_cons, List.mem_singleton, List.not_mem_nil, or_false] at hc <;> omega

/-! ## UUID strings -/

theorem hexDigit_inj (a b : Nat) (ha : a < 16) (hb : b < 16) (h : hexDigit a = hexDigit b) :
    a = b := by
  have key : ∀ d, d < 16 → hexVal (hexDigit d) = some d := by
    intro d hd
    interval_cases d <;> rfl
  have := key a ha
  rw [h, key b hb] at this
  exact (Option.some.inj this).symm

theorem hexDigit_ne_dash (d : Nat) (hd : d < 16) : hexDigit d ≠ '-' := by
  interval_cases d <;> decide

theorem length_hexDigits (k v : Nat) : (hexDigits k v).length = k := by
  induction k generalizing v with
  | zero => rfl
  | succ k ih => simp [hexDigits, ih]

theorem hexDigits_inj (k v w : Nat) (h : hexDigits k v = hexDigits k w) :
    v % 16 ^ k = w % 16 ^ k := by
  induction k generalizing v w with
  | zero => simp [Nat.mod_one]
  | succ k ih =>
    simp only [hexDigits] at h
    obtain ⟨h1, h2⟩ := List.append_inj' h rfl
    have e1 := ih _ _ h1
    have e2 : v % 16 = w % 16 :=
      hexDigit_inj _ _ (Nat.mod_lt _ (by decide)) (Nat.mod_lt _ (by decide)) (List.singleton_inj.1 h2)
    rw [pow_succ', Nat.mod_mul, Nat.mod_mul, e1, e2]

theorem dash_not_mem_hexDigits (k v : Nat) : '-' ∉ hexDigits k v := by
  induction k generalizing v with
  | zero => simp [hexDigits]
  | succ k ih =>
    simp only [hexDigits, List.mem_append, List.mem_singleton, not_or]
    exact ⟨ih _, fun e => hexDigit_ne_dash _ (Nat.mod_lt _ (by decide)) e.symm⟩

theorem UUID.filter_String (u : UUID) :
    u.String.filter (fun c => c != '-') = hexDigits 32 u.val := by
  have hf : ∀ l : List Char, '-' ∉ l → l.filter (fun c => c != '-') = l := by
    intro l hl
    rw [List.filter_eq_self]
    intro c hc
    simpa using fun e : c = '-' => hl (e ▸ hc)
  have hn := dash_not_mem_hexDigits 32 u.val
  unfold UUID.String
  generalize hexDigits 32 u.val = h at hn ⊢
  have hsub : ∀ l : List Char, (∀ c ∈ l, c ∈ h) → '-' ∉ l := fun l hl hc => hn (hl _ hc)
  have hd : (('-' : Char) != '-') = false := by decide
  simp only [List.filter_append, List.filter_cons, hd, Bool.false_eq_true, if_false]
  rw [hf _ (hsub _ fun c hc => List.mem_of_mem_take hc),
    hf _ (hsub _ fun c hc => List.mem_of_mem_drop (List.mem_of_mem_take hc)),
    hf _ (hsub _ fun c hc => List.mem_of_mem_drop (List.mem_of_mem_take hc)),
    hf _ (hsub _ fun c hc => List.mem_of_mem_drop (List.mem_of_mem_take hc)),
    hf _ (hsub _ fun c hc => List.mem_of_mem_drop hc)]
  have e1 : h.drop 20 = (h.drop 16).drop 4 := by rw [List.drop_drop]
  have e2 : h.drop 16 = (h.drop 12).drop 4 := by rw [List.drop_drop]
  have e3 : h.drop 12 = (h.drop 8).drop 4 := by rw [List.drop_drop]
  rw [e1, List.append_assoc, List.take_append_drop, e2, List.append_assoc,
    List.take_append_drop, e3, List.append_assoc, List.take_append_drop,
    List.take_append_drop]

theorem UUID.String_inj (u v : UUID) (h : u.String = v.String) : u = v := by
  have e : hexDigits 32 u.val = hexDigits 32 v.val := by
    rw [← UUID.filter_String, ← UUID.filter_String, h]
  have := hexDigits_inj 32 _ _ e
  have hu : u.val < 16 ^ 32 := u.isLt
  have hv : v.val < 16 ^ 32 := v.isLt
  rw [Nat.mod_eq_of_lt hu, Nat.mod_eq_of_lt hv] at this
  cases u; cases v; simp_all

/-! ## The shape of `Sign` and `Verify` -/

/-- The envelope of a successful `Sign`: what it is made of. -/
theorem Sign_eq_of_success (s : LocalSigner) (a : Artifact) (now : Int) (nonce : Nat)
    (h : (s.Sign a now nonce).2 = none) :
    ∃ canonical r s', a.Validate = none ∧ a.marshal = some canonical ∧
      ecdsaSign s.privateKey
        (SHA256.sum256 (utf8 (signingInputOf s.header (claimsOf a canonical now)))) nonce =
          some (r, s') ∧
      (s.Sign a now nonce).1 =
        b64Encode (utf8 s.header.marshal) ++ '.' ::
          (b64Encode (utf8 (claimsOf a canonical now).marshal) ++ '.' ::
            b64Encode (encodeSignature r s')) := by
  unfold LocalSigner.Sign at h ⊢
  cases hv : a.Validate with
  | some e => simp [hv] at h
  | none =>
    cases hm : a.marshal with
    | none => simp [hv, hm] at h
    | some canonical =>
      cases hs : ecdsaSign s.privateKey
          (SHA256.sum256 (utf8 (signingInputOf s.header (claimsOf a canonical now)))) nonce with
      | none => simp [hv, hm, hs] at h
      | some rs =>
        obtain ⟨r, s'⟩ := rs
        refine ⟨canonical, r, s', rfl, rfl, hs, ?_⟩
        simp only [hs]
        simp only [signingInputOf, List.append_assoc, List.cons_append]

/-- The checks a successful `Verify` has passed, in order. -/
theorem Verify_eq_ok_iff (dec : JSONDecoder) (v : Verifier) (jws : GoString) (a : Artifact) :
    v.Verify dec jws a = .ok ↔
      ∃ p0 p1 p2 headerJSON header publicKey payloadJSON payload signature,
        splitDots jws = [p0, p1, p2] ∧ b64Decode p0 = some headerJSON ∧
        dec.unmarshalHeader headerJSON = some header ∧ header.Alg = ES256 ∧
        v.publicKeys header.Kid = some publicKey ∧ b64Decode p1 = some payloadJSON ∧
        dec.unmarshalPayload payloadJSON = some payload ∧
        payload.Iss = a.WorkspaceID.String ∧ payload.Sub = a.ID.String ∧
        b64Decode p2 = some signature ∧ 32 ≤ signature.length ∧
        ecdsaVerify publicKey (SHA256.sum256 (utf8 (p0 ++ '.' :: p1)))
          (ofBytes (signature.take 32)) (ofBytes (signature.drop 32)) = true := by
  constructor
  · intro h
    unfold Verifier.Verify at h
    split at h
    next p0 p1 p2 hsplit =>
      split at h
      · exact absurd h (by simp)
      next headerJSON hd0 =>
        split at h
        · exact absurd h (by simp)
        next header hh =>
          split at h
          · exact absurd h (by simp)
          next halg =>
            split at h
            · exact absurd h (by simp)
            next publicKey hk =>
              split at h
              · exact absurd h (by simp)
              next payloadJSON hd1 =>
                split at h
                · exact absurd h (by simp)
                next payload hp =>
                  split at h
                  · exact absurd h (by simp)
                  next hiss =>
                    split at h
                    · exact absurd h (by simp)
                    next hsub =>
                      split at h
                      · exact absurd h (by simp)
                      next signature hd2 =>
                        split at h
                        · exact absurd h (by simp)
                        next hlen =>
                          dsimp only at h
                          split at h
                          · exact absurd h (by simp)
                          next hver =>
                            exact ⟨p0, p1, p2, headerJSON, header, publicKey, payloadJSON,
                              payload, signature, hsplit, hd0, hh, by simpa using halg, hk, hd1,
                              hp, by simpa using hiss, by simpa using hsub, hd2,
                              by omega, by simpa using hver⟩
    · exact absurd h (by simp)
  · rintro ⟨p0, p1, p2, headerJSON, header, publicKey, payloadJSON, payload, signature, hsplit,
      hd0, hh, halg, hk, hd1, hp, hiss, hsub, hd2, hlen, hver⟩
    have hlen' : ¬ signature.length < 32 := by omega
    simp [Verifier.Verify, hsplit, hd0, hh, halg, hk, hd1, hp, hiss, hsub, hd2, hlen', hver]

/-! ## The last character of a base64 segment -/

theorem b64Val_some_ne (c : Char) (x : Nat) (h : b64Val c = some x) :
    c ≠ '.' ∧ c ≠ '\n' ∧ c ≠ '\r' := by
  have e1 : b64Val '.' = none := by decide
  have e2 : b64Val '\n' = none := by decide
  have e3 : b64Val '\r' = none := by decide
  refine ⟨?_, ?_, ?_⟩ <;> rintro rfl <;> simp_all

theorem b64Vals_append (xs ys : List Char) :
    b64Vals (xs ++ ys) =
      match b64Vals xs, b64Vals ys with
      | some a, some b => some (a ++ b)
      | _, _ => none := by
  induction xs with
  | nil => cases h : b64Vals ys <;> simp [b64Vals, h]
  | cons c cs ih =>
    cases hc : b64Val c <;> cases hcs : b64Vals cs <;> cases hys : b64Vals ys <;>
      simp [b64Vals, hc, hcs, hys, ih]

/-- Induction on a list four elements at a time. -/
theorem list_induction_four {P : List Nat → Prop} (h0 : P []) (h1 : ∀ a, P [a])
    (h2 : ∀ a b, P [a, b]) (h3 : ∀ a b c, P [a, b, c])
    (h4 : ∀ a b c d rest, P rest → P (a :: b :: c :: d :: rest)) : ∀ l, P l
  | [] => h0
  | [a] => h1 a
  | [a, b] => h2 a b
  | [a, b, c] => h3 a b c
  | a :: b :: c :: d :: rest => h4 a b c d rest (list_induction_four h0 h1 h2 h3 h4 rest)

theorem b64Bytes_cons_four (a b c d : Nat) (rest : List Nat) :
    b64Bytes (a :: b :: c :: d :: rest) =
      (b64Bytes rest).map
        (fun bs => (a * 4 + b / 16) :: (b % 16 * 16 + c / 4) :: (c % 4 * 64 + d) :: bs) := by
  rw [b64Bytes]
  cases b64Bytes rest <;> rfl

theorem b64Bytes_snoc (vq : List Nat) (x x' : Nat) :
    (∀ sig, b64Bytes (vq ++ [x]) = some sig →
      ∃ sig', b64Bytes (vq ++ [x']) = some sig' ∧ sig'.length = sig.length) ∧
    ((vq.length % 4 = 1 ∧ x / 16 = x' / 16) ∨ (vq.length % 4 = 2 ∧ x / 4 = x' / 4) →
      b64Bytes (vq ++ [x']) = b64Bytes (vq ++ [x])) := by
  induction vq using list_induction_four with
  | h0 =>
    constructor
    · intro sig h
      simp [b64Bytes] at h
    · intro h
      simp only [List.length_nil] at h
      omega
  | h1 a =>
    constructor
    · intro sig h
      simp only [List.cons_append, List.nil_append, b64Bytes, Option.some.injEq] at h ⊢
      subst h
      exact ⟨_, rfl, rfl⟩
    · intro h
      simp only [List.length_cons, List.length_nil] at h
      have e : x / 16 = x' / 16 := by omega
      simp only [List.cons_append, List.nil_append, b64Bytes, e]
  | h2 a b =>
    constructor
    · intro sig h
      simp only [List.cons_append, List.nil_append, b64Bytes, Option.some.injEq] at h ⊢
      subst h
      exact ⟨_, rfl, rfl⟩
    · intro h
      simp only [List.length_cons, List.length_nil] at h
      have e : x / 4 = x' / 4 := by omega
      simp only [List.cons_append, List.nil_append, b64Bytes, e]
  | h3 a b c =>
    constructor
    · intro sig h
      simp only [List.cons_append, List.nil_append, b64Bytes, Option.some.injEq] at h ⊢
      subst h
      exact ⟨_, rfl, rfl⟩
    · intro h
      simp only [List.length_cons, List.length_nil] at h
      omega
  | h4 a b c d rest ih =>
    obtain ⟨ih1, ih2⟩ := ih
    simp only [List.cons_append, b64Bytes_cons_four]
    constructor
    · intro sig h
      cases hr : b64Bytes (rest ++ [x]) with
      | none => simp [hr] at h
      | some t =>
        obtain ⟨t', ht', hl⟩ := ih1 t hr
        simp only [hr, Option.map_some', Option.some.injEq] at h
        subst h
        exact ⟨(a * 4 + b / 16) :: (b % 16 * 16 + c / 4) :: (c % 4 * 64 + d) :: t',
          by simp [ht'], by simp [hl]⟩
    · intro h
      have h' : (rest.length % 4 = 1 ∧ x / 16 = x' / 16) ∨
          (rest.length % 4 = 2 ∧ x / 4 = x' / 4) := by
        simp only [List.length_cons] at h
        omega
      rw [ih2 h']

theorem length_b64Vals (cs : List Char) (vs : List Nat) (h : b64Vals cs = some vs) :
    vs.length = cs.length := by
  induction cs generalizing vs with
  | nil => simp [b64Vals] at h; simp [← h]
  | cons c cs ih =>
    simp only [b64Vals] at h
    cases hc : b64Val c with
    | none => simp [hc] at h
    | some x =>
      cases hv : b64Vals cs with
      | none => simp [hc, hv] at h
      | some t =>
        simp only [hc, hv, Option.some.injEq] at h
        subst h
        simp [ih t hv]

/-- Decoding a segment whose last character was replaced by another character of the
alphabet. -/
theorem b64Decode_snoc (q : GoString) (c c' : Char) (x x' : Nat)
    (hc : b64Val c = some x) (hc' : b64Val c' = some x') :
    (∀ sig, b64Decode (q ++ [c]) = some sig →
      ∃ sig', b64Decode (q ++ [c']) = some sig' ∧ sig'.length = sig.length) ∧
    ((significant q % 4 = 1 ∧ x / 16 = x' / 16) ∨ (significant q % 4 = 2 ∧ x / 4 = x' / 4) →
      b64Decode (q ++ [c']) = b64Decode (q ++ [c])) := by
  have hn := b64Val_some_ne c x hc
  have hn' := b64Val_some_ne c' x' hc'
  have hf : ∀ d : Char, d ≠ '\n' ∧ d ≠ '\r' →
      (q ++ [d]).filter (fun c => decide (c ≠ '\n' ∧ c ≠ '\r')) =
        q.filter (fun c => decide (c ≠ '\n' ∧ c ≠ '\r')) ++ [d] := by
    intro d hd
    simp [List.filter_append, List.filter_cons, hd.1, hd.2]
  have h1 : ∀ (d : Char) (y : Nat), b64Val d = some y → b64Vals [d] = some [y] := by
    intro d y hd
    simp [b64Vals, hd]
  unfold b64Decode significant
  rw [hf c hn.2, hf c' hn'.2, b64Vals_append, b64Vals_append, h1 c x hc, h1 c' x' hc']
  cases hq : b64Vals (q.filter (fun c => decide (c ≠ '\n' ∧ c ≠ '\r'))) with
  | none => simp
  | some vq =>
    have hl := length_b64Vals _ _ hq
    simp only
    rw [← hl]
    exact b64Bytes_snoc vq x x'

/-! ## `Validate` -/

theorem flatMap_escapeChar_replicate (n : Nat) :
    (List.replicate n 'a').flatMap escapeChar = List.replicate n 'a' := by
  induction n with
  | zero => rfl
  | succ n ih =>
    have e : escapeChar 'a' = ['a'] := by decide
    rw [List.replicate_succ, List.flatMap_cons, ih, e]
    rfl

theorem utf8_replicate (n : Nat) : utf8 (List.replicate n 'a') = List.replicate n 97 := by
  induction n with
  | zero => rfl
  | succ n ih =>
    have e : utf8Char 'a' = [97] := by decide
    rw [List.replicate_succ, utf8, List.flatMap_cons, e]
    rw [utf8] at ih
    rw [ih]
    rfl

theorem utf8_append (s t : GoString) : utf8 (s ++ t) = utf8 s ++ utf8 t := by
  simp [utf8, List.flatMap_append]

/-- The body of `paddedArtifact n` marshals to `n + 8` bytes. -/
theorem marshalBody_padded (n : Nat) :
    ∃ data, marshalBody (paddedArtifact n).JSONBody = some data ∧
      (utf8 data).length = n + 8 := by
  refine ⟨'{' :: '"' :: 'k' :: '"' :: ':' :: '"' :: (List.replicate n 'a' ++ ['"', '}']), ?_, ?_⟩
  · have e : escapeChar 'k' = ['k'] := by decide
    simp only [paddedArtifact, marshalBody, marshalValue, marshalEntries, encodeObject,
      sortFields, insertField, List.map, joinComma, quote, flatMap_escapeChar_replicate,
      List.flatMap_cons, List.flatMap_nil, e]
    simp
  · have e : ∀ (c : Char) (s : GoString), utf8 (c :: s) = utf8Char c ++ utf8 s := by
      intro c s
      simp [utf8]
    have e1 : utf8Char '{' = [123] := by decide
    have e2 : utf8Char '"' = [34] := by decide
    have e3 : utf8Char 'k' = [107] := by decide
    have e4 : utf8Char ':' = [58] := by decide
    have e5 : utf8Char '}' = [125] := by decide
    have e6 : utf8 [] = [] := rfl
    simp only [e, utf8_append, utf8_replicate, e1, e2, e3, e4, e5, e6, List.length_append,
      List.length_cons, List.length_nil, List.length_replicate]
    omega

/-! ## Sorted keys -/

theorem Char_toNat_inj (a b : Char) (h : a.toNat = b.toNat) : a = b := by
  have e : a.val = b.val := by
    cases a with | mk va ha => cases b with | mk vb hb =>
    simp only [Char.toNat] at h
    exact UInt32.ext (by simpa using h)
  exact Char.ext e

theorem keyLe_total (a b : GoString) : keyLe a b = true ∨ keyLe b a = true := by
  induction a generalizing b with
  | nil => left; cases b <;> rfl
  | cons x xs ih =>
    cases b with
    | nil => right; rfl
    | cons y ys =>
      simp only [keyLe, Bool.or_eq_true, decide_eq_true_eq, Bool.and_eq_true, beq_iff_eq]
      rcases Nat.lt_trichotomy x.toNat y.toNat with h | h | h
      · left; left; exact h
      · rcases ih ys with h' | h'
        · left; right; exact ⟨h, h'⟩
        · right; right; exact ⟨h.symm, h'⟩
      · right; left; exact h

theorem keyLe_trans (a b c : GoString) (h1 : keyLe a b = true) (h2 : keyLe b c = true) :
    keyLe a c = true := by
  induction a generalizing b c with
  | nil => cases c <;> rfl
  | cons x xs ih =>
    cases b with
    | nil => simp [keyLe] at h1
    | cons y ys =>
      cases c with
      | nil => simp [keyLe] at h2
      | cons z zs =>
        simp only [keyLe, Bool.or_eq_true, decide_eq_true_eq, Bool.and_eq_true, beq_iff_eq]
          at h1 h2 ⊢
        rcases h1 with h1 | ⟨e1, h1⟩ <;> rcases h2 with h2 | ⟨e2, h2⟩
        · left; omega
        · left; omega
        · left; omega
        · right; exact ⟨by omega, ih _ _ h1 h2⟩

theorem keyLe_antisymm (a b : GoString) (h1 : keyLe a b = true) (h2 : keyLe b a = true) :
    a = b := by
  induction a generalizing b with
  | nil => cases b with
    | nil => rfl
    | cons y ys => simp [keyLe] at h2
  | cons x xs ih =>
    cases b with
    | nil => simp [keyLe] at h1
    | cons y ys =>
      simp only [keyLe, Bool.or_eq_true, decide_eq_true_eq, Bool.and_eq_true, beq_iff_eq]
        at h1 h2
      rcases h1 with h1 | ⟨e1, h1⟩ <;> rcases h2 with h2 | ⟨e2, h2⟩
      · omega
      · omega
      · omega
      · rw [Char_toNat_inj x y e1, ih ys h1 h2]

theorem sortFields_eq_insertionSort (l : List (GoString × List Char)) :
    sortFields l = List.insertionSort (fun f g => keyLe f.1 g.1 = true) l := by
  have hins : ∀ (f : GoString × List Char) (l : List (GoString × List Char)),
      insertField f l = List.orderedInsert (fun f g => keyLe f.1 g.1 = true) f l := by
    intro f l
    induction l with
    | nil => rfl
    | cons g rest ih => simp only [insertField, List.orderedInsert, ih]
  induction l with
  | nil => rfl
  | cons f rest ih => simp only [sortFields, List.insertionSort, ih, hins]

/-- Sorting rendered entries does not depend on their order when no key repeats. -/
theorem sortFields_perm (l1 l2 : List (GoString × List Char)) (hp : l1.Perm l2)
    (hn : (l1.map Prod.fst).Nodup) : sortFields l1 = sortFields l2 := by
  haveI : IsTotal (GoString × List Char) (fun f g => keyLe f.1 g.1 = true) :=
    ⟨fun f g => keyLe_total f.1 g.1⟩
  haveI : IsTrans (GoString × List Char) (fun f g => keyLe f.1 g.1 = true) :=
    ⟨fun f g k h1 h2 => keyLe_trans f.1 g.1 k.1 h1 h2⟩
  haveI : IsAntisymm (GoString × List Char) (fun f g => keyLe f.1 g.1 = true ∧ f.1 ≠ g.1) :=
    ⟨fun f g h1 h2 => absurd (keyLe_antisymm f.1 g.1 h1.1 h2.1) h1.2⟩
  have strict : ∀ l : List (GoString × List Char), (l.map Prod.fst).Nodup →
      List.Sorted (fun f g => keyLe f.1 g.1 = true ∧ f.1 ≠ g.1) (sortFields l) := by
    intro l hl
    have hs := List.sorted_insertionSort (fun f g => keyLe f.1 g.1 = true) l
    have hperm := List.perm_insertionSort (fun f g => keyLe f.1 g.1 = true) l
    rw [← sortFields_eq_insertionSort] at hs hperm
    have hnd : ((sortFields l).map Prod.fst).Nodup := (hperm.map Prod.fst).nodup_iff.2 hl
    have hpw : List.Pairwise (fun f g : GoString × List Char => f.1 ≠ g.1) (sortFields l) :=
      (List.pairwise_map).1 hnd
    exact List.Pairwise.and hs hpw
  have h1 := List.perm_insertionSort (fun f g => keyLe f.1 g.1 = true) l1
  have h2 := List.perm_insertionSort (fun f g => keyLe f.1 g.1 = true) l2
  rw [← sortFields_eq_insertionSort] at h1 h2
  have hn2 : (l2.map Prod.fst).Nodup := (hp.map Prod.fst).nodup_iff.1 hn
  exact List.eq_of_perm_of_sorted ((h1.trans hp).trans h2.symm) (strict l1 hn) (strict l2 hn2)

theorem marshalEntries_keys (kvs : List (GoString × JVal)) (fs : List (GoString × List Char))
    (h : marshalEntries kvs = some fs) : fs.map Prod.fst = kvs.map Prod.fst := by
  induction kvs generalizing fs with
  | nil =>
    simp only [marshalEntries, Option.some.injEq] at h
    subst h
    rfl
  | cons kv rest ih =>
    obtain ⟨k, v⟩ := kv
    simp only [marshalEntries] at h
    cases hv : marshalValue v with
    | none => simp [hv] at h
    | some t =>
      cases hr : marshalEntries rest with
      | none => simp [hv, hr] at h
      | some gs =>
        simp only [hv, hr, Option.some.injEq] at h
        subst h
        simp [ih gs hr]

theorem optPerm_refl (o : Option (List (GoString × List Char))) : optPerm o o := by
  cases o with
  | none => trivial
  | some a => exact List.Perm.refl a

theorem optPerm_trans (a b c : Option (List (GoString × List Char))) (h1 : optPerm a b)
    (h2 : optPerm b c) : optPerm a c := by
  cases a <;> cases b <;> cases c <;> simp_all [optPerm]
  exact h1.trans h2

theorem marshalEntries_perm (l1 l2 : List (GoString × JVal)) (hp : l1.Perm l2) :
    optPerm (marshalEntries l1) (marshalEntries l2) := by
  induction hp with
  | nil => exact optPerm_refl _
  | @cons kv l1 l2 _ ih =>
    obtain ⟨k, v⟩ := kv
    simp only [marshalEntries]
    cases marshalValue v <;> cases h1 : marshalEntries l1 <;> cases h2 : marshalEntries l2 <;>
      simp_all [optPerm]
  | swap kv kv' l =>
    obtain ⟨k, v⟩ := kv
    obtain ⟨k', v'⟩ := kv'
    simp only [marshalEntries]
    cases marshalValue v <;> cases marshalValue v' <;> cases marshalEntries l <;>
      simp [optPerm]
    exact List.Perm.swap _ _ _
  | trans _ _ ih1 ih2 => exact optPerm_trans _ _ _ ih1 ih2

mutual
/-- Values that hold the same data marshal alike. -/
theorem marshalValue_same : (v w : JVal) → v.wf = true → sameVal v w →
    marshalValue v = marshalValue w
  | .null, w, _, h => by cases w <;> simp_all [sameVal]
  | .bool a, w, _, h => by cases w <;> simp_all [sameVal]
  | .int a, w, _, h => by cases w <;> simp_all [sameVal]
  | .str a, w, _, h => by cases w <;> simp_all [sameVal]
  | .unsupported, w, _, h => by cases w <;> simp_all [sameVal]
  | .nilSlice, w, _, h => by cases w <;> simp_all [sameVal]
  | .nilMap, w, _, h => by cases w <;> simp_all [sameVal]
  | .bytes a, w, _, h => by cases w <;> simp_all [sameVal]
  | .float a, w, _, h => by cases w <;> simp_all [sameVal, marshalValue]
  | .arr xs, w, hw, h => by
    cases w with
    | arr ys =>
      simp only [sameVal] at h
      simp only [JVal.wf] at hw
      simp only [marshalValue, marshalElems_same xs ys hw h]
    | _ => simp [sameVal] at h
  | .obj kvs, w, hw, h => by
    cases w with
    | obj kvs2 =>
      simp only [sameVal] at h
      obtain ⟨kvs1, hf, hp⟩ := h
      simp only [JVal.wf, Bool.and_eq_true, decide_eq_true_eq] at hw
      have e1 := marshalEntries_same kvs kvs1 hw.2 hf
      have e2 := marshalEntries_perm kvs1 kvs2 hp
      simp only [marshalValue]
      rw [← e1] at e2
      cases h1 : marshalEntries kvs with
      | none =>
        cases h2 : marshalEntries kvs2 with
        | none => rfl
        | some f2 => simp [h1, h2, optPerm] at e2
      | some f1 =>
        cases h2 : marshalEntries kvs2 with
        | none => simp [h1, h2, optPerm] at e2
        | some f2 =>
          simp only [h1, h2, optPerm] at e2
          have hk : (f1.map Prod.fst).Nodup := by
            rw [marshalEntries_keys kvs f1 h1]
            exact hw.1
          simp only [encodeObject, sortFields_perm f1 f2 e2 hk]
    | _ => simp [sameVal] at h
/-- Slices that hold the same data marshal alike. -/
theorem marshalElems_same : (xs ys : List JVal) → wfElems xs = true → sameElems xs ys →
    marshalElems xs = marshalElems ys
  | [], ys, _, h => by cases ys <;> simp_all [sameElems]
  | x :: xs, ys, hw, h => by
    cases ys with
    | nil => simp [sameElems] at h
    | cons y ys =>
      simp only [sameElems] at h
      simp only [wfElems, Bool.and_eq_true] at hw
      simp only [marshalElems, marshalValue_same x y hw.1 h.1, marshalElems_same xs ys hw.2 h.2]
/-- Entry lists with the same keys and values that hold the same data marshal alike. -/
theorem marshalEntries_same : (kvs kvs1 : List (GoString × JVal)) → wfEntries kvs = true →
    sameFields kvs kvs1 → marshalEntries kvs = marshalEntries kvs1
  | [], kvs1, _, h => by cases kvs1 <;> simp_all [sameFields]
  | (k, v) :: rest, kvs1, hw, h => by
    cases kvs1 with
    | nil => simp [sameFields] at h
    | cons kv1 rest1 =>
      obtain ⟨k1, w⟩ := kv1
      simp only [sameFields] at h
      simp only [wfEntries, Bool.and_eq_true] at hw
      obtain ⟨rfl, hv, hr⟩ := h
      simp only [marshalEntries, marshalValue_same v w hw.1 hv,
        marshalEntries_same rest rest1 hw.2 hr]
end

/-! ## The scenario, evaluated -/

/-- `Sign` from the outcome of its steps. -/
theorem Sign_of_steps (s : LocalSigner) (a : Artifact) (now : Int) (nonce : Nat)
    (canonical : GoString) (r s' : Nat) (hv : a.Validate = none)
    (hm : a.marshal = some canonical)
    (hs : ecdsaSign s.privateKey
      (SHA256.sum256 (utf8 (signingInputOf s.header (claimsOf a canonical now)))) nonce =
        some (r, s')) :
    s.Sign a now nonce =
      (signingInputOf s.header (claimsOf a canonical now) ++ '.' ::
        b64Encode (encodeSignature r s'), none) := by
  simp only [LocalSigner.Sign, hv, hm, hs]

/-- `Verify` from the outcome of its steps up to the signature check. -/
theorem Verify_of_steps (dec : JSONDecoder) (v : Verifier) (jws : GoString) (a : Artifact)
    (p0 p1 p2 : GoString) (headerJSON : List Nat) (header : JWSHeader) (publicKey : PublicKey)
    (payloadJSON : List Nat) (payload : JWSPayload) (signature : List Nat)
    (hsplit : splitDots jws = [p0, p1, p2]) (hd0 : b64Decode p0 = some headerJSON)
    (hh : dec.unmarshalHeader headerJSON = some header) (halg : header.Alg = ES256)
    (hk : v.publicKeys header.Kid = some publicKey) (hd1 : b64Decode p1 = some payloadJSON)
    (hp : dec.unmarshalPayload payloadJSON = some payload)
    (hiss : payload.Iss = a.WorkspaceID.String) (hsub : payload.Sub = a.ID.String)
    (hd2 : b64Decode p2 = some signature) (hlen : 32 ≤ signature.length) :
    v.Verify dec jws a =
      if ecdsaVerify publicKey (SHA256.sum256 (utf8 (p0 ++ '.' :: p1)))
          (ofBytes (signature.take 32)) (ofBytes (signature.drop 32)) = true
      then .ok else .error .invalidSignature := by
  have hlen' : ¬ signature.length < 32 := by omega
  simp only [Verifier.Verify, hsplit, hd0, hh, halg, hk, hd1, hp, hiss, hsub, hd2, hlen',
    ne_eq, not_true_eq_false, if_false]
  cases ecdsaVerify publicKey (SHA256.sum256 (utf8 (p0 ++ '.' :: p1)))
    (ofBytes (signature.take 32)) (ofBytes (signature.drop 32)) <;> simp

theorem exampleKey_valid : exampleKey.Valid := by
  unfold PrivateKey.Valid
  decide!

theorem marshal_example : exampleArtifact.marshal = some exampleCanonical := by decide!

theorem signingInput_example :
    signingInputOf exampleSigner.header (claimsOf exampleArtifact exampleCanonical exampleNow) =
      exampleSigningInput := by decide!

theorem digest_example : SHA256.sum256 (utf8 exampleSigningInput) = exampleDigest := by decide!

theorem ecdsaSign_longNonce :
    ecdsaSign exampleKey exampleDigest longNonce = some longSignature := by decide!

theorem ecdsaSign_shortNonce :
    ecdsaSign exampleKey exampleDigest shortNonce = some shortSignature := by decide!

theorem ecdsaVerify_longSignature :
    ecdsaVerify exampleKey.PublicKey exampleDigest longSignature.1 longSignature.2 = true := by
  decide!

theorem ecdsaVerify_shortSignature :
    ecdsaVerify exampleKey.PublicKey exampleDigest shortSignature.1 shortSignature.2 = true := by
  decide!

/-- The pair `Verify` reads from the 63 bytes of the short signature is not a signature. -/
theorem ecdsaVerify_misread :
    ecdsaVerify exampleKey.PublicKey exampleDigest
      (ofBytes ((encodeSignature shortSignature.1 shortSignature.2).take 32))
      (ofBytes ((encodeSignature shortSignature.1 shortSignature.2).drop 32)) = false := by
  decide!

theorem sign_longNonce :
    exampleSigner.Sign exampleArtifact exampleNow longNonce = (exampleJWS, none) := by
  have hs : ecdsaSign exampleSigner.privateKey
      (SHA256.sum256 (utf8 (signingInputOf exampleSigner.header
        (claimsOf exampleArtifact exampleCanonical exampleNow)))) longNonce =
      some (longSignature.1, longSignature.2) := by
    rw [signingInput_example, digest_example]
    exact ecdsaSign_longNonce
  rw [Sign_of_steps _ _ _ _ _ _ _ (by decide) marshal_example hs, signingInput_example]
  have e : b64Encode (encodeSignature longSignature.1 longSignature.2) =
      exampleSignatureInit ++ ['A'] := by decide!
  rw [e]
  simp only [exampleSigningInput, exampleJWS, List.append_assoc, List.cons_append]

theorem sign_shortNonce :
    exampleSigner.Sign exampleArtifact exampleNow shortNonce = (shortJWS, none) := by
  have hs : ecdsaSign exampleSigner.privateKey
      (SHA256.sum256 (utf8 (signingInputOf exampleSigner.header
        (claimsOf exampleArtifact exampleCanonical exampleNow)))) shortNonce =
      some (shortSignature.1, shortSignature.2) := by
    rw [signingInput_example, digest_example]
    exact ecdsaSign_shortNonce
  rw [Sign_of_steps _ _ _ _ _ _ _ (by decide) marshal_example hs, signingInput_example]
  have e : b64Encode (encodeSignature shortSignature.1 shortSignature.2) =
      shortSignatureB64 := by decide!
  rw [e]
  simp only [exampleSigningInput, shortJWS, List.append_assoc, List.cons_append]

/-- `Verify` on an envelope with the header and payload segments of the example, for a
candidate with the identifiers of `exampleArtifact`: the result is that of the ECDSA check
on the two halves of the decoded signature. -/
theorem verify_example (p2 : GoString) (signature : List Nat) (a : Artifact)
    (hdot : '.' ∉ p2) (hd2 : b64Decode p2 = some signature) (hlen : 32 ≤ signature.length)
    (hid : a.ID = exampleArtifact.ID) (hws : a.WorkspaceID = exampleArtifact.WorkspaceID) :
    exampleVerifier.Verify refDecoder
        (exampleHeaderB64 ++ '.' :: (examplePayloadB64 ++ '.' :: p2)) a =
      if ecdsaVerify exampleKey.PublicKey exampleDigest
          (ofBytes (signature.take 32)) (ofBytes (signature.drop 32)) = true
      then .ok else .error .invalidSignature := by
  have h := Verify_of_steps refDecoder exampleVerifier
    (exampleHeaderB64 ++ '.' :: (examplePayloadB64 ++ '.' :: p2)) a
    exampleHeaderB64 examplePayloadB64 p2 (utf8 exampleSigner.header.marshal)
    exampleSigner.header exampleKey.PublicKey
    (utf8 (claimsOf exampleArtifact exampleCanonical exampleNow).marshal)
    (claimsOf exampleArtifact exampleCanonical exampleNow) signature
    (splitDots_three _ _ _ (by decide!) (by decide!) hdot) (by decide!) (by decide!) rfl
    (by decide!) (by decide!) (by decide!) (by rw [hws]; rfl) (by rw [hid]; rfl) hd2 hlen
  rw [h]
  have e : SHA256.sum256 (utf8 (exampleHeaderB64 ++ '.' :: examplePayloadB64)) =
    exampleDigest := digest_example
  rw [e]

theorem verify_exampleJWS :
    exampleVerifier.Verify refDecoder exampleJWS exampleArtifact = .ok := by
  have h := verify_example (exampleSignatureInit ++ ['A'])
    (encodeSignature longSignature.1 longSignature.2) exampleArtifact (by decide!) (by decide!)
    (by decide!) rfl rfl
  have e1 : ofBytes ((encodeSignature longSignature.1 longSignature.2).take 32) =
    longSignature.1 := by decide!
  have e2 : ofBytes ((encodeSignature longSignature.1 longSignature.2).drop 32) =
    longSignature.2 := by decide!
  rw [e1, e2, if_pos ecdsaVerify_longSignature] at h
  exact h

theorem verify_otherBody :
    exampleVerifier.Verify refDecoder exampleJWS otherBodyArtifact = .ok := by
  have h := verify_example (exampleSignatureInit ++ ['A'])
    (encodeSignature longSignature.1 longSignature.2) otherBodyArtifact (by decide!)
    (by decide!) (by decide!) rfl rfl
  have e1 : ofBytes ((encodeSignature longSignature.1 longSignature.2).take 32) =
    longSignature.1 := by decide!
  have e2 : ofBytes ((encodeSignature longSignature.1 longSignature.2).drop 32) =
    longSignature.2 := by decide!
  rw [e1, e2, if_pos ecdsaVerify_longSignature] at h
  exact h

theorem verify_tamperedJWS :
    exampleVerifier.Verify refDecoder tamperedJWS exampleArtifact = .ok := by
  have h := verify_example (exampleSignatureInit ++ ['B'])
    (encodeSignature longSignature.1 longSignature.2) exampleArtifact (by decide!) (by decide!)
    (by decide!) rfl rfl
  have e1 : ofBytes ((encodeSignature longSignature.1 longSignature.2).take 32) =
    longSignature.1 := by decide!
  have e2 : ofBytes ((encodeSignature longSignature.1 longSignature.2).drop 32) =
    longSignature.2 := by decide!
  rw [e1, e2, if_pos ecdsaVerify_longSignature] at h
  exact h

theorem verify_shortJWS :
    exampleVerifier.Verify refDecoder shortJWS exampleArtifact = .error .invalidSignature := by
  have h := verify_example shortSignatureB64
    (encodeSignature shortSignature.1 shortSignature.2) exampleArtifact (by decide!)
    (by decide!) (by decide!) rfl rfl
  rw [ecdsaVerify_misread] at h
  exact h

theorem payload_exampleJWS :
    payloadOf refDecoder exampleJWS =
      some (claimsOf exampleArtifact exampleCanonical exampleNow) := by decide!

theorem shortSignature_encoding :
    splitDots shortJWS = [exampleHeaderB64, examplePayloadB64, shortSignatureB64] ∧
      b64Decode shortSignatureB64 =
        some (encodeSignature shortSignature.1 shortSignature.2) ∧
      (encodeSignature shortSignature.1 shortSignature.2).length = 63 ∧
      encodeSignature shortSignature.1 shortSignature.2 ≠
        beBytes 32 shortSignature.1 ++ beBytes 32 shortSignature.2 := by decide!

/-! ## Variable-width byte strings -/

theorem length_beBytes (k n : Nat) : (beBytes k n).length = k := by
  induction k generalizing n with
  | zero => rfl
  | succ k ih => simp [beBytes, ih]

theorem byteLen_le (fuel n k : Nat) (h : n < 256 ^ k) : byteLen fuel n ≤ k := by
  induction fuel generalizing n k with
  | zero => simp [byteLen]
  | succ fuel ih =>
    unfold byteLen
    split
    · omega
    · rename_i hn
      cases k with
      | zero =>
        simp only [pow_zero, Nat.lt_one_iff] at h
        exact absurd h hn
      | succ k =>
        have hd : n / 256 < 256 ^ k := by
          apply Nat.div_lt_of_lt_mul
          rw [pow_succ] at h
          omega
        have := ih (n / 256) k hd
        omega

theorem length_natBytes_le (n k : Nat) (h : n < 256 ^ k) : (natBytes n).length ≤ k := by
  unfold natBytes
  rw [length_beBytes]
  exact byteLen_le n n k h

/-! ## The shape of envelopes and hashes -/

theorem length_splitDots (s : GoString) : (splitDots s).length = s.count '.' + 1 := by
  induction s with
  | nil => rfl
  | cons c cs ih =>
    by_cases hc : c = '.'
    · subst hc
      simp [splitDots, ih]
    · have hc' : ('.' : Char) ≠ c := fun e => hc e.symm
      cases hs : splitDots cs with
      | nil => simp [hs] at ih
      | cons part parts =>
        rw [hs] at ih
        simp only [splitDots, hc, if_false, hs]
        rw [List.count_cons_of_ne hc']
        simpa using ih

theorem utf8_eq_nil (s : GoString) (h : utf8 s = []) : s = [] := by
  cases s with
  | nil => rfl
  | cons c cs =>
    exfalso
    simp only [utf8, List.flatMap_cons, List.append_eq_nil] at h
    have := h.1
    unfold utf8Char at this
    simp only at this
    split_ifs at this

theorem b64Val_b64Char_isSome (v : Nat) : (b64Val (b64Char v)).isSome = true := by
  by_cases h : v < 64
  · rw [b64Val_b64Char v h]
    rfl
  · have h1 : ¬ v < 26 := by omega
    have h2 : ¬ v < 52 := by omega
    have h3 : ¬ v < 62 := by omega
    simp only [b64Char, h1, h2, h3, if_false]
    split_ifs <;> decide

/-- Every character of an encoded segment belongs to the URL-safe alphabet. -/
theorem b64Encode_alphabet (bs : List Nat) :
    ∀ c ∈ b64Encode bs, (b64Val c).isSome = true ∧ c ≠ '=' ∧ c ≠ '.' := by
  intro c hc
  rw [b64Encode_eq_map] at hc
  obtain ⟨v, _, rfl⟩ := List.mem_map.1 hc
  have h := b64Val_b64Char_isSome v
  refine ⟨h, ?_, (b64Char_ne v).1⟩
  intro e
  rw [e] at h
  exact absurd h (by decide)

theorem length_round (s : List Nat) (kw : Nat × Nat) (h : s.length = 8) :
    (SHA256.round s kw).length = 8 := by
  match s, h with
  | [a, b, c, d, e, f, g, h'], _ => rfl

theorem length_foldl_round (l : List (Nat × Nat)) (s : List Nat) (h : s.length = 8) :
    (l.foldl SHA256.round s).length = 8 := by
  induction l generalizing s with
  | nil => exact h
  | cons kw l ih => exact ih _ (length_round s kw h)

theorem length_compress (h block : List Nat) (hl : h.length = 8) :
    (SHA256.compress h block).length = 8 := by
  simp only [SHA256.compress, List.length_zipWith, hl, length_foldl_round _ h hl, min_self]

theorem length_blocks (k : Nat) (h m : List Nat) (hl : h.length = 8) :
    (SHA256.blocks k h m).length = 8 := by
  induction k generalizing h m with
  | zero => exact hl
  | succ k ih => exact ih _ _ (length_compress h _ hl)

/-- A SHA-256 digest has 32 bytes. -/
theorem length_sum256 (msg : List Nat) : (SHA256.sum256 msg).length = 32 := by
  have h := length_blocks ((SHA256.pad msg).length / 64) SHA256.H0 (SHA256.pad msg) rfl
  simp only [SHA256.sum256]
  generalize SHA256.blocks _ _ _ = ws at h
  match ws, h with
  | [a, b, c, d, e, f, g, h'], _ => rfl

/-- The bytes of a SHA-256 digest are below 256. -/
theorem sum256_lt (msg : List Nat) : ∀ b ∈ SHA256.sum256 msg, b < 256 := by
  intro b hb
  simp only [SHA256.sum256, List.mem_flatMap, List.mem_cons, List.mem_singleton,
    List.not_mem_nil, or_false] at hb
  obtain ⟨w, _, h⟩ := hb
  rcases h with h | h | h | h <;> (subst h; exact Nat.mod_lt _ (by decide))

theorem length_hexOfBytes (bs : List Nat) : (hexOfBytes bs).length = 2 * bs.length := by
  induction bs with
  | nil => rfl
  | cons b bs ih =>
    simp only [hexOfBytes, List.flatMap_cons, List.length_append, length_hexDigits] at ih ⊢
    rw [ih]
    simp only [List.length_cons]
    omega

theorem hexDigit_mem (d : Nat) (hd : d < 16) : hexDigit d ∈ "0123456789abcdef".toList := by
  interval_cases d <;> decide

theorem hexDigits_mem (k v : Nat) : ∀ c ∈ hexDigits k v, c ∈ "0123456789abcdef".toList := by
  induction k generalizing v with
  | zero => simp [hexDigits]
  | succ k ih =>
    intro c hc
    simp only [hexDigits, List.mem_append, List.mem_singleton] at hc
    rcases hc with h | h
    · exact ih _ c h
    · rw [h]
      exact hexDigit_mem _ (Nat.mod_lt _ (by decide))

theorem hexOfBytes_mem (bs : List Nat) :
    ∀ c ∈ hexOfBytes bs, c ∈ "0123456789abcdef".toList := by
  intro c hc
  simp only [hexOfBytes, List.mem_flatMap] at hc
  obtain ⟨b, _, h⟩ := hc
  exact hexDigits_mem 2 b c h

/-- `Verify` when every step up to the decoding of the signature passes and the decoded
signature has fewer than 32 bytes. -/
theorem Verify_of_short (dec : JSONDecoder) (v : Verifier) (jws : GoString) (a : Artifact)
    (p0 p1 p2 : GoString) (headerJSON : List Nat) (header : JWSHeader) (publicKey : PublicKey)
    (payloadJSON : List Nat) (payload : JWSPayload) (signature : List Nat)
    (hsplit : splitDots jws = [p0, p1, p2]) (hd0 : b64Decode p0 = some headerJSON)
    (hh : dec.unmarshalHeader headerJSON = some header) (halg : header.Alg = ES256)
    (hk : v.publicKeys header.Kid = some publicKey) (hd1 : b64Decode p1 = some payloadJSON)
    (hp : dec.unmarshalPayload payloadJSON = some payload)
    (hiss : payload.Iss = a.WorkspaceID.String) (hsub : payload.Sub = a.ID.String)
    (hd2 : b64Decode p2 = some signature) (hlen : signature.length < 32) :
    v.Verify dec jws a = .panic := by
  simp only [Verifier.Verify, hsplit, hd0, hh, halg, hk, hd1, hp, hiss, hsub, hd2, hlen,
    ne_eq, not_true_eq_false, if_false, if_true]

/-! ## String literals and decimal numbers are read back without ambiguity -/

theorem Char_toNat_lt (c : Char) : c.toNat < 1114112 := by
  have h := c.valid
  simp only [Char.toNat]
  rcases h with h | h
  · have : c.val.toNat < 55296 := h
    omega
  · exact h.2

/-- The UTF-8 encodings of the characters form a prefix code. -/
theorem utf8Char_append_inj (c d : Char) (r r' : List Nat)
    (h : utf8Char c ++ r = utf8Char d ++ r') : c = d ∧ r = r' := by
  have hc := Char_toNat_lt c
  have hd := Char_toNat_lt d
  have key : c.toNat = d.toNat ∧ r = r' := by
    unfold utf8Char at h
    simp only at h
    split_ifs at h <;>
      simp only [List.cons_append, List.nil_append, List.cons.injEq] at h <;>
      first
      | (exfalso; omega)
      | (obtain ⟨h1, rfl⟩ := h; refine ⟨?_, rfl⟩; omega)
      | (obtain ⟨h1, h2, rfl⟩ := h; refine ⟨?_, rfl⟩; omega)
      | (obtain ⟨h1, h2, h3, rfl⟩ := h; refine ⟨?_, rfl⟩; omega)
      | (obtain ⟨h1, h2, h3, h4, rfl⟩ := h; refine ⟨?_, rfl⟩; omega)
  exact ⟨Char_toNat_inj c d key.1, key.2⟩

theorem utf8_inj (s t : GoString) (h : utf8 s = utf8 t) : s = t := by
  induction s generalizing t with
  | nil =>
    cases t with
    | nil => rfl
    | cons d t => exact absurd (utf8_eq_nil _ h.symm) (by simp)
  | cons c s ih =>
    cases t with
    | nil => exact absurd (utf8_eq_nil _ h) (by simp)
    | cons d t =>
      simp only [utf8, List.flatMap_cons] at h
      obtain ⟨rfl, h'⟩ := utf8Char_append_inj c d _ _ h
      rw [ih t h']

theorem hexVal_hexDigit (d : Nat) (h : d < 16) : hexVal (hexDigit d) = some d := by
  interval_cases d <;> decide

/-- One step of `unquoteRest` undoes one `escapeChar`. -/
theorem unquoteRest_escapeChar (fuel : Nat) (c : Char) (rest : List Char) :
    unquoteRest (fuel + 1) (escapeChar c ++ rest) =
      match unquoteRest fuel rest with
      | some (t, out) => some (c :: t, out)
      | none => none := by
  unfold escapeChar
  split_ifs with h1 h2 h3 h4 h5 h6 h7 h8 h9
  · subst h1
    cases hr : unquoteRest fuel rest <;> simp [unquoteRest, unescapeLetter, hr]
  · subst h2
    cases hr : unquoteRest fuel rest <;> simp [unquoteRest, unescapeLetter, hr]
  · have : c = Char.ofNat 8 := Char_toNat_inj _ _ h3
    subst this
    cases hr : unquoteRest fuel rest <;> simp [unquoteRest, unescapeLetter, hr]
  · have : c = Char.ofNat 12 := Char_toNat_inj _ _ h4
    subst this
    cases hr : unquoteRest fuel rest <;> simp [unquoteRest, unescapeLetter, hr]
  · subst h5
    cases hr : unquoteRest fuel rest <;> simp [unquoteRest, unescapeLetter, hr]
  · subst h6
    cases hr : unquoteRest fuel rest <;> simp [unquoteRest, unescapeLetter, hr]
  · subst h7
    cases hr : unquoteRest fuel rest <;> simp [unquoteRest, unescapeLetter, hr]
  · have hlt : c.toNat < 256 := by
      rcases h8 with h | h | h | h
      · omega
      · subst h; decide
      · subst h; decide
      · subst h; decide
    have e1 := hexVal_hexDigit (c.toNat / 16 % 16) (Nat.mod_lt _ (by decide))
    have e2 := hexVal_hexDigit (c.toNat % 16) (Nat.mod_lt _ (by decide))
    have e0 : hexVal '0' = some 0 := by decide
    have hs : ¬ (55296 ≤ c.toNat ∧ c.toNat < 57344) := by omega
    have ev' : c.toNat / 16 % 16 * 16 + c.toNat % 16 = c.toNat := by omega
    cases hr : unquoteRest fuel rest <;>
      simp [hexDigits, unquoteRest, e0, e1, e2, ev', hs, hr]
  · have hc : c = Char.ofNat 8232 ∨ c = Char.ofNat 8233 := by
      rcases h9 with h | h
      · exact Or.inl (Char_toNat_inj _ _ h)
      · exact Or.inr (Char_toNat_inj _ _ h)
    rcases hc with rfl | rfl <;> cases hr : unquoteRest fuel rest <;>
      simp [hexDigits, hexDigit, unquoteRest, hexVal, hr]
  · have h8' : ¬ c.toNat < 32 := fun h => h8 (Or.inl h)
    cases hr : unquoteRest fuel rest <;> simp [unquoteRest, h1, h2, h8', hr]

/-- Reading back the characters `quote` writes between the quotes. -/
theorem unquoteRest_flatMap (s : GoString) (r : List Char) (fuel : Nat) (h : s.length < fuel) :
    unquoteRest fuel (s.flatMap escapeChar ++ '"' :: r) = some (s, r) := by
  induction s generalizing fuel with
  | nil =>
    cases fuel with
    | zero => omega
    | succ fuel => simp [unquoteRest]
  | cons c s ih =>
    cases fuel with
    | zero => omega
    | succ fuel =>
      simp only [List.length_cons] at h
      simp only [List.flatMap_cons, List.append_assoc]
      rw [unquoteRest_escapeChar, ih fuel (by omega)]

theorem length_flatMap_escapeChar (s : GoString) : s.length ≤ (s.flatMap escapeChar).length := by
  induction s with
  | nil => simp
  | cons c s ih =>
    have : 1 ≤ (escapeChar c).length := by
      unfold escapeChar
      split_ifs <;> simp [length_hexDigits]
    simp only [List.flatMap_cons, List.length_append, List.length_cons]
    omega

/-- Reading back a string literal: `unquote` undoes `quote`. -/
theorem unquote_quote (s : GoString) (r : List Char) : unquote (quote s ++ r) = some (s, r) := by
  simp only [quote, List.cons_append, List.append_assoc, unquote, if_true, List.singleton_append]
  apply unquoteRest_flatMap
  have := length_flatMap_escapeChar s
  simp only [List.length_append, List.length_cons]
  omega

/-- String literals form a prefix code. -/
theorem quote_append_inj (s t : GoString) (r r' : List Char)
    (h : quote s ++ r = quote t ++ r') : s = t ∧ r = r' := by
  have h1 := unquote_quote s r
  rw [h, unquote_quote t r'] at h1
  simp only [Option.some.injEq, Prod.mk.injEq] at h1
  exact ⟨h1.1.symm, h1.2.symm⟩

theorem quote_inj (s t : GoString) (h : quote s = quote t) : s = t := by
  have := quote_append_inj s t [] [] (by simp [h])
  exact this.1

theorem digitChar_isDigit (d : Nat) (h : d < 10) :
    isDigit (Nat.digitChar d) = true ∧ (Nat.digitChar d).toNat - 48 = d := by
  interval_cases d <;> exact ⟨by decide, by decide⟩

theorem toDigitsCore_append (fuel n : Nat) (ds : List Char) :
    Nat.toDigitsCore 10 fuel n ds = Nat.toDigitsCore 10 fuel n [] ++ ds := by
  induction fuel generalizing n ds with
  | zero => simp [Nat.toDigitsCore]
  | succ fuel ih =>
    simp only [Nat.toDigitsCore]
    split_ifs
    · simp
    · rw [ih, ih (n / 10) [Nat.digitChar (n % 10)]]
      simp

/-- The digits of a number are decimal digits and spell the number. -/
theorem toDigitsCore_spec (fuel n : Nat) (h : n < fuel) :
    (∀ c ∈ Nat.toDigitsCore 10 fuel n [], isDigit c) ∧
      Nat.toDigitsCore 10 fuel n [] ≠ [] ∧
      digitsValue (Nat.toDigitsCore 10 fuel n []) = n := by
  induction fuel generalizing n with
  | zero => omega
  | succ fuel ih =>
    have hd := digitChar_isDigit (n % 10) (Nat.mod_lt _ (by decide))
    simp only [Nat.toDigitsCore]
    split_ifs with h0
    · refine ⟨?_, by simp, ?_⟩
      · intro c hc
        simp only [List.mem_singleton] at hc
        rw [hc]
        exact hd.1
      · simp only [digitsValue, List.foldl_cons, List.foldl_nil, hd.2]
        omega
    · rw [toDigitsCore_append]
      have hlt : n / 10 < fuel := by omega
      obtain ⟨a, b, c⟩ := ih (n / 10) hlt
      refine ⟨?_, by simp, ?_⟩
      · intro x hx
        simp only [List.mem_append, List.mem_singleton] at hx
        rcases hx with hx | hx
        · exact a x hx
        · rw [hx]
          exact hd.1
      · simp only [digitsValue, List.foldl_append, List.foldl_cons, List.foldl_nil] at c ⊢
        rw [c, hd.2]
        omega

theorem toDigits_spec (n : Nat) :
    (∀ c ∈ Nat.toDigits 10 n, isDigit c) ∧ Nat.toDigits 10 n ≠ [] ∧
      digitsValue (Nat.toDigits 10 n) = n :=
  toDigitsCore_spec (n + 1) n (by omega)

/-- Runs of digits followed by something that is no digit are read back without ambiguity. -/
theorem digits_append_inj (ds ds' r r' : List Char) (h : ds ++ r = ds' ++ r')
    (hd : ∀ c ∈ ds, isDigit c) (hd' : ∀ c ∈ ds', isDigit c) (hr : Stop r) (hr' : Stop r') :
    ds = ds' ∧ r = r' := by
  induction ds generalizing ds' with
  | nil =>
    cases ds' with
    | nil => exact ⟨rfl, h⟩
    | cons c ds' =>
      exfalso
      simp only [List.nil_append, List.cons_append] at h
      have := hr c _ h
      rw [hd' c (by simp)] at this
      exact absurd this (by simp)
  | cons c ds ih =>
    cases ds' with
    | nil =>
      exfalso
      simp only [List.nil_append, List.cons_append] at h
      have := hr' c _ h.symm
      rw [hd c (by simp)] at this
      exact absurd this (by simp)
    | cons c' ds' =>
      simp only [List.cons_append, List.cons.injEq] at h
      obtain ⟨rfl, h⟩ := h
      obtain ⟨rfl, e⟩ := ih ds' h (fun x hx => hd x (by simp [hx])) (fun x hx => hd' x (by simp [hx]))
      exact ⟨rfl, e⟩

theorem minus_not_digit : isDigit '-' = false := by decide

/-- Decimal renderings followed by something that is no digit are read back without
ambiguity. -/
theorem formatInt_append_inj (v w : Int) (r r' : List Char)
    (h : formatInt v ++ r = formatInt w ++ r') (hr : Stop r) (hr' : Stop r') :
    v = w ∧ r = r' := by
  obtain ⟨av, nv, vv⟩ := toDigits_spec v.natAbs
  obtain ⟨aw, nw, vw⟩ := toDigits_spec w.natAbs
  unfold formatInt at h
  split_ifs at h with hv hw hw
  · simp only [List.cons_append, List.cons.injEq, true_and] at h
    obtain ⟨e, er⟩ := digits_append_inj _ _ _ _ h av aw hr hr'
    have : v.natAbs = w.natAbs := by rw [← vv, ← vw, e]
    exact ⟨by omega, er⟩
  · exfalso
    cases hds : Nat.toDigits 10 w.natAbs with
    | nil => exact nw hds
    | cons c ds =>
      rw [hds] at h aw
      simp only [List.cons_append, List.cons.injEq] at h
      have := aw c (by simp)
      rw [← h.1, minus_not_digit] at this
      exact absurd this (by simp)
  · exfalso
    cases hds : Nat.toDigits 10 v.natAbs with
    | nil => exact nv hds
    | cons c ds =>
      rw [hds] at h av
      simp only [List.cons_append, List.cons.injEq] at h
      have := av c (by simp)
      rw [h.1, minus_not_digit] at this
      exact absurd this (by simp)
  · obtain ⟨e, er⟩ := digits_append_inj _ _ _ _ h av aw hr hr'
    have : v.natAbs = w.natAbs := by rw [← vv, ← vw, e]
    exact ⟨by omega, er⟩

/-- The first character of a decimal rendering is a digit or the minus sign. -/
theorem formatInt_head (v : Int) :
    ∃ c rest, formatInt v = c :: rest ∧ (isDigit c = true ∨ c = '-') := by
  obtain ⟨av, nv, _⟩ := toDigits_spec v.natAbs
  unfold formatInt
  split_ifs
  · exact ⟨'-', _, rfl, Or.inr rfl⟩
  · cases hds : Nat.toDigits 10 v.natAbs with
    | nil => exact absurd hds nv
    | cons c ds =>
      rw [hds] at av
      exact ⟨c, ds, rfl, Or.inl (av c (by simp))⟩

/-! ## Marshalled values are read back without ambiguity -/

theorem kindOfChar_digit (c : Char) (h : isDigit c = true ∨ c = '-') : kindOfChar c = 3 := by
  unfold kindOfChar
  split_ifs with h1 h2 h3 h4 h5 h6 <;> first
    | rfl
    | (exfalso; subst c; rcases h with h | h <;> exact absurd h (by decide))

theorem plainElems_mem (xs : List JVal) (h : plainElems xs = true) :
    ∀ x ∈ xs, x.plain = true := by
  induction xs with
  | nil => exact fun x hx => absurd hx (List.not_mem_nil x)
  | cons y ys ih =>
    simp only [plainElems, Bool.and_eq_true] at h
    intro x hx
    simp only [List.mem_cons] at hx
    rcases hx with rfl | hx
    · exact h.1
    · exact ih h.2 x hx

theorem plainEntries_iff (kvs : List (GoString × JVal)) :
    plainEntries kvs = true ↔ ∀ p ∈ kvs, p.2.plain = true := by
  induction kvs with
  | nil =>
    simp only [plainEntries, true_iff]
    exact fun p hp => absurd hp (List.not_mem_nil p)
  | cons kv rest ih =>
    obtain ⟨k, v⟩ := kv
    simp only [plainEntries, Bool.and_eq_true, ih, List.mem_cons, forall_eq_or_imp]

/-- The first character of the text of a plain value tells its kind, and is no separator. -/
theorem marshalValue_head (v : JVal) (t : List Char) (hp : v.plain = true)
    (h : marshalValue v = some t) :
    ∃ c rest, t = c :: rest ∧ kindOfChar c = kindOf v ∧ c ≠ ',' ∧ c ≠ ']' ∧ c ≠ '}' := by
  cases v with
  | null =>
    simp only [marshalValue, Option.some.injEq] at h
    exact ⟨'n', _, h.symm, by decide, by decide, by decide, by decide⟩
  | bool b =>
    cases b <;> simp only [marshalValue, Option.some.injEq] at h
    · exact ⟨'f', _, h.symm, by decide, by decide, by decide, by decide⟩
    · exact ⟨'t', _, h.symm, by decide, by decide, by decide, by decide⟩
  | int n =>
    simp only [marshalValue, Option.some.injEq] at h
    obtain ⟨c, rest, e, hc⟩ := formatInt_head n
    refine ⟨c, rest, by rw [← h, e], kindOfChar_digit c hc, ?_, ?_, ?_⟩ <;>
      (intro hx; subst hx; rcases hc with hc | hc <;> exact absurd hc (by decide))
  | str s =>
    simp only [marshalValue, Option.some.injEq] at h
    exact ⟨'"', _, by rw [← h]; rfl, rfl, by decide, by decide, by decide⟩
  | arr xs =>
    simp only [marshalValue] at h
    split at h
    · simp only [Option.some.injEq] at h
      exact ⟨'[', _, h.symm, rfl, by decide, by decide, by decide⟩
    · exact absurd h (by simp)
  | obj kvs =>
    simp only [marshalValue] at h
    split at h
    · simp only [Option.some.injEq] at h
      exact ⟨'{', _, by rw [← h]; rfl, rfl, by decide, by decide, by decide⟩
    · exact absurd h (by simp)
  | _ => simp [JVal.plain] at hp

theorem kindOf_eq (v w : JVal) (t u r r' : List Char) (hpv : v.plain = true)
    (hpw : w.plain = true) (hv : marshalValue v = some t)
    (hw : marshalValue w = some u) (h : t ++ r = u ++ r') : kindOf v = kindOf w := by
  obtain ⟨c, rest, e, hk, _⟩ := marshalValue_head v t hpv hv
  obtain ⟨c', rest', e', hk', _⟩ := marshalValue_head w u hpw hw
  rw [e, e'] at h
  simp only [List.cons_append, List.cons.injEq] at h
  rw [← hk, ← hk', h.1]

theorem joinComma_cons_append (e : List Char) (es : List (List Char)) (Z : List Char) :
    joinComma (e :: es) ++ Z =
      e ++ (if es = [] then Z else ',' :: (joinComma es ++ Z)) := by
  cases es with
  | nil => rfl
  | cons f fs => simp [joinComma]

/-- A comma-separated sequence of items followed by a closing bracket is read back without
ambiguity when its items are. -/
theorem joinComma_append_inj (close : Char) (hclose : close ≠ ',')
    (A B : List Char → Prop)
    (hAB : ∀ e f X Y, A e → B f → e ++ X = f ++ Y →
      (∃ rest, X = ',' :: rest ∨ X = close :: rest) →
      (∃ rest, Y = ',' :: rest ∨ Y = close :: rest) → e = f ∧ X = Y)
    (hA : ∀ e X, A e → ∃ c rest, e ++ X = c :: rest ∧ c ≠ close)
    (hB : ∀ f X, B f → ∃ c rest, f ++ X = c :: rest ∧ c ≠ close) :
    ∀ (es fs : List (List Char)) (r r' : List Char), (∀ e ∈ es, A e) → (∀ f ∈ fs, B f) →
      joinComma es ++ close :: r = joinComma fs ++ close :: r' → es = fs ∧ r = r' := by
  intro es
  induction es with
  | nil =>
    intro fs r r' _ hfs h
    cases fs with
    | nil =>
      simp only [joinComma, List.nil_append, List.cons.injEq, true_and] at h
      exact ⟨rfl, h⟩
    | cons f fs =>
      exfalso
      rw [joinComma_cons_append] at h
      obtain ⟨c, rest, e, hc⟩ := hB f _ (hfs f (by simp))
      rw [e] at h
      simp only [joinComma, List.nil_append, List.cons.injEq] at h
      exact hc h.1.symm
  | cons e es ih =>
    intro fs r r' hes hfs h
    cases fs with
    | nil =>
      exfalso
      rw [joinComma_cons_append] at h
      obtain ⟨c, rest, e', hc⟩ := hA e _ (hes e (by simp))
      rw [e'] at h
      simp only [joinComma, List.nil_append, List.cons.injEq] at h
      exact hc h.1
    | cons f fs =>
      rw [joinComma_cons_append, joinComma_cons_append] at h
      have sep : ∀ (l : List (List Char)) (Z : List Char), ∃ rest,
          (if l = [] then close :: Z else ',' :: (joinComma l ++ close :: Z)) = ',' :: rest ∨
          (if l = [] then close :: Z else ',' :: (joinComma l ++ close :: Z)) =
            close :: rest := by
        intro l Z
        by_cases hl : l = []
        · exact ⟨Z, Or.inr (by simp [hl])⟩
        · exact ⟨joinComma l ++ close :: Z, Or.inl (by simp [hl])⟩
      obtain ⟨rfl, hXY⟩ := hAB e f _ _ (hes e (by simp)) (hfs f (by simp)) h (sep es r)
        (sep fs r')
      cases es with
      | nil =>
        cases fs with
        | nil =>
          simp only [if_true, List.cons.injEq, true_and] at hXY
          exact ⟨rfl, hXY⟩
        | cons g gs =>
          simp only [if_true, List.cons_ne_nil, if_false, List.cons.injEq] at hXY
          exact absurd hXY.1 hclose
      | cons e2 es2 =>
        cases fs with
        | nil =>
          simp only [if_true, List.cons_ne_nil, if_false, List.cons.injEq] at hXY
          exact absurd hXY.1.symm hclose
        | cons g gs =>
          simp only [List.cons_ne_nil, if_false, List.cons.injEq, true_and] at hXY
          obtain ⟨e1, e2⟩ := ih (g :: gs) r r' (fun x hx => hes x (by simp [hx]))
            (fun x hx => hfs x (by simp [hx])) hXY
          exact ⟨by rw [e1], e2⟩

theorem Stop_of_sep (close : Char) (hc : isDigit close = false) (X : List Char)
    (h : ∃ rest, X = ',' :: rest ∨ X = close :: rest) : Stop X := by
  obtain ⟨rest, h | h⟩ := h
  · intro c rest' e
    rw [h] at e
    simp only [List.cons.injEq] at e
    rw [← e.1]
    decide
  · intro c rest' e
    rw [h] at e
    simp only [List.cons.injEq] at e
    rw [← e.1]
    exact hc

theorem marshalElems_mem (xs : List JVal) (es : List (List Char))
    (h : marshalElems xs = some es) : ∀ e ∈ es, ∃ x ∈ xs, marshalValue x = some e := by
  induction xs generalizing es with
  | nil =>
    simp only [marshalElems, Option.some.injEq] at h
    subst h
    simp
  | cons x xs ih =>
    simp only [marshalElems] at h
    cases hx : marshalValue x with
    | none => simp [hx] at h
    | some a =>
      cases hr : marshalElems xs with
      | none => simp [hx, hr] at h
      | some b =>
        simp only [hx, hr, Option.some.injEq] at h
        subst h
        intro e he
        simp only [List.mem_cons] at he
        rcases he with rfl | he
        · exact ⟨x, by simp, hx⟩
        · obtain ⟨y, hy, e'⟩ := ih b hr e he
          exact ⟨y, by simp [hy], e'⟩

theorem marshalEntries_mem (kvs : List (GoString × JVal)) (fs : List (GoString × List Char))
    (h : marshalEntries kvs = some fs) :
    ∀ f ∈ fs, ∃ p ∈ kvs, p.1 = f.1 ∧ marshalValue p.2 = some f.2 := by
  induction kvs generalizing fs with
  | nil =>
    simp only [marshalEntries, Option.some.injEq] at h
    subst h
    intro f hf
    exact absurd hf (List.not_mem_nil f)
  | cons kv rest ih =>
    obtain ⟨k, v⟩ := kv
    simp only [marshalEntries] at h
    cases hv : marshalValue v with
    | none => simp [hv] at h
    | some t =>
      cases hr : marshalEntries rest with
      | none => simp [hv, hr] at h
      | some gs =>
        simp only [hv, hr, Option.some.injEq] at h
        subst h
        intro f hf
        simp only [List.mem_cons] at hf
        rcases hf with rfl | hf
        · exact ⟨(k, v), by simp, rfl, hv⟩
        · obtain ⟨p, hp, e⟩ := ih gs hr f hf
          exact ⟨p, by simp [hp], e⟩

theorem mem_sortFields (fs : List (GoString × List Char)) (f : GoString × List Char) :
    f ∈ sortFields fs ↔ f ∈ fs := by
  rw [sortFields_eq_insertionSort]
  exact (List.perm_insertionSort _ fs).mem_iff

/-- The text of a slice is read back without ambiguity when the texts of its elements are. -/
theorem readsBack_arr (xs : List JVal) (hxs : ∀ x ∈ xs, ReadsBack x) (ys : List JVal)
    (hpx : plainElems xs = true) (hpy : plainElems ys = true)
    (es fs : List (List Char)) (r r' : List Char) (hes : marshalElems xs = some es)
    (hfs : marshalElems ys = some fs)
    (h : joinComma es ++ ']' :: r = joinComma fs ++ ']' :: r') : es = fs ∧ r = r' := by
  refine joinComma_append_inj ']' (by decide)
    (fun e => ∃ x, x.plain = true ∧ ReadsBack x ∧ marshalValue x = some e)
    (fun f => ∃ w, w.plain = true ∧ marshalValue w = some f) ?_ ?_ ?_ es fs r r' ?_ ?_ h
  · rintro e f X Y ⟨x, _, hx, hxe⟩ ⟨w, hpw, hwf⟩ heq sX sY
    exact hx w e f X Y hpw hxe hwf heq (Stop_of_sep ']' (by decide) X sX)
      (Stop_of_sep ']' (by decide) Y sY)
  · rintro e X ⟨x, hpx', _, hxe⟩
    obtain ⟨c, rest, e1, _, _, hc, _⟩ := marshalValue_head x e hpx' hxe
    exact ⟨c, rest ++ X, by rw [e1]; rfl, hc⟩
  · rintro f X ⟨w, hpw, hwf⟩
    obtain ⟨c, rest, e1, _, _, hc, _⟩ := marshalValue_head w f hpw hwf
    exact ⟨c, rest ++ X, by rw [e1]; rfl, hc⟩
  · intro e he
    obtain ⟨x, hx, hxe⟩ := marshalElems_mem xs es hes e he
    exact ⟨x, plainElems_mem xs hpx x hx, hxs x hx, hxe⟩
  · intro f hf
    obtain ⟨w, hw, hwf⟩ := marshalElems_mem ys fs hfs f hf
    exact ⟨w, plainElems_mem ys hpy w hw, hwf⟩

/-- The text of a map is read back without ambiguity when the texts of its values are. -/
theorem readsBack_obj (kvs : List (GoString × JVal)) (hkvs : ∀ p ∈ kvs, ReadsBack p.2)
    (kvs2 : List (GoString × JVal)) (hp2 : plainEntries kvs2 = true)
    (fs gs : List (GoString × List Char)) (r r' : List Char)
    (hfs : marshalEntries kvs = some fs) (hgs : marshalEntries kvs2 = some gs)
    (h : joinComma ((sortFields fs).map fun f => quote f.1 ++ ':' :: f.2) ++ '}' :: r =
      joinComma ((sortFields gs).map fun f => quote f.1 ++ ':' :: f.2) ++ '}' :: r') :
    sortFields fs = sortFields gs ∧ r = r' := by
  have key := joinComma_append_inj '}' (by decide)
    (fun e => ∃ k t x, e = quote k ++ ':' :: t ∧ ReadsBack x ∧ marshalValue x = some t)
    (fun f => ∃ k t w, f = quote k ++ ':' :: t ∧ w.plain = true ∧ marshalValue w = some t)
    ?_ ?_ ?_
    ((sortFields fs).map fun f => quote f.1 ++ ':' :: f.2)
    ((sortFields gs).map fun f => quote f.1 ++ ':' :: f.2) r r' ?_ ?_ h
  · refine ⟨?_, key.2⟩
    have inj : Function.Injective (fun f : GoString × List Char => quote f.1 ++ ':' :: f.2) := by
      rintro ⟨k, t⟩ ⟨k', u⟩ e
      simp only at e
      obtain ⟨rfl, e2⟩ := quote_append_inj k k' _ _ e
      simp only [List.cons.injEq, true_and] at e2
      rw [e2]
    exact List.map_injective_iff.2 inj key.1
  · rintro e f X Y ⟨k, t, x, rfl, hx, hxt⟩ ⟨k', u, w, rfl, hpw, hwu⟩ heq sX sY
    simp only [List.append_assoc, List.cons_append] at heq
    obtain ⟨rfl, e2⟩ := quote_append_inj k k' _ _ heq
    simp only [List.cons.injEq, true_and] at e2
    obtain ⟨rfl, e3⟩ := hx w t u X Y hpw hxt hwu e2 (Stop_of_sep '}' (by decide) X sX)
      (Stop_of_sep '}' (by decide) Y sY)
    exact ⟨rfl, e3⟩
  · rintro e X ⟨k, t, x, rfl, _, _⟩
    exact ⟨'"', k.flatMap escapeChar ++ '"' :: ':' :: (t ++ X), by simp [quote], by decide⟩
  · rintro f X ⟨k, t, w, rfl, _, _⟩
    exact ⟨'"', k.flatMap escapeChar ++ '"' :: ':' :: (t ++ X), by simp [quote], by decide⟩
  · intro e he
    obtain ⟨f, hf, rfl⟩ := List.mem_map.1 he
    obtain ⟨p, hp, e1, e2⟩ := marshalEntries_mem kvs fs hfs f ((mem_sortFields fs f).1 hf)
    exact ⟨f.1, f.2, p.2, rfl, hkvs p hp, e2⟩
  · intro e he
    obtain ⟨f, hf, rfl⟩ := List.mem_map.1 he
    obtain ⟨p, hp, e1, e2⟩ := marshalEntries_mem kvs2 gs hgs f ((mem_sortFields gs f).1 hf)
    exact ⟨f.1, f.2, p.2, rfl, (plainEntries_iff kvs2).1 hp2 p hp, e2⟩

mutual
/-- The text of every plain value is read back without ambiguity. -/
theorem readsBack_value : (v : JVal) → v.plain = true → ReadsBack v
  | .null, hpv => by
    intro w t u r r' hpw hv hw h _ _
    have hk := kindOf_eq _ w t u r r' hpv hpw hv hw h
    cases w with
    | null =>
      simp only [marshalValue, Option.some.injEq] at hv hw
      subst hv hw
      exact ⟨rfl, List.append_cancel_left h⟩
    | bool b => cases b <;> simp [kindOf] at hk
    | _ => simp [kindOf] at hk
  | .bool b, hpv => by
    intro w t u r r' hpw hv hw h _ _
    have hk := kindOf_eq _ w t u r r' hpv hpw hv hw h
    cases w with
    | bool b' =>
      cases b <;> cases b' <;> simp only [kindOf] at hk <;>
        first
        | exact absurd hk (by decide)
        | (simp only [marshalValue, Option.some.injEq] at hv hw
           subst hv hw
           exact ⟨rfl, List.append_cancel_left h⟩)
    | _ => cases b <;> simp [kindOf] at hk
  | .int n, hpv => by
    intro w t u r r' hpw hv hw h hr hr'
    have hk := kindOf_eq _ w t u r r' hpv hpw hv hw h
    cases w with
    | int m =>
      simp only [marshalValue, Option.some.injEq] at hv hw
      subst hv hw
      obtain ⟨rfl, e⟩ := formatInt_append_inj n m r r' h hr hr'
      exact ⟨rfl, e⟩
    | bool b => cases b <;> simp [kindOf] at hk
    | _ => simp [kindOf] at hk
  | .str s, hpv => by
    intro w t u r r' hpw hv hw h _ _
    have hk := kindOf_eq _ w t u r r' hpv hpw hv hw h
    cases w with
    | str s' =>
      simp only [marshalValue, Option.some.injEq] at hv hw
      subst hv hw
      obtain ⟨rfl, e⟩ := quote_append_inj s s' r r' h
      exact ⟨rfl, e⟩
    | bool b => cases b <;> simp [kindOf] at hk
    | _ => simp [kindOf] at hk
  | .unsupported, hpv => by simp [JVal.plain] at hpv
  | .nilSlice, hpv => by simp [JVal.plain] at hpv
  | .nilMap, hpv => by simp [JVal.plain] at hpv
  | .bytes _, hpv => by simp [JVal.plain] at hpv
  | .float _, hpv => by simp [JVal.plain] at hpv
  | .arr xs, hpv => by
    intro w t u r r' hpw hv hw h _ _
    have hk := kindOf_eq _ w t u r r' hpv hpw hv hw h
    cases w with
    | arr ys =>
      simp only [JVal.plain] at hpv hpw
      simp only [marshalValue] at hv hw
      cases hes : marshalElems xs with
      | none => simp [hes] at hv
      | some es =>
        cases hfs : marshalElems ys with
        | none => simp [hfs] at hw
        | some fs =>
          simp only [hes, hfs, Option.some.injEq] at hv hw
          subst hv hw
          simp only [List.cons_append, List.append_assoc, List.singleton_append,
            List.cons.injEq, true_and] at h
          obtain ⟨rfl, e⟩ := readsBack_arr xs (readsBack_elems xs hpv) ys hpv hpw es fs r r'
            hes hfs h
          exact ⟨rfl, e⟩
    | bool b => cases b <;> simp [kindOf] at hk
    | _ => simp [kindOf] at hk
  | .obj kvs, hpv => by
    intro w t u r r' hpw hv hw h _ _
    have hk := kindOf_eq _ w t u r r' hpv hpw hv hw h
    cases w with
    | obj kvs2 =>
      simp only [JVal.plain] at hpv hpw
      simp only [marshalValue] at hv hw
      cases hfs : marshalEntries kvs with
      | none => simp [hfs] at hv
      | some fs =>
        cases hgs : marshalEntries kvs2 with
        | none => simp [hgs] at hw
        | some gs =>
          simp only [hfs, hgs, Option.some.injEq] at hv hw
          subst hv hw
          simp only [encodeObject, List.cons_append, List.append_assoc, List.singleton_append,
            List.cons.injEq, true_and] at h
          obtain ⟨e1, e⟩ := readsBack_obj kvs (readsBack_entries kvs hpv) kvs2 hpw fs gs r r'
            hfs hgs h
          exact ⟨by simp only [encodeObject, e1], e⟩
    | bool b => cases b <;> simp [kindOf] at hk
    | _ => simp [kindOf] at hk
/-- The text of every element of a plain slice is read back without ambiguity. -/
theorem readsBack_elems : (xs : List JVal) → plainElems xs = true → ∀ x ∈ xs, ReadsBack x
  | [], _ => by simp
  | x :: xs, hp => by
    simp only [plainElems, Bool.and_eq_true] at hp
    intro y hy
    simp only [List.mem_cons] at hy
    rcases hy with rfl | hy
    · exact readsBack_value y hp.1
    · exact readsBack_elems xs hp.2 y hy
/-- The text of every value of a plain map is read back without ambiguity. -/
theorem readsBack_entries : (kvs : List (GoString × JVal)) → plainEntries kvs = true →
    ∀ p ∈ kvs, ReadsBack p.2
  | [], _ => by simp
  | (k, v) :: rest, hp => by
    simp only [plainEntries, Bool.and_eq_true] at hp
    intro p hp'
    simp only [List.mem_cons] at hp'
    rcases hp' with rfl | hp'
    · exact readsBack_value v hp.1
    · exact readsBack_entries rest hp.2 p hp'
end

theorem Stop_nil : Stop [] := by
  intro c rest e
  exact absurd e (by simp)

/-- A rearrangement of the rendered entries of a map is the rendering of a rearrangement of
the map. -/
theorem marshalEntries_of_perm (gs fs : List (GoString × List Char)) (hp : gs.Perm fs) :
    ∀ kvs2, marshalEntries kvs2 = some gs →
      ∃ kvs1, kvs1.Perm kvs2 ∧ marshalEntries kvs1 = some fs := by
  induction hp with
  | nil => exact fun kvs2 h => ⟨kvs2, List.Perm.refl _, h⟩
  | @cons x l1 l2 _ ih =>
    intro kvs2 h
    cases kvs2 with
    | nil => simp [marshalEntries] at h
    | cons kv rest =>
      obtain ⟨k, v⟩ := kv
      simp only [marshalEntries] at h
      cases hv : marshalValue v with
      | none => simp [hv] at h
      | some t =>
        cases hr : marshalEntries rest with
        | none => simp [hv, hr] at h
        | some l =>
          simp only [hv, hr, Option.some.injEq, List.cons.injEq] at h
          obtain ⟨rfl, rfl⟩ := h
          obtain ⟨rest1, hp1, hm1⟩ := ih rest hr
          exact ⟨(k, v) :: rest1, hp1.cons _, by simp only [marshalEntries, hv, hm1]⟩
  | swap x y l =>
    intro kvs2 h
    cases kvs2 with
    | nil => simp [marshalEntries] at h
    | cons kv rest =>
      cases rest with
      | nil =>
        obtain ⟨k, v⟩ := kv
        simp only [marshalEntries] at h
        cases hv : marshalValue v <;> simp [hv] at h
      | cons kv' rest' =>
        obtain ⟨k, v⟩ := kv
        obtain ⟨k', v'⟩ := kv'
        simp only [marshalEntries] at h
        cases hv : marshalValue v with
        | none => simp [hv] at h
        | some t =>
          cases hv' : marshalValue v' with
          | none => simp [hv, hv'] at h
          | some t' =>
            cases hr : marshalEntries rest' with
            | none => simp [hv, hv', hr] at h
            | some l' =>
              simp only [hv, hv', hr, Option.some.injEq, List.cons.injEq] at h
              obtain ⟨rfl, rfl, rfl⟩ := h
              exact ⟨(k', v') :: (k, v) :: rest', List.Perm.swap _ _ _,
                by simp only [marshalEntries, hv, hv', hr]⟩
  | trans _ _ ih1 ih2 =>
    intro kvs2 h
    obtain ⟨kvs1, hp1, hm1⟩ := ih1 kvs2 h
    obtain ⟨kvs0, hp0, hm0⟩ := ih2 kvs1 hm1
    exact ⟨kvs0, hp0.trans hp1, hm0⟩

mutual
/-- Plain values with the same text hold the same data. -/
theorem sameVal_of_marshalValue : (v w : JVal) → (t : List Char) → v.plain = true →
    w.plain = true → marshalValue v = some t → marshalValue w = some t → sameVal v w
  | .null, w, t, hpv, hpw, hv, hw => by
    have hk := kindOf_eq _ w t t [] [] hpv hpw hv hw rfl
    cases w with
    | null => simp [sameVal]
    | bool b => cases b <;> simp [kindOf] at hk
    | _ => simp [kindOf] at hk
  | .bool b, w, t, hpv, hpw, hv, hw => by
    have hk := kindOf_eq _ w t t [] [] hpv hpw hv hw rfl
    cases w with
    | bool b' => cases b <;> cases b' <;> simp [kindOf] at hk <;> simp [sameVal]
    | _ => cases b <;> simp [kindOf] at hk
  | .int n, w, t, hpv, hpw, hv, hw => by
    have hk := kindOf_eq _ w t t [] [] hpv hpw hv hw rfl
    cases w with
    | int m =>
      simp only [marshalValue, Option.some.injEq] at hv hw
      have := formatInt_append_inj n m [] [] (by rw [hv, hw]) Stop_nil Stop_nil
      simp only [sameVal]
      exact this.1
    | bool b => cases b <;> simp [kindOf] at hk
    | _ => simp [kindOf] at hk
  | .str s, w, t, hpv, hpw, hv, hw => by
    have hk := kindOf_eq _ w t t [] [] hpv hpw hv hw rfl
    cases w with
    | str s' =>
      simp only [marshalValue, Option.some.injEq] at hv hw
      simp only [sameVal]
      exact quote_inj s s' (by rw [hv, hw])
    | bool b => cases b <;> simp [kindOf] at hk
    | _ => simp [kindOf] at hk
  | .unsupported, w, t, hpv, hpw, hv, hw => by simp [JVal.plain] at hpv
  | .nilSlice, w, t, hpv, hpw, hv, hw => by simp [JVal.plain] at hpv
  | .nilMap, w, t, hpv, hpw, hv, hw => by simp [JVal.plain] at hpv
  | .bytes _, w, t, hpv, hpw, hv, hw => by simp [JVal.plain] at hpv
  | .float _, w, t, hpv, hpw, hv, hw => by simp [JVal.plain] at hpv
  | .arr xs, w, t, hpv, hpw, hv, hw => by
    have hk := kindOf_eq _ w t t [] [] hpv hpw hv hw rfl
    cases w with
    | arr ys =>
      simp only [JVal.plain] at hpv hpw
      simp only [marshalValue] at hv hw
      cases hes : marshalElems xs with
      | none => simp [hes] at hv
      | some es =>
        cases hfs : marshalElems ys with
        | none => simp [hfs] at hw
        | some fs =>
          simp only [hes, hfs, Option.some.injEq] at hv hw
          have h : joinComma es ++ ']' :: [] = joinComma fs ++ ']' :: [] := by
            have := hv.trans hw.symm
            simpa using this
          obtain ⟨rfl, _⟩ := readsBack_arr xs (readsBack_elems xs hpv) ys hpv hpw es fs [] []
            hes hfs h
          simp only [sameVal]
          exact sameElems_of_marshalElems xs ys es hpv hpw hes hfs
    | bool b => cases b <;> simp [kindOf] at hk
    | _ => simp [kindOf] at hk
  | .obj kvs, w, t, hpv, hpw, hv, hw => by
    have hk := kindOf_eq _ w t t [] [] hpv hpw hv hw rfl
    cases w with
    | obj kvs2 =>
      simp only [JVal.plain] at hpv hpw
      simp only [marshalValue] at hv hw
      cases hfs : marshalEntries kvs with
      | none => simp [hfs] at hv
      | some fs =>
        cases hgs : marshalEntries kvs2 with
        | none => simp [hgs] at hw
        | some gs =>
          simp only [hfs, hgs, Option.some.injEq] at hv hw
          have h : joinComma ((sortFields fs).map fun f => quote f.1 ++ ':' :: f.2) ++
              '}' :: [] =
              joinComma ((sortFields gs).map fun f => quote f.1 ++ ':' :: f.2) ++ '}' :: [] := by
            have := hv.trans hw.symm
            simpa [encodeObject] using this
          obtain ⟨e, _⟩ := readsBack_obj kvs (readsBack_entries kvs hpv) kvs2 hpw fs gs [] []
            hfs hgs h
          have p1 := List.perm_insertionSort (fun f g => keyLe f.1 g.1 = true) fs
          have p2 := List.perm_insertionSort (fun f g => keyLe f.1 g.1 = true) gs
          rw [← sortFields_eq_insertionSort] at p1 p2
          rw [e] at p1
          obtain ⟨kvs1, hp, hm⟩ := marshalEntries_of_perm gs fs (p2.symm.trans p1) kvs2 hgs
          have hp1 : plainEntries kvs1 = true :=
            (plainEntries_iff kvs1).2 fun q hq =>
              (plainEntries_iff kvs2).1 hpw q (hp.mem_iff.1 hq)
          simp only [sameVal]
          exact ⟨kvs1, sameFields_of_marshalEntries kvs kvs1 fs hpv hp1 hfs hm, hp⟩
    | bool b => cases b <;> simp [kindOf] at hk
    | _ => simp [kindOf] at hk
/-- Plain slices with the same texts hold the same data. -/
theorem sameElems_of_marshalElems : (xs ys : List JVal) → (es : List (List Char)) →
    plainElems xs = true → plainElems ys = true →
    marshalElems xs = some es → marshalElems ys = some es → sameElems xs ys
  | [], ys, es, _, _, hx, hy => by
    simp only [marshalElems, Option.some.injEq] at hx
    subst hx
    cases ys with
    | nil => simp [sameElems]
    | cons y ys =>
      simp only [marshalElems] at hy
      cases hv : marshalValue y <;> cases hr : marshalElems ys <;> simp [hv, hr] at hy
  | x :: xs, ys, es, hpx, hpy, hx, hy => by
    simp only [marshalElems] at hx
    cases hv : marshalValue x with
    | none => simp [hv] at hx
    | some a =>
      cases hr : marshalElems xs with
      | none => simp [hv, hr] at hx
      | some b =>
        simp only [hv, hr, Option.some.injEq] at hx
        subst hx
        cases ys with
        | nil => simp [marshalElems] at hy
        | cons y ys =>
          simp only [marshalElems] at hy
          cases hv' : marshalValue y with
          | none => simp [hv'] at hy
          | some a' =>
            cases hr' : marshalElems ys with
            | none => simp [hv', hr'] at hy
            | some b' =>
              simp only [hv', hr', Option.some.injEq, List.cons.injEq] at hy
              obtain ⟨rfl, rfl⟩ := hy
              simp only [plainElems, Bool.and_eq_true] at hpx hpy
              simp only [sameElems]
              exact ⟨sameVal_of_marshalValue x y a' hpx.1 hpy.1 hv hv',
                sameElems_of_marshalElems xs ys b' hpx.2 hpy.2 hr hr'⟩
/-- Plain entry lists with the same rendered entries hold the same data, entry by entry. -/
theorem sameFields_of_marshalEntries : (kvs kvs1 : List (GoString × JVal)) →
    (fs : List (GoString × List Char)) → plainEntries kvs = true → plainEntries kvs1 = true →
    marshalEntries kvs = some fs → marshalEntries kvs1 = some fs → sameFields kvs kvs1
  | [], kvs1, fs, _, _, hx, hy => by
    simp only [marshalEntries, Option.some.injEq] at hx
    subst hx
    cases kvs1 with
    | nil => simp [sameFields]
    | cons kv rest =>
      obtain ⟨k, v⟩ := kv
      simp only [marshalEntries] at hy
      cases hv : marshalValue v <;> cases hr : marshalEntries rest <;> simp [hv, hr] at hy
  | (k, v) :: rest, kvs1, fs, hpx, hpy, hx, hy => by
    simp only [marshalEntries] at hx
    cases hv : marshalValue v with
    | none => simp [hv] at hx
    | some a =>
      cases hr : marshalEntries rest with
      | none => simp [hv, hr] at hx
      | some b =>
        simp only [hv, hr, Option.some.injEq] at hx
        subst hx
        cases kvs1 with
        | nil => simp [marshalEntries] at hy
        | cons kv1 rest1 =>
          obtain ⟨k1, w⟩ := kv1
          simp only [marshalEntries] at hy
          cases hv' : marshalValue w with
          | none => simp [hv'] at hy
          | some a' =>
            cases hr' : marshalEntries rest1 with
            | none => simp [hv', hr'] at hy
            | some b' =>
              simp only [hv', hr', Option.some.injEq, List.cons.injEq, Prod.mk.injEq] at hy
              obtain ⟨⟨rfl, rfl⟩, rfl⟩ := hy
              simp only [plainEntries, Bool.and_eq_true] at hpx hpy
              simp only [sameFields, true_and]
              exact ⟨sameVal_of_marshalValue v w a' hpx.1 hpy.1 hv hv',
                sameFields_of_marshalEntries rest rest1 b' hpx.2 hpy.2 hr hr'⟩
end

/-- Plain bodies with the same text hold the same data. -/
theorem sameBody_of_marshalBody (b1 b2 : Body) (t : List Char) (hp1 : bodyPlain b1 = true)
    (hp2 : bodyPlain b2 = true) (h1 : marshalBody b1 = some t)
    (h2 : marshalBody b2 = some t) : sameBody b1 b2 := by
  cases b1 with
  | none =>
    cases b2 with
    | none => simp [sameBody]
    | some kvs2 =>
      exfalso
      have hk := kindOf_eq .null (.obj kvs2) t t [] [] rfl hp2 h1 h2 rfl
      simp [kindOf] at hk
  | some kvs =>
    cases b2 with
    | none =>
      exfalso
      have hk := kindOf_eq (.obj kvs) .null t t [] [] hp1 rfl h1 h2 rfl
      simp [kindOf] at hk
    | some kvs2 =>
      simp only [sameBody]
      exact sameVal_of_marshalValue _ _ t hp1 hp2 h1 h2

/-- Artifacts with plain bodies and the same JSON text have the same fields and bodies that
hold the same data. -/
theorem marshal_inj (a b : Artifact) (t : GoString) (hpa : bodyPlain a.JSONBody = true)
    (hpb : bodyPlain b.JSONBody = true) (ha : a.marshal = some t)
    (hb : b.marshal = some t) :
    a.ID = b.ID ∧ a.Type_ = b.Type_ ∧ a.Version = b.Version ∧ a.WorkspaceID = b.WorkspaceID ∧
      a.CreatedAt = b.CreatedAt ∧ sameBody a.JSONBody b.JSONBody := by
  simp only [Artifact.marshal] at ha hb
  cases hba : marshalBody a.JSONBody with
  | none => simp [hba] at ha
  | some ta =>
    cases hbb : marshalBody b.JSONBody with
    | none => simp [hbb] at hb
    | some tb =>
      simp only [hba, hbb, Option.some.injEq] at ha hb
      have h := ha.trans hb.symm
      simp only [List.append_assoc] at h
      have h1 := List.append_cancel_left h
      obtain ⟨eid, h2⟩ := quote_append_inj _ _ _ _ h1
      have h3 := List.append_cancel_left h2
      obtain ⟨etype, h4⟩ := quote_append_inj _ _ _ _ h3
      have h5 := List.append_cancel_left h4
      have hstop : ∀ X : List Char, Stop (",\"workspaceId\":".toList ++ X) := by
        intro X c rest e
        have e' : ",\"workspaceId\":".toList = ',' :: "\"workspaceId\":".toList := by decide
        rw [e'] at e
        simp only [List.cons_append, List.cons.injEq] at e
        rw [← e.1]
        decide
      obtain ⟨eversion, h6⟩ := formatInt_append_inj _ _ _ _ h5 (hstop _) (hstop _)
      have h7 := List.append_cancel_left h6
      obtain ⟨ews, h8⟩ := quote_append_inj _ _ _ _ h7
      have h9 := List.append_cancel_left h8
      obtain ⟨ecreated, h10⟩ := quote_append_inj _ _ _ _ h9
      have h11 := List.append_cancel_left h10
      have h12 := List.append_cancel_right h11
      subst h12
      exact ⟨UUID.String_inj _ _ eid, etype, eversion, UUID.String_inj _ _ ews, ecreated,
        sameBody_of_marshalBody _ _ ta hpa hpb hba hbb⟩

/-- Artifacts with plain bodies and the same canonical bytes have the same fields and bodies
that hold the same data. -/
theorem Canonicalize_inj (a b : Artifact) (canonical : List Nat)
    (hpa : bodyPlain a.JSONBody = true) (hpb : bodyPlain b.JSONBody = true)
    (ha : a.Canonicalize = some canonical) (hb : b.Canonicalize = some canonical) :
    a.ID = b.ID ∧ a.Type_ = b.Type_ ∧ a.Version = b.Version ∧ a.WorkspaceID = b.WorkspaceID ∧
      a.CreatedAt = b.CreatedAt ∧ sameBody a.JSONBody b.JSONBody := by
  simp only [Artifact.Canonicalize] at ha hb
  cases hta : a.marshal with
  | none => simp [hta] at ha
  | some ta =>
    cases htb : b.marshal with
    | none => simp [htb] at hb
    | some tb =>
      simp only [hta, htb, Option.some.injEq] at ha hb
      have e : ta = tb := utf8_inj ta tb (ha.trans hb.symm)
      subst e
      exact marshal_inj a b ta hpa hpb hta htb

/-- Two one-entry bodies whose values do not hold the same data do not hold the same data. -/
theorem not_sameBody_singleton (k : GoString) (v w : JVal) (h : ¬ sameVal v w) :
    ¬ sameBody (some [(k, v)]) (some [(k, w)]) := by
  intro hs
  simp only [sameBody, sameVal] at hs
  obtain ⟨kvs1, hf, hp⟩ := hs
  have e := List.perm_singleton.1 hp
  subst e
  simp only [sameFields, true_and, and_true] at hf
  exact h hf

theorem not_sameBody_example :
    ¬ sameBody exampleArtifact.JSONBody otherBodyArtifact.JSONBody := by
  intro h
  simp only [exampleArtifact, otherBodyArtifact, NewArtifact, sameBody, sameVal] at h
  obtain ⟨kvs1, hf, hp⟩ := h
  have e := List.perm_singleton.1 hp
  subst e
  simp only [sameFields, sameVal, true_and, and_true] at hf
  exact absurd hf (by decide)

/-! ## Strings given by their bytes -/

theorem decodeRune_utf8Char (c : Char) (rest : List Nat) :
    decodeRune (utf8Char c ++ rest) = some (c, rest) := by
  have hv : c.toNat < 55296 ∨ (57343 < c.toNat ∧ c.toNat < 1114112) := by
    have h := c.valid
    simp only [Char.toNat]
    rcases h with h | h
    · exact Or.inl h
    · exact Or.inr ⟨h.1, h.2⟩
  unfold utf8Char
  simp only
  split_ifs with h1 h2 h3
  · simp [decodeRune, h1]
  · have a1 : ¬ 192 + c.toNat / 64 < 128 := by omega
    have a2 : 194 ≤ 192 + c.toNat / 64 ∧ 192 + c.toNat / 64 < 224 := by omega
    have a3 : 128 ≤ 128 + c.toNat % 64 ∧ 128 + c.toNat % 64 < 192 := by omega
    have a4 : (192 + c.toNat / 64 - 192) * 64 + (128 + c.toNat % 64 - 128) = c.toNat := by omega
    simp only [List.cons_append, List.nil_append, decodeRune, a1, a2, a3, a4, if_false,
      if_true, and_self, Char.ofNat_toNat]
  · have a1 : ¬ 224 + c.toNat / 4096 < 128 := by omega
    have a2 : ¬ (194 ≤ 224 + c.toNat / 4096 ∧ 224 + c.toNat / 4096 < 224) := by omega
    have a3 : 224 ≤ 224 + c.toNat / 4096 ∧ 224 + c.toNat / 4096 < 240 := by omega
    have a4 : (if 224 + c.toNat / 4096 = 224 then 160 else 128) ≤ 128 + c.toNat / 64 % 64 ∧
        128 + c.toNat / 64 % 64 < (if 224 + c.toNat / 4096 = 237 then 160 else 192) ∧
        128 ≤ 128 + c.toNat % 64 ∧ 128 + c.toNat % 64 < 192 := by
      refine ⟨?_, ?_, by omega, by omega⟩
      · split_ifs <;> omega
      · split_ifs <;> omega
    have a5 : (224 + c.toNat / 4096 - 224) * 4096 + (128 + c.toNat / 64 % 64 - 128) * 64 +
        (128 + c.toNat % 64 - 128) = c.toNat := by omega
    simp only [List.cons_append, List.nil_append, decodeRune, a1, a2, a3, a4, a5, if_false,
      if_true, and_self, Char.ofNat_toNat]
  · have a1 : ¬ 240 + c.toNat / 262144 < 128 := by omega
    have a2 : ¬ (194 ≤ 240 + c.toNat / 262144 ∧ 240 + c.toNat / 262144 < 224) := by omega
    have a3 : ¬ (224 ≤ 240 + c.toNat / 262144 ∧ 240 + c.toNat / 262144 < 240) := by omega
    have a3' : 240 ≤ 240 + c.toNat / 262144 ∧ 240 + c.toNat / 262144 < 245 := by omega
    have a4 : (if 240 + c.toNat / 262144 = 240 then 144 else 128) ≤
          128 + c.toNat / 4096 % 64 ∧
        128 + c.toNat / 4096 % 64 < (if 240 + c.toNat / 262144 = 244 then 144 else 192) ∧
        128 ≤ 128 + c.toNat / 64 % 64 ∧ 128 + c.toNat / 64 % 64 < 192 ∧
        128 ≤ 128 + c.toNat % 64 ∧ 128 + c.toNat % 64 < 192 := by
      refine ⟨?_, ?_, by omega, by omega, by omega, by omega⟩
      · split_ifs <;> omega
      · split_ifs <;> omega
    have a5 : (240 + c.toNat / 262144 - 240) * 262144 + (128 + c.toNat / 4096 % 64 - 128) * 4096 +
        (128 + c.toNat / 64 % 64 - 128) * 64 + (128 + c.toNat % 64 - 128) = c.toNat := by omega
    simp only [List.cons_append, List.nil_append, decodeRune, a1, a2, a3, a3', a4, a5, if_false,
      if_true, and_self, Char.ofNat_toNat]

theorem utf8Char_ne_nil (c : Char) : ∃ b rest, utf8Char c = b :: rest := by
  unfold utf8Char
  simp only
  split_ifs <;> exact ⟨_, _, rfl⟩

/-- On the bytes of a valid string, `escapeBytes` writes what `escapeChar` writes for its
characters. -/
theorem escapeBytes_utf8 (s : GoString) (fuel : Nat) (h : s.length ≤ fuel) :
    escapeBytes fuel (utf8 s) = s.flatMap escapeChar := by
  induction s generalizing fuel with
  | nil => cases fuel <;> rfl
  | cons c s ih =>
    cases fuel with
    | zero => simp at h
    | succ fuel =>
      simp only [List.length_cons, Nat.add_le_add_iff_right] at h
      have hd := decodeRune_utf8Char c (utf8 s)
      obtain ⟨b, rest, e⟩ := utf8Char_ne_nil c
      simp only [utf8, List.flatMap_cons] at hd ⊢
      rw [e] at hd ⊢
      simp only [List.cons_append] at hd ⊢
      simp only [escapeBytes, hd]
      rw [← ih fuel h]
      rfl

theorem length_utf8_ge (s : GoString) : s.length ≤ (utf8 s).length := by
  induction s with
  | nil => simp [utf8]
  | cons c s ih =>
    obtain ⟨b, rest, e⟩ := utf8Char_ne_nil c
    simp only [utf8, List.flatMap_cons, List.length_append, List.length_cons, e] at ih ⊢
    omega

/-- On the bytes of a valid string, `quoteBytes` is `quote`. -/
theorem quoteBytes_utf8 (s : GoString) : quoteBytes (utf8 s) = quote s := by
  simp only [quoteBytes, quote, escapeBytes_utf8 s _ (length_utf8_ge s)]

/-- On the bytes of the type of an artifact, `marshalWithType` is `marshal`. -/
theorem marshalWithType_utf8 (a : Artifact) : a.marshalWithType (utf8 a.Type_) = a.marshal := by
  simp only [Artifact.marshalWithType, Artifact.marshal, quoteBytes_utf8]

/-! ## The claims -/

/-- C1, at a failing input. The key pair is one `ecdsa.GenerateKey` can return, the artifact
passes `Validate`, `Sign` succeeds when `ecdsa.Sign` draws the nonce `shortNonce` and returns
`shortJWS`, the pair `(r, s)` it encodes is a signature `ecdsa.Verify` accepts for the
signing input, and yet `Verify`, with the signer's key registered under its key ID, returns
the invalid-signature error for `Verify(Sign(a), a)`. -/
theorem C1_round_trip_fails_for_short_r :
    exampleKey.Valid ∧ exampleArtifact.Validate = none ∧
      exampleSigner.Sign exampleArtifact exampleNow shortNonce = (shortJWS, none) ∧
      ecdsaSign exampleKey (SHA256.sum256 (utf8 exampleSigningInput)) shortNonce =
        some shortSignature ∧
      ecdsaVerify exampleKey.PublicKey (SHA256.sum256 (utf8 exampleSigningInput))
        shortSignature.1 shortSignature.2 = true ∧
      exampleVerifier.publicKeys exampleSigner.GetKeyID = some exampleSigner.GetPublicKey ∧
      exampleVerifier.Verify refDecoder shortJWS exampleArtifact = .error .invalidSignature :=
  ⟨exampleKey_valid, by decide, sign_shortNonce,
    by rw [digest_example]; exact ecdsaSign_shortNonce,
    by rw [digest_example]; exact ecdsaVerify_shortSignature, by decide, verify_shortJWS⟩

/-- C2, amended. A successful `Verify` has compared the `iss` and `sub` claims of the payload
with the text forms of the candidate's workspace ID and ID, and nothing else of the
candidate: two candidates with the same ID and workspace ID get the same result from
`Verify`, for every envelope, registry and decoder. -/
theorem C2_verify_binds_identifiers_only (dec : JSONDecoder) (v : Verifier) (jws : GoString)
    (c : Artifact) :
    (v.Verify dec jws c = .ok →
      ∃ p0 p1 p2 payloadJSON payload, splitDots jws = [p0, p1, p2] ∧
        b64Decode p1 = some payloadJSON ∧ dec.unmarshalPayload payloadJSON = some payload ∧
        payload.Iss = c.WorkspaceID.String ∧ payload.Sub = c.ID.String) ∧
    (∀ c' : Artifact, c'.ID = c.ID → c'.WorkspaceID = c.WorkspaceID →
      v.Verify dec jws c' = v.Verify dec jws c) := by
  constructor
  · intro h
    obtain ⟨p0, p1, p2, _, _, _, payloadJSON, payload, _, hsplit, _, _, _, _, hd1, hp, hiss,
      hsub, _⟩ := (Verify_eq_ok_iff dec v jws c).1 h
    exact ⟨p0, p1, p2, payloadJSON, payload, hsplit, hd1, hp, hiss, hsub⟩
  · intro c' hid hws
    unfold Verifier.Verify
    rw [hid, hws]

/-- C2, an instance of the amended claim: the candidate with the substituted body gets the
result of the signed artifact. -/
theorem C2_witness :
    exampleVerifier.Verify refDecoder exampleJWS otherBodyArtifact =
      exampleVerifier.Verify refDecoder exampleJWS exampleArtifact :=
  (C2_verify_binds_identifiers_only refDecoder exampleVerifier exampleJWS exampleArtifact).2
    otherBodyArtifact rfl rfl

/-- C2 fails as stated: `exampleJWS` is the envelope `Sign` returns for `exampleArtifact`,
`otherBodyArtifact` is a valid artifact with the same ID and workspace ID and another
`jsonBody`, its canonical form differs from the `artifact` claim of the envelope, and
`Verify` returns success for it. -/
theorem C2_counterexample :
    exampleArtifact.Validate = none ∧ otherBodyArtifact.Validate = none ∧
      otherBodyArtifact.ID = exampleArtifact.ID ∧
      otherBodyArtifact.WorkspaceID = exampleArtifact.WorkspaceID ∧
      exampleSigner.Sign exampleArtifact exampleNow longNonce = (exampleJWS, none) ∧
      payloadOf refDecoder exampleJWS =
        some (claimsOf exampleArtifact exampleCanonical exampleNow) ∧
      otherBodyArtifact.marshal ≠
        some (claimsOf exampleArtifact exampleCanonical exampleNow).Artifact ∧
      otherBodyArtifact.Canonicalize ≠ exampleArtifact.Canonicalize ∧
      exampleVerifier.Verify refDecoder exampleJWS otherBodyArtifact = .ok :=
  ⟨by decide, by decide, rfl, rfl, sign_longNonce, payload_exampleJWS, by decide!, by decide!,
    verify_otherBody⟩

/-- C3, amended. In an envelope that `Verify` accepts, replace the last character of the
signature segment, a character of the base64url alphabet, by another character of the
alphabet. `Verify` then returns success or the invalid-signature error, never a decoding
error; and it returns success whenever the two characters agree on the bits the decoder
uses: the leading two bits when the characters before the last number 1 modulo 4 (a
signature of 64 bytes), the leading four when they number 2 modulo 4. -/
theorem C3_last_signature_character (dec : JSONDecoder) (v : Verifier) (a : Artifact)
    (p0 p1 q : GoString) (c c' : Char) (x x' : Nat)
    (h0 : '.' ∉ p0) (h1 : '.' ∉ p1) (hq : '.' ∉ q)
    (hc : b64Val c = some x) (hc' : b64Val c' = some x')
    (hok : v.Verify dec (p0 ++ '.' :: (p1 ++ '.' :: (q ++ [c]))) a = .ok) :
    (v.Verify dec (p0 ++ '.' :: (p1 ++ '.' :: (q ++ [c']))) a = .ok ∨
      v.Verify dec (p0 ++ '.' :: (p1 ++ '.' :: (q ++ [c']))) a = .error .invalidSignature) ∧
    ((significant q % 4 = 1 ∧ x / 16 = x' / 16) ∨ (significant q % 4 = 2 ∧ x / 4 = x' / 4) →
      v.Verify dec (p0 ++ '.' :: (p1 ++ '.' :: (q ++ [c']))) a = .ok) := by
  have hdot : ∀ (d : Char) (y : Nat), b64Val d = some y → '.' ∉ q ++ [d] := by
    intro d y hd hm
    rcases List.mem_append.1 hm with h | h
    · exact hq h
    · exact (b64Val_some_ne d y hd).1 (List.mem_singleton.1 h).symm
  have hs := splitDots_three p0 p1 (q ++ [c]) h0 h1 (hdot c x hc)
  have hs' := splitDots_three p0 p1 (q ++ [c']) h0 h1 (hdot c' x' hc')
  obtain ⟨p0', p1', p2', headerJSON, header, publicKey, payloadJSON, payload, signature, hsplit,
    hd0, hh, halg, hk, hd1, hp, hiss, hsub, hd2, hlen, hver⟩ := (Verify_eq_ok_iff _ _ _ _).1 hok
  rw [hs] at hsplit
  simp only [List.cons.injEq, and_true] at hsplit
  obtain ⟨rfl, rfl, rfl⟩ := hsplit
  obtain ⟨hsame, hbits⟩ := b64Decode_snoc q c c' x x' hc hc'
  constructor
  · obtain ⟨sig', hd2', hl'⟩ := hsame signature hd2
    have hlen' : ¬ sig'.length < 32 := by omega
    by_cases hv : ecdsaVerify publicKey (SHA256.sum256 (utf8 (p0 ++ '.' :: p1)))
        (ofBytes (sig'.take 32)) (ofBytes (sig'.drop 32)) = true
    · left
      exact (Verify_eq_ok_iff _ _ _ _).2 ⟨p0, p1, q ++ [c'], headerJSON, header, publicKey,
        payloadJSON, payload, sig', hs', hd0, hh, halg, hk, hd1, hp, hiss, hsub, hd2', by omega, hv⟩
    · right
      simp [Verifier.Verify, hs', hd0, hh, halg, hk, hd1, hp, hiss, hsub, hd2', hlen', hv]
  · intro hb
    have hd2' := hbits hb
    rw [hd2] at hd2'
    exact (Verify_eq_ok_iff _ _ _ _).2 ⟨p0, p1, q ++ [c'], headerJSON, header, publicKey,
      payloadJSON, payload, signature, hs', hd0, hh, halg, hk, hd1, hp, hiss, hsub, hd2', hlen, hver⟩

/-- C3, an instance of the amended claim: the signature segment of `exampleJWS` has 86
characters, `A` and `B` have the same two leading bits, and `Verify` accepts the envelope
whose last character was replaced. -/
theorem C3_witness :
    exampleVerifier.Verify refDecoder tamperedJWS exampleArtifact = .ok :=
  (C3_last_signature_character refDecoder exampleVerifier exampleArtifact exampleHeaderB64
    examplePayloadB64 exampleSignatureInit 'A' 'B' 0 1 (by decide!) (by decide!) (by decide!)
    (by decide!) (by decide!) verify_exampleJWS).2 (Or.inl ⟨by decide!, by decide!⟩)

/-- C3 fails as stated: `Verify` accepts `exampleJWS`, the envelope `Sign` returned, and it
accepts `tamperedJWS`, which differs from it in exactly one character, the last of the
signature segment. -/
theorem C3_counterexample :
    exampleSigner.Sign exampleArtifact exampleNow longNonce = (exampleJWS, none) ∧
      exampleVerifier.Verify refDecoder exampleJWS exampleArtifact = .ok ∧
      exampleJWS.length = tamperedJWS.length ∧ differences exampleJWS tamperedJWS = 1 ∧
      exampleJWS.dropLast = tamperedJWS.dropLast ∧
      exampleVerifier.Verify refDecoder tamperedJWS exampleArtifact = .ok :=
  ⟨sign_longNonce, verify_exampleJWS, by decide!, by decide!, by decide!, verify_tamperedJWS⟩

/-- C4. Let `Sign` succeed on `a` and let the decoder read back the claims `Sign` marshalled.
For every candidate `c` whose ID or workspace ID differs from that of `a` and for every
registry, `Verify(Sign(a), c)` returns an error; when the header is accepted (read with the
algorithm ES256) and its key ID is registered, the error is the issuer mismatch or the
subject mismatch. -/
theorem C4_identifier_substitution_rejected (dec : JSONDecoder) (s : LocalSigner)
    (a c : Artifact) (now : Int) (nonce : Nat) (v : Verifier) (canonical : GoString)
    (hsign : (s.Sign a now nonce).2 = none)
    (hcanonical : a.marshal = some canonical)
    (hpayload : dec.unmarshalPayload (utf8 (claimsOf a canonical now).marshal) =
      some (claimsOf a canonical now))
    (hsubst : c.ID ≠ a.ID ∨ c.WorkspaceID ≠ a.WorkspaceID) :
    (∃ e, v.Verify dec (s.Sign a now nonce).1 c = .error e) ∧
    (∀ header, dec.unmarshalHeader (utf8 s.header.marshal) = some header →
      header.Alg = ES256 → v.publicKeys header.Kid ≠ none →
        v.Verify dec (s.Sign a now nonce).1 c = .error .issuerMismatch ∨
        v.Verify dec (s.Sign a now nonce).1 c = .error .subjectMismatch) := by
  obtain ⟨canonical', r, s', _, hm, _, henv⟩ := Sign_eq_of_success s a now nonce hsign
  rw [hcanonical] at hm
  cases Option.some.inj hm
  have hsplit := splitDots_three _ _ _ (dot_not_mem_b64Encode (utf8 s.header.marshal))
    (dot_not_mem_b64Encode (utf8 (claimsOf a canonical now).marshal))
    (dot_not_mem_b64Encode (encodeSignature r s'))
  have hd0 := b64Decode_b64Encode _ (utf8_lt s.header.marshal)
  have hd1 := b64Decode_b64Encode _ (utf8_lt (claimsOf a canonical now).marshal)
  have hclaims : (claimsOf a canonical now).Iss ≠ c.WorkspaceID.String ∨
      (claimsOf a canonical now).Sub ≠ c.ID.String := by
    rcases hsubst with h | h
    · right
      exact fun e => h (UUID.String_inj _ _ e.symm)
    · left
      exact fun e => h (UUID.String_inj _ _ e.symm)
  rw [henv]
  have key : ∀ publicKey header, dec.unmarshalHeader (utf8 s.header.marshal) = some header →
      header.Alg = ES256 → v.publicKeys header.Kid = some publicKey →
        v.Verify dec (b64Encode (utf8 s.header.marshal) ++ '.' ::
          (b64Encode (utf8 (claimsOf a canonical now).marshal) ++ '.' ::
            b64Encode (encodeSignature r s'))) c = .error .issuerMismatch ∨
        v.Verify dec (b64Encode (utf8 s.header.marshal) ++ '.' ::
          (b64Encode (utf8 (claimsOf a canonical now).marshal) ++ '.' ::
            b64Encode (encodeSignature r s'))) c = .error .subjectMismatch := by
    intro publicKey header hh halg hk
    by_cases hiss : (claimsOf a canonical now).Iss = c.WorkspaceID.String
    · have hsub : (claimsOf a canonical now).Sub ≠ c.ID.String := by
        rcases hclaims with h | h
        · exact absurd hiss h
        · exact h
      right
      simp [Verifier.Verify, hsplit, hd0, hh, halg, hk, hd1, hpayload, hiss, hsub]
    · left
      simp [Verifier.Verify, hsplit, hd0, hh, halg, hk, hd1, hpayload, hiss]
  constructor
  · cases hh : dec.unmarshalHeader (utf8 s.header.marshal) with
    | none => exact ⟨.headerJSON, by simp [Verifier.Verify, hsplit, hd0, hh]⟩
    | some header =>
      by_cases halg : header.Alg = ES256
      · cases hk : v.publicKeys header.Kid with
        | none =>
          exact ⟨.unknownKeyID header.Kid, by simp [Verifier.Verify, hsplit, hd0, hh, halg, hk]⟩
        | some publicKey =>
          rcases key publicKey header hh halg hk with h | h
          · exact ⟨_, h⟩
          · exact ⟨_, h⟩
      · exact ⟨.unsupportedAlgorithm header.Alg,
          by simp [Verifier.Verify, hsplit, hd0, hh, halg]⟩
  · intro header hh halg hk
    cases hk' : v.publicKeys header.Kid with
    | none => exact absurd hk' hk
    | some publicKey => exact key publicKey header hh halg hk'

/-- C4, an instance: the envelope signed for `exampleArtifact`, verified against an artifact
with another ID. -/
theorem C4_witness :
    (∃ e, exampleVerifier.Verify refDecoder
        (exampleSigner.Sign exampleArtifact exampleNow longNonce).1 otherIDArtifact = .error e) ∧
    (∀ header, refDecoder.unmarshalHeader (utf8 exampleSigner.header.marshal) = some header →
      header.Alg = ES256 → exampleVerifier.publicKeys header.Kid ≠ none →
        exampleVerifier.Verify refDecoder
          (exampleSigner.Sign exampleArtifact exampleNow longNonce).1 otherIDArtifact =
            .error .issuerMismatch ∨
        exampleVerifier.Verify refDecoder
          (exampleSigner.Sign exampleArtifact exampleNow longNonce).1 otherIDArtifact =
            .error .subjectMismatch) :=
  C4_identifier_substitution_rejected refDecoder exampleSigner exampleArtifact otherIDArtifact
    exampleNow longNonce exampleVerifier exampleCanonical (by rw [sign_longNonce])
    (by decide!) (by decide!) (by decide!)

/-- C5. For every envelope of three segments whose header segment decodes to a header with
an algorithm other than `ES256`, `Verify` returns the unsupported-algorithm error, whatever
the registry, the candidate artifact, the payload and the signature segments. -/
theorem C5_algorithm_pinning (dec : JSONDecoder) (v : Verifier) (jws : GoString) (a : Artifact)
    (p0 p1 p2 : GoString) (headerJSON : List Nat) (header : JWSHeader)
    (hsplit : splitDots jws = [p0, p1, p2])
    (hdecode : b64Decode p0 = some headerJSON)
    (hparse : dec.unmarshalHeader headerJSON = some header)
    (halg : header.Alg ≠ ES256) :
    v.Verify dec jws a = .error (.unsupportedAlgorithm header.Alg) := by
  simp [Verifier.Verify, hsplit, hdecode, hparse, halg]

/-- C5, an instance: a header with the algorithm `none`. -/
theorem C5_witness :
    exampleVerifier.Verify refDecoder noneAlgJWS exampleArtifact =
      .error (.unsupportedAlgorithm "none".toList) :=
  C5_algorithm_pinning refDecoder exampleVerifier noneAlgJWS exampleArtifact
    "eyJhbGciOiJub25lIiwidHlwIjoiSldUIiwia2lkIjoia2lkMSJ9".toList "e30".toList []
    (utf8 "\x7b\"alg\":\"none\",\"typ\":\"JWT\",\"kid\":\"kid1\"\x7d".toList)
    { Alg := "none".toList, Typ := "JWT".toList, Kid := "kid1".toList }
    (by decide!) (by decide!) (by decide!) (by decide!)

/-- C6. For every envelope whose header names a key ID absent from the registry, `Verify`
returns an error (the unsupported algorithm when the header announces one, the unknown key ID
otherwise), whatever the candidate, payload and signature; and `Verify` on the empty registry
of `NewVerifier` returns an error for every input. -/
theorem C6_unknown_key_rejected (dec : JSONDecoder) (v : Verifier) (jws : GoString)
    (a : Artifact) :
    (∀ p0 p1 p2 headerJSON header, splitDots jws = [p0, p1, p2] →
      b64Decode p0 = some headerJSON → dec.unmarshalHeader headerJSON = some header →
      v.publicKeys header.Kid = none →
        v.Verify dec jws a = .error (.unsupportedAlgorithm header.Alg) ∨
        v.Verify dec jws a = .error (.unknownKeyID header.Kid)) ∧
    (∃ e, NewVerifier.Verify dec jws a = .error e) := by
  constructor
  · intro p0 p1 p2 headerJSON header hsplit hdecode hparse hkey
    by_cases halg : header.Alg = ES256
    · right; simp [Verifier.Verify, hsplit, hdecode, hparse, halg, hkey]
    · left; simp [Verifier.Verify, hsplit, hdecode, hparse, halg]
  · unfold Verifier.Verify
    split
    · split
      · exact ⟨_, rfl⟩
      · split
        · exact ⟨_, rfl⟩
        · split
          · exact ⟨_, rfl⟩
          · simp only [NewVerifier]
            exact ⟨_, rfl⟩
    · exact ⟨_, rfl⟩

/-- C6, an instance: a header with the key ID `kid2`, unknown to `exampleVerifier`. -/
theorem C6_witness :
    exampleVerifier.Verify refDecoder unknownKidJWS exampleArtifact =
        .error (.unsupportedAlgorithm ES256) ∨
      exampleVerifier.Verify refDecoder unknownKidJWS exampleArtifact =
        .error (.unknownKeyID "kid2".toList) :=
  (C6_unknown_key_rejected refDecoder exampleVerifier unknownKidJWS exampleArtifact).1
    "eyJhbGciOiJFUzI1NiIsInR5cCI6IkpXVCIsImtpZCI6ImtpZDIifQ".toList "e30".toList []
    (utf8 "\x7b\"alg\":\"ES256\",\"typ\":\"JWT\",\"kid\":\"kid2\"\x7d".toList)
    { Alg := ES256, Typ := "JWT".toList, Kid := "kid2".toList }
    (by decide!) (by decide!) (by decide!) (by decide!)

/-- The result of `Validate` in terms of its checks, in order. -/
theorem Validate_cases (a : Artifact) :
    (a.Validate = none ↔
      a.ID ≠ UUID.Nil ∧ a.WorkspaceID ≠ UUID.Nil ∧ 1 ≤ a.Version ∧ a.Type_ ≠ [] ∧
      0 < a.JSONBody.len ∧
      ∃ data, marshalBody a.JSONBody = some data ∧ (utf8 data).length ≤ 1048576) ∧
    (a.Validate = some .nilID ↔ a.ID = UUID.Nil) ∧
    (a.Validate = some .nilWorkspace ↔ a.ID ≠ UUID.Nil ∧ a.WorkspaceID = UUID.Nil) ∧
    (a.Validate = some .badVersion ↔
      a.ID ≠ UUID.Nil ∧ a.WorkspaceID ≠ UUID.Nil ∧ a.Version < 1) ∧
    (a.Validate = some .emptyType ↔
      a.ID ≠ UUID.Nil ∧ a.WorkspaceID ≠ UUID.Nil ∧ 1 ≤ a.Version ∧ a.Type_ = []) ∧
    (a.Validate = some .emptyBody ↔
      a.ID ≠ UUID.Nil ∧ a.WorkspaceID ≠ UUID.Nil ∧ 1 ≤ a.Version ∧ a.Type_ ≠ [] ∧
      a.JSONBody.len = 0) ∧
    (a.Validate = some .marshal ↔
      a.ID ≠ UUID.Nil ∧ a.WorkspaceID ≠ UUID.Nil ∧ 1 ≤ a.Version ∧ a.Type_ ≠ [] ∧
      0 < a.JSONBody.len ∧ marshalBody a.JSONBody = none) ∧
    (a.Validate = some .tooLarge ↔
      a.ID ≠ UUID.Nil ∧ a.WorkspaceID ≠ UUID.Nil ∧ 1 ≤ a.Version ∧ a.Type_ ≠ [] ∧
      0 < a.JSONBody.len ∧
      ∃ data, marshalBody a.JSONBody = some data ∧ 1048576 < (utf8 data).length) := by
  unfold Artifact.Validate
  by_cases h1 : a.ID = UUID.Nil
  · simp [h1]
  by_cases h2 : a.WorkspaceID = UUID.Nil
  · simp [h1, h2]
  by_cases h3 : a.Version < 1
  · have : ¬ 1 ≤ a.Version := by omega
    simp [h1, h2, h3, this]
  have h3' : 1 ≤ a.Version := by omega
  by_cases h4 : a.Type_ = []
  · simp [h1, h2, h3, h3', h4]
  by_cases h5 : a.JSONBody.len = 0
  · simp [h1, h2, h3, h3', h4, h5]
  have h5' : 0 < a.JSONBody.len := by omega
  cases h6 : marshalBody a.JSONBody with
  | none => simp [h1, h2, h3, h3', h4, h5, h5']
  | some data =>
    by_cases h7 : (utf8 data).length > 1024 * 1024
    · have : ¬ (utf8 data).length ≤ 1048576 := by omega
      have h7' : 1048576 < (utf8 data).length := by omega
      simp [h1, h2, h3, h3', h4, h5, h5', h7, this, h7']
    · have : (utf8 data).length ≤ 1048576 := by omega
      have h7' : ¬ 1048576 < (utf8 data).length := by omega
      simp [h1, h2, h3, h3', h4, h5, h5', h7, this, h7']

/-- C7, amended. `Validate` succeeds exactly when the ID and the workspace ID are non-nil,
the version is at least 1, the type is non-empty, the body has at least one key, and
`json.Marshal` of the body succeeds with at most 1,048,576 bytes. A failure is the first
violated check in that order and has one of seven reasons: the six of the claim and, between
the empty body and the oversized body, the error of `json.Marshal` for a body that cannot be
serialized. A body of exactly 1,048,576 bytes passes; one of 1,048,577 bytes fails with the
body-too-large error. -/
theorem C7_validate_characterised :
    (∀ a : Artifact,
      (a.Validate = none ↔
        a.ID ≠ UUID.Nil ∧ a.WorkspaceID ≠ UUID.Nil ∧ 1 ≤ a.Version ∧ a.Type_ ≠ [] ∧
        0 < a.JSONBody.len ∧
        ∃ data, marshalBody a.JSONBody = some data ∧ (utf8 data).length ≤ 1048576) ∧
      (a.Validate = some .nilID ↔ a.ID = UUID.Nil) ∧
      (a.Validate = some .nilWorkspace ↔ a.ID ≠ UUID.Nil ∧ a.WorkspaceID = UUID.Nil) ∧
      (a.Validate = some .badVersion ↔
        a.ID ≠ UUID.Nil ∧ a.WorkspaceID ≠ UUID.Nil ∧ a.Version < 1) ∧
      (a.Validate = some .emptyType ↔
        a.ID ≠ UUID.Nil ∧ a.WorkspaceID ≠ UUID.Nil ∧ 1 ≤ a.Version ∧ a.Type_ = []) ∧
      (a.Validate = some .emptyBody ↔
        a.ID ≠ UUID.Nil ∧ a.WorkspaceID ≠ UUID.Nil ∧ 1 ≤ a.Version ∧ a.Type_ ≠ [] ∧
        a.JSONBody.len = 0) ∧
      (a.Validate = some .marshal ↔
        a.ID ≠ UUID.Nil ∧ a.WorkspaceID ≠ UUID.Nil ∧ 1 ≤ a.Version ∧ a.Type_ ≠ [] ∧
        0 < a.JSONBody.len ∧ marshalBody a.JSONBody = none) ∧
      (a.Validate = some .tooLarge ↔
        a.ID ≠ UUID.Nil ∧ a.WorkspaceID ≠ UUID.Nil ∧ 1 ≤ a.Version ∧ a.Type_ ≠ [] ∧
        0 < a.JSONBody.len ∧
        ∃ data, marshalBody a.JSONBody = some data ∧ 1048576 < (utf8 data).length)) ∧
    (∃ a : Artifact, (∃ data, marshalBody a.JSONBody = some data ∧
        (utf8 data).length = 1048576) ∧ a.Validate = none) ∧
    (∃ a : Artifact, (∃ data, marshalBody a.JSONBody = some data ∧
        (utf8 data).length = 1048577) ∧ a.Validate = some .tooLarge) := by
  have hfix : ∀ n, (paddedArtifact n).ID ≠ UUID.Nil ∧ (paddedArtifact n).WorkspaceID ≠ UUID.Nil ∧
      1 ≤ (paddedArtifact n).Version ∧ (paddedArtifact n).Type_ ≠ [] ∧
      0 < (paddedArtifact n).JSONBody.len := by
    intro n
    refine ⟨?_, ?_, ?_, ?_, ?_⟩
    · show exampleArtifact.ID ≠ UUID.Nil
      decide
    · show exampleArtifact.WorkspaceID ≠ UUID.Nil
      decide
    · show 1 ≤ exampleArtifact.Version
      decide
    · show exampleArtifact.Type_ ≠ []
      decide
    · show 0 < 1
      decide
  refine ⟨Validate_cases, ⟨paddedArtifact 1048568, ?_, ?_⟩, ⟨paddedArtifact 1048569, ?_, ?_⟩⟩
  · exact marshalBody_padded 1048568
  · obtain ⟨data, hd, hl⟩ := marshalBody_padded 1048568
    obtain ⟨i1, i2, i3, i4, i5⟩ := hfix 1048568
    exact (Validate_cases _).1.2 ⟨i1, i2, i3, i4, i5, data, hd, by omega⟩
  · exact marshalBody_padded 1048569
  · obtain ⟨data, hd, hl⟩ := marshalBody_padded 1048569
    obtain ⟨i1, i2, i3, i4, i5⟩ := hfix 1048569
    exact (Validate_cases _).2.2.2.2.2.2.2.2 ⟨i1, i2, i3, i4, i5, data, hd, by omega⟩

/-- C7 fails as stated: the body of `unsupportedArtifact` holds a value `json.Marshal`
refuses; `Validate` returns the marshalling error, which is none of the six reasons. -/
theorem C7_counterexample :
    unsupportedArtifact.Validate = some .marshal ∧
      unsupportedArtifact.Validate ≠ none ∧
      unsupportedArtifact.Validate ≠ some .nilID ∧
      unsupportedArtifact.Validate ≠ some .nilWorkspace ∧
      unsupportedArtifact.Validate ≠ some .badVersion ∧
      unsupportedArtifact.Validate ≠ some .emptyType ∧
      unsupportedArtifact.Validate ≠ some .emptyBody ∧
      unsupportedArtifact.Validate ≠ some .tooLarge := by decide

/-- C8, amended. `Validate` checks the type for emptiness only. An artifact with an empty
type fails `Validate`, and `Sign` returns the empty string with that error wrapped; replacing
a non-empty type by any other non-empty string, one of the five constants or not, never
changes the result of `Validate`. -/
theorem C8_type_checked_for_emptiness_only (a : Artifact) (t : GoString) :
    (a.Type_ = [] → ∃ e, a.Validate = some e ∧
      ∀ (s : LocalSigner) (now : Int) (nonce : Nat),
        s.Sign a now nonce = ([], some (.invalidArtifact e))) ∧
    (a.Type_ ≠ [] → t ≠ [] → ({ a with Type_ := t } : Artifact).Validate = a.Validate) := by
  constructor
  · intro h
    have hv : a.Validate ≠ none := by
      intro hn
      have := (Validate_cases a).1.1 hn
      exact this.2.2.2.1 h
    cases he : a.Validate with
    | none => exact absurd he hv
    | some e =>
      refine ⟨e, rfl, ?_⟩
      intro s now nonce
      simp [LocalSigner.Sign, he]
  · intro h ht
    simp [Artifact.Validate, h, ht]

/-- C8, an instance of the amended claim: the free-form type gets the result of the type
`agent_recipe`. -/
theorem C8_witness : freeFormArtifact.Validate = exampleArtifact.Validate :=
  (C8_type_checked_for_emptiness_only exampleArtifact "free_form".toList).2
    (by decide) (by decide)

/-- C8 fails as stated: the type of `freeFormArtifact` is none of the five constants, and
`Validate` and `Sign` succeed on it. -/
theorem C8_counterexample :
    freeFormArtifact.Type_ ∉
        [TypeSSPFragment, TypePOAMTemplate, TypeAgentRecipe, TypeBaselineModule,
          TypeAuditScript] ∧
      freeFormArtifact.Validate = none ∧
      (exampleSigner.Sign freeFormArtifact exampleNow longNonce).2 = none := by decide!

/-- C9, at a failing input and in general. Whenever `r` is below `2 ^ 248` the bytes `Sign`
encodes for `(r, s)` number fewer than 64. With the nonce `shortNonce`, `ecdsa.Sign` returns
such a pair with `r` and `s` in range; the third segment of the envelope decodes to 63 bytes,
which are not the two 32-byte big-endian forms of `r` and `s`. -/
theorem C9_signature_not_fixed_width :
    (∀ r s : Nat, r < 2 ^ 248 → s < 2 ^ 256 → (encodeSignature r s).length < 64) ∧
      exampleArtifact.Validate = none ∧
      exampleSigner.Sign exampleArtifact exampleNow shortNonce = (shortJWS, none) ∧
      ecdsaSign exampleKey (SHA256.sum256 (utf8 exampleSigningInput)) shortNonce =
        some shortSignature ∧
      (1 ≤ shortSignature.1 ∧ shortSignature.1 < P256.n ∧
        1 ≤ shortSignature.2 ∧ shortSignature.2 < P256.n) ∧
      splitDots shortJWS = [exampleHeaderB64, examplePayloadB64, shortSignatureB64] ∧
      b64Decode shortSignatureB64 =
        some (encodeSignature shortSignature.1 shortSignature.2) ∧
      (encodeSignature shortSignature.1 shortSignature.2).length = 63 ∧
      encodeSignature shortSignature.1 shortSignature.2 ≠
        beBytes 32 shortSignature.1 ++ beBytes 32 shortSignature.2 := by
  refine ⟨?_, by decide, sign_shortNonce,
    by rw [digest_example]; exact ecdsaSign_shortNonce, by decide,
    shortSignature_encoding.1, shortSignature_encoding.2.1, shortSignature_encoding.2.2.1,
    shortSignature_encoding.2.2.2⟩
  intro r s hr hs
  have h1 := length_natBytes_le r 31 (by norm_num at hr ⊢; exact hr)
  have h2 := length_natBytes_le s 32 (by norm_num at hs ⊢; exact hs)
  simp only [encodeSignature, List.length_append]
  omega

/-- C10. `Canonicalize` is a function of the artifact alone, so two calls give the same
bytes. For two artifacts with equal ID, type, version, workspace ID and creation time whose
bodies hold the same key/value pairs at every nesting level, whatever the order in which the
keys were inserted, `Canonicalize` returns the same bytes (or fails on both) and `Hash` the
same digest. A Go map has no repeated key, which is the hypothesis `bodyWF`. -/
theorem C10_canonical_determinism (a b : Artifact)
    (hid : a.ID = b.ID) (htype : a.Type_ = b.Type_) (hversion : a.Version = b.Version)
    (hws : a.WorkspaceID = b.WorkspaceID) (hcreated : a.CreatedAt = b.CreatedAt)
    (hwf : bodyWF a.JSONBody = true) (hbody : sameBody a.JSONBody b.JSONBody) :
    a.Canonicalize = b.Canonicalize ∧ a.Hash = b.Hash := by
  have hm : marshalBody a.JSONBody = marshalBody b.JSONBody := by
    cases ha : a.JSONBody with
    | none =>
      cases hb : b.JSONBody with
      | none => rfl
      | some kvs2 => simp [ha, hb, sameBody] at hbody
    | some kvs =>
      cases hb : b.JSONBody with
      | none => simp [ha, hb, sameBody] at hbody
      | some kvs2 =>
        rw [ha] at hwf
        rw [ha, hb] at hbody
        exact marshalValue_same (.obj kvs) (.obj kvs2) hwf hbody
  have hc : a.Canonicalize = b.Canonicalize := by
    simp only [Artifact.Canonicalize, Artifact.marshal, hm, hid, htype, hversion, hws, hcreated]
  exact ⟨hc, by simp only [Artifact.Hash, hc]⟩

/-- C10, an instance: `nestedBody` and `reorderedBody`. -/
theorem C10_witness :
    ({ exampleArtifact with JSONBody := nestedBody } : Artifact).Canonicalize =
        ({ exampleArtifact with JSONBody := reorderedBody } : Artifact).Canonicalize ∧
      ({ exampleArtifact with JSONBody := nestedBody } : Artifact).Hash =
        ({ exampleArtifact with JSONBody := reorderedBody } : Artifact).Hash :=
  C10_canonical_determinism _ _ rfl rfl rfl rfl rfl (by decide) (by
    show sameVal _ _
    simp only [sameVal]
    refine ⟨[("name".toList, .str "test-agent".toList),
        ("limits".toList, .obj [("mem".toList, .int 512), ("cpu".toList, .int 2)]),
        ("tags".toList, .arr [.str "a".toList,
          .obj [("y".toList, .bool true), ("x".toList, .null)]])], ?_, ?_⟩
    · simp only [sameFields, sameVal, sameElems, true_and, and_true]
      refine ⟨⟨[("cpu".toList, .int 2), ("mem".toList, .int 512)], ?_, ?_⟩,
        ⟨[("x".toList, .null), ("y".toList, .bool true)], ?_, ?_⟩⟩
      · simp [sameFields, sameVal]
      · exact List.Perm.swap _ _ _
      · simp [sameFields, sameVal]
      · exact List.Perm.swap _ _ _
    · show List.Perm ([("name".toList, JVal.str "test-agent".toList),
          ("limits".toList, .obj [("mem".toList, .int 512), ("cpu".toList, .int 2)])] ++
        [("tags".toList, .arr [.str "a".toList,
          .obj [("y".toList, .bool true), ("x".toList, .null)]])]) _
      exact List.perm_append_comm)

/-- C11, at a failing input and in general. `Canonicalize` is `json.Marshal(a)`, which writes
the fields of the struct in the order of their declaration: for `exampleArtifact` the keys of
the top-level object appear as `id`, `type`, `version`, `workspaceId`, `createdAt`,
`jsonBody`, which is not the lexicographic order `createdAt`, `id`, `jsonBody`, `type`,
`version`, `workspaceId`; and for every artifact the canonical text starts with the key
`id`. -/
theorem C11_struct_fields_in_declaration_order :
    exampleArtifact.Canonicalize = some (utf8 exampleCanonical) ∧
      objectKeys exampleCanonical =
        some ["id".toList, "type".toList, "version".toList, "workspaceId".toList,
          "createdAt".toList, "jsonBody".toList] ∧
      keysSorted ["id".toList, "type".toList, "version".toList, "workspaceId".toList,
          "createdAt".toList, "jsonBody".toList] = false ∧
      keysSorted ["createdAt".toList, "id".toList, "jsonBody".toList, "type".toList,
          "version".toList, "workspaceId".toList] = true ∧
      ∀ (a : Artifact) (text : GoString), a.marshal = some text →
        ∃ rest, text = "\x7b\"id\":\"".toList ++ rest := by
  refine ⟨?_, by decide!, by decide!, by decide!, ?_⟩
  · simp only [Artifact.Canonicalize, marshal_example]
  · intro a text h
    simp only [Artifact.marshal] at h
    split at h
    · exact absurd h (by simp)
    · simp only [Option.some.injEq] at h
      have e : "\x7b\"id\":\"".toList = "\x7b\"id\":".toList ++ ['"'] := by decide
      rw [← h, e]
      simp only [quote, List.append_assoc, List.cons_append, List.nil_append]
      exact ⟨_, rfl⟩

/-- C12. When `Canonicalize` succeeds with the bytes `canonical`, `Hash` succeeds and returns
the lowercase hexadecimal text of the SHA-256 digest of `canonical`: two digits for each of
the 32 bytes of the digest, 64 characters, all among `0`-`9` and `a`-`f`. `Hash` returns an
error exactly when `Canonicalize` does, and then returns the empty string. -/
theorem C12_hash_definition (a : Artifact) :
    (∀ canonical, a.Canonicalize = some canonical →
      a.Hash = (hexOfBytes (SHA256.sum256 canonical), false) ∧
      a.Hash.1.length = 64 ∧ (∀ c ∈ a.Hash.1, c ∈ "0123456789abcdef".toList) ∧
      (SHA256.sum256 canonical).length = 32 ∧ (∀ b ∈ SHA256.sum256 canonical, b < 256) ∧
      a.Hash.1 = (SHA256.sum256 canonical).flatMap
        (fun b => [hexDigit (b / 16), hexDigit (b % 16)])) ∧
    (a.Hash.2 = true ↔ a.Canonicalize = none) ∧
    (a.Canonicalize = none → a.Hash = ([], true)) := by
  refine ⟨?_, ?_, ?_⟩
  · intro canonical hc
    have hh : a.Hash = (hexOfBytes (SHA256.sum256 canonical), false) := by
      simp [Artifact.Hash, hc]
    refine ⟨hh, ?_, ?_, length_sum256 _, sum256_lt _, ?_⟩
    · rw [hh]
      simp [length_hexOfBytes, length_sum256]
    · rw [hh]
      exact hexOfBytes_mem _
    · rw [hh]
      simp only [hexOfBytes]
      apply List.flatMap_congr
      intro b hb
      have hlt := sum256_lt canonical b hb
      simp only [hexDigits, List.nil_append, List.singleton_append]
      have : b / 16 % 16 = b / 16 := Nat.mod_eq_of_lt (by omega)
      rw [this]
  · cases hc : a.Canonicalize <;> simp [Artifact.Hash, hc]
  · intro hc
    simp [Artifact.Hash, hc]

/-- C12, an instance: the hash of `exampleArtifact`, and the hash of an artifact whose body
cannot be serialized. -/
theorem C12_witness :
    exampleArtifact.Hash =
        ("89c7e64ce3aa2df56c3c10b59104700976dea5915e6ad4dc8c96a50a486155e5".toList, false) ∧
      exampleArtifact.Hash.1.length = 64 ∧
      unsupportedArtifact.Hash = ([], true) :=
  ⟨by decide!,
    ((C12_hash_definition exampleArtifact).1 (utf8 exampleCanonical)
      (by simp only [Artifact.Canonicalize, marshal_example])).2.1,
    (C12_hash_definition unsupportedArtifact).2.2 (by decide)⟩

/-- C13. When `Validate` fails with the error `e`, `Sign` returns the empty string and the
invalid-artifact error that wraps `e`, for every signer, time and nonce: nothing is signed.
When `Sign` returns the nil error, `Validate` succeeded on the artifact and the string
returned is not empty and splits at its dots into exactly three segments. -/
theorem C13_sign_all_or_nothing (a : Artifact) :
    (∀ e, a.Validate = some e → ∀ (s : LocalSigner) (now : Int) (nonce : Nat),
      s.Sign a now nonce = ([], some (.invalidArtifact e))) ∧
    (∀ (s : LocalSigner) (now : Int) (nonce : Nat), (s.Sign a now nonce).2 = none →
      a.Validate = none ∧ (s.Sign a now nonce).1 ≠ [] ∧
      (splitDots (s.Sign a now nonce).1).length = 3) := by
  constructor
  · intro e he s now nonce
    simp [LocalSigner.Sign, he]
  · intro s now nonce h
    obtain ⟨canonical, r, s', hv, _, _, henv⟩ := Sign_eq_of_success s a now nonce h
    refine ⟨hv, ?_, ?_⟩
    · rw [henv]
      intro hnil
      have := congrArg List.length hnil
      simp at this
    · rw [henv, splitDots_three _ _ _ (dot_not_mem_b64Encode _) (dot_not_mem_b64Encode _)
        (dot_not_mem_b64Encode _)]
      rfl

/-- C13, two instances: an artifact whose body cannot be serialized is refused with the
wrapped error of `Validate`, and the envelope of `exampleArtifact` has three segments. -/
theorem C13_witness :
    exampleSigner.Sign unsupportedArtifact exampleNow longNonce =
        ([], some (.invalidArtifact .marshal)) ∧
      (exampleArtifact.Validate = none ∧
        (exampleSigner.Sign exampleArtifact exampleNow longNonce).1 ≠ [] ∧
        (splitDots (exampleSigner.Sign exampleArtifact exampleNow longNonce).1).length = 3) :=
  ⟨(C13_sign_all_or_nothing unsupportedArtifact).1 .marshal (by decide)
      exampleSigner exampleNow longNonce,
    (C13_sign_all_or_nothing exampleArtifact).2 exampleSigner exampleNow longNonce
      (by rw [sign_longNonce])⟩

/-- On a valid artifact `Sign` can fail in `ecdsa.Sign` only. -/
theorem Sign_of_valid (s : LocalSigner) (a : Artifact) (now : Int) (nonce : Nat)
    (hvalid : a.Validate = none) :
    (s.Sign a now nonce).2 = none ∨ s.Sign a now nonce = ([], some .signing) := by
  obtain ⟨_, _, _, _, _, data, hdata, _⟩ := (Validate_cases a).1.1 hvalid
  have hm : ∃ canonical, a.marshal = some canonical := by
    simp only [Artifact.marshal, hdata]
    exact ⟨_, rfl⟩
  obtain ⟨canonical, hm⟩ := hm
  simp only [LocalSigner.Sign, hvalid, hm]
  cases ecdsaSign s.privateKey
    (SHA256.sum256 (utf8 (signingInputOf s.header (claimsOf a canonical now)))) nonce with
  | none => right; rfl
  | some p => left; rfl

/-- C14. For a valid artifact `a` and a signer with key ID `k`, `Sign` succeeds unless
`ecdsa.Sign` fails, and the envelope it returns splits at its dots into exactly three
segments, every character of which belongs to the base64url alphabet (so none is `=` or
`.`); the first segment decodes to the JSON text of the header with `alg = "ES256"`,
`typ = "JWT"`, `kid = k`, and the second to the JSON text of the claims with `iss` the text of
`a.WorkspaceID`, `sub` the text of `a.ID`, `iat` the time of signing and `artifact` the string
whose bytes are the output of `a.Canonicalize()`. -/
theorem C14_envelope_contents (s : LocalSigner) (a : Artifact) (now : Int) (nonce : Nat)
    (hvalid : a.Validate = none) :
    ((s.Sign a now nonce).2 = none ∨ s.Sign a now nonce = ([], some .signing)) ∧
    ((s.Sign a now nonce).2 = none →
      ∃ canonical p0 p1 p2, a.Canonicalize = some (utf8 canonical) ∧
        splitDots (s.Sign a now nonce).1 = [p0, p1, p2] ∧
        (∀ c ∈ p0 ++ p1 ++ p2, (b64Val c).isSome = true ∧ c ≠ '=' ∧ c ≠ '.') ∧
        b64Decode p0 = some (utf8 (JWSHeader.marshal
          { Alg := ES256, Typ := "JWT".toList, Kid := s.keyID })) ∧
        b64Decode p1 = some (utf8 (JWSPayload.marshal
          { Iss := a.WorkspaceID.String, Sub := a.ID.String, Iat := now,
            Artifact := canonical }))) := by
  refine ⟨Sign_of_valid s a now nonce hvalid, ?_⟩
  intro hsign
  obtain ⟨canonical, r, s', hv, hm, _, henv⟩ := Sign_eq_of_success s a now nonce hsign
  refine ⟨canonical, b64Encode (utf8 s.header.marshal),
    b64Encode (utf8 (claimsOf a canonical now).marshal), b64Encode (encodeSignature r s'),
    ?_, ?_, ?_, ?_, ?_⟩
  · simp [Artifact.Canonicalize, hm]
  · rw [henv]
    exact splitDots_three _ _ _ (dot_not_mem_b64Encode _) (dot_not_mem_b64Encode _)
      (dot_not_mem_b64Encode _)
  · intro c hc
    rcases List.mem_append.1 hc with h | h
    · rcases List.mem_append.1 h with h | h
      · exact b64Encode_alphabet _ c h
      · exact b64Encode_alphabet _ c h
    · exact b64Encode_alphabet _ c h
  · exact b64Decode_b64Encode _ (utf8_lt _)
  · exact b64Decode_b64Encode _ (utf8_lt _)

/-- C14, an instance: the envelope `exampleSigner` makes for `exampleArtifact`. -/
theorem C14_witness :
    ∃ canonical p0 p1 p2, exampleArtifact.Canonicalize = some (utf8 canonical) ∧
      splitDots (exampleSigner.Sign exampleArtifact exampleNow longNonce).1 = [p0, p1, p2] ∧
      (∀ c ∈ p0 ++ p1 ++ p2, (b64Val c).isSome = true ∧ c ≠ '=' ∧ c ≠ '.') ∧
      b64Decode p0 = some (utf8 (JWSHeader.marshal
        { Alg := ES256, Typ := "JWT".toList, Kid := exampleSigner.keyID })) ∧
      b64Decode p1 = some (utf8 (JWSPayload.marshal
        { Iss := exampleArtifact.WorkspaceID.String, Sub := exampleArtifact.ID.String,
          Iat := exampleNow, Artifact := canonical })) :=
  (C14_envelope_contents exampleSigner exampleArtifact exampleNow longNonce (by decide)).2
    (by rw [sign_longNonce])

/-- C15. A string whose number of dots is not two does not split into three segments, and
`Verify` returns the invalid-format error for it, whatever the decoder, the registry and the
candidate artifact: nothing is decoded, looked up or checked before. -/
theorem C15_segment_count (dec : JSONDecoder) (v : Verifier) (jws : GoString) (a : Artifact)
    (hdots : jws.count '.' ≠ 2) : v.Verify dec jws a = .error .invalidFormat := by
  unfold Verifier.Verify
  split
  · rename_i p0 p1 p2 hsplit
    have := length_splitDots jws
    rw [hsplit] at this
    simp only [List.length_cons, List.length_nil] at this
    omega
  · rfl

/-- C15, two instances: a string with one dot, and a valid envelope with a fourth segment
added. -/
theorem C15_witness :
    exampleVerifier.Verify refDecoder "a.b".toList exampleArtifact = .error .invalidFormat ∧
      exampleVerifier.Verify refDecoder (exampleJWS ++ ".x".toList) exampleArtifact =
        .error .invalidFormat :=
  ⟨C15_segment_count refDecoder exampleVerifier "a.b".toList exampleArtifact (by decide),
    C15_segment_count refDecoder exampleVerifier (exampleJWS ++ ".x".toList) exampleArtifact
      (by decide!)⟩

/-- C16. For a non-empty type, a non-nil workspace ID and a body with at least one entry
whose JSON text `data` has at most 1 MiB, the artifact `NewArtifact` returns has version 1,
the type, workspace ID and body given, the ID drawn by `uuid.New()` and the time stamp of the
clock; it passes `Validate` when the ID drawn is not nil, and `Canonicalize` succeeds on it
with a non-empty output. -/
theorem C16_created_artifact_validates (id : UUID) (now : GoString) (artifactType : GoString)
    (workspaceID : UUID) (jsonBody : Body) (data : List Char)
    (htype : artifactType ≠ []) (hws : workspaceID ≠ UUID.Nil) (hbody : 0 < jsonBody.len)
    (hdata : marshalBody jsonBody = some data) (hsize : (utf8 data).length ≤ 1048576) :
    (NewArtifact id now artifactType workspaceID jsonBody).Version = 1 ∧
      (NewArtifact id now artifactType workspaceID jsonBody).Type_ = artifactType ∧
      (NewArtifact id now artifactType workspaceID jsonBody).WorkspaceID = workspaceID ∧
      (NewArtifact id now artifactType workspaceID jsonBody).JSONBody = jsonBody ∧
      (NewArtifact id now artifactType workspaceID jsonBody).ID = id ∧
      (NewArtifact id now artifactType workspaceID jsonBody).CreatedAt = now ∧
      (id ≠ UUID.Nil → (NewArtifact id now artifactType workspaceID jsonBody).Validate = none) ∧
      ∃ canonical, (NewArtifact id now artifactType workspaceID jsonBody).Canonicalize =
        some canonical ∧ canonical ≠ [] := by
  refine ⟨rfl, rfl, rfl, rfl, rfl, rfl, ?_, ?_⟩
  · intro hid
    exact (Validate_cases _).1.2 ⟨hid, hws, le_refl (1 : Int), htype, hbody, data, hdata, hsize⟩
  · simp only [Artifact.Canonicalize, Artifact.marshal, NewArtifact, hdata]
    refine ⟨_, rfl, ?_⟩
    intro h
    have := utf8_eq_nil _ h
    simp at this

/-- C16, an instance: `exampleArtifact` is the result of `NewArtifact` on the arguments of
the test `TestArtifactCreation`, with an ID and a time stamp fixed. -/
theorem C16_witness :
    exampleArtifact.Version = 1 ∧ exampleArtifact.Type_ = TypeAgentRecipe ∧
      exampleArtifact.Validate = none ∧
      ∃ canonical, exampleArtifact.Canonicalize = some canonical ∧ canonical ≠ [] :=
  have h := C16_created_artifact_validates (UUID.ofNat 0x0123456789abcdef0123456789abcdef)
    "2024-01-01T00:00:00Z".toList TypeAgentRecipe
    (UUID.ofNat 0x11111122223333444455556666777788)
    (some [("name".toList, .str "test-agent".toList)])
    "\x7b\"name\":\"test-agent\"\x7d".toList
    (by decide) (by decide) (by decide) (by decide) (by decide)
  ⟨h.1, h.2.1, h.2.2.2.2.2.2.1 (by decide), h.2.2.2.2.2.2.2⟩

/-- C17. After `AddPublicKey(k, pk)` the registry maps `k` to `pk`, whatever it held for `k`
before, and maps every other key ID to what it mapped it to before the call. (The registry
is one made by `NewVerifier`, whose map is not nil.) -/
theorem C17_add_public_key (v : Verifier) (k : GoString) (pk : PublicKey) :
    (v.AddPublicKey k pk).publicKeys k = some pk ∧
      ∀ k', k' ≠ k → (v.AddPublicKey k pk).publicKeys k' = v.publicKeys k' := by
  constructor
  · simp [Verifier.AddPublicKey]
  · intro k' h
    simp [Verifier.AddPublicKey, h]

/-- C17, an instance: registering `kid1` again with another key replaces the key of `kid1`
and leaves `kid2` unregistered. -/
theorem C17_witness :
    (exampleVerifier.AddPublicKey "kid1".toList ⟨1, 2⟩).publicKeys "kid1".toList =
        some ⟨1, 2⟩ ∧
      (exampleVerifier.AddPublicKey "kid1".toList ⟨1, 2⟩).publicKeys "kid2".toList =
        exampleVerifier.publicKeys "kid2".toList :=
  ⟨(C17_add_public_key exampleVerifier "kid1".toList ⟨1, 2⟩).1,
    (C17_add_public_key exampleVerifier "kid1".toList ⟨1, 2⟩).2 "kid2".toList (by decide)⟩

/-- C18, at a failing input and in general. `Verify` slices the decoded signature at byte 32
without a check of its length. On the envelope with the header and payload segments of
`exampleJWS` and an empty signature segment, for the registry of the test and the artifact
signed, every check before the signature passes, the segment decodes to zero bytes, and
`Verify` neither succeeds nor returns an error: it stops in a slice-bounds panic. The same
holds for every signature segment that decodes to fewer than 32 bytes. -/
theorem C18_short_signature_panics :
    exampleVerifier.Verify refDecoder emptySignatureJWS exampleArtifact = .panic ∧
      b64Decode [] = some [] ∧
      ∀ (p2 : GoString) (signature : List Nat), '.' ∉ p2 → b64Decode p2 = some signature →
        signature.length < 32 →
        exampleVerifier.Verify refDecoder
          (exampleHeaderB64 ++ '.' :: (examplePayloadB64 ++ '.' :: p2)) exampleArtifact =
            .panic := by
  have key : ∀ (p2 : GoString) (signature : List Nat), '.' ∉ p2 →
      b64Decode p2 = some signature → signature.length < 32 →
      exampleVerifier.Verify refDecoder
        (exampleHeaderB64 ++ '.' :: (examplePayloadB64 ++ '.' :: p2)) exampleArtifact =
          .panic := by
    intro p2 signature hdot hd2 hlen
    exact Verify_of_short refDecoder exampleVerifier
      (exampleHeaderB64 ++ '.' :: (examplePayloadB64 ++ '.' :: p2)) exampleArtifact
      exampleHeaderB64 examplePayloadB64 p2 (utf8 exampleSigner.header.marshal)
      exampleSigner.header exampleKey.PublicKey
      (utf8 (claimsOf exampleArtifact exampleCanonical exampleNow).marshal)
      (claimsOf exampleArtifact exampleCanonical exampleNow) signature
      (splitDots_three _ _ _ (by decide!) (by decide!) hdot) (by decide!) (by decide!) rfl
      (by decide!) (by decide!) (by decide!) rfl rfl hd2 hlen
  exact ⟨key [] [] (by simp) (by decide) (by decide), by decide, key⟩

/-- C19, at a failing input. The signature segment of `paddedJWS` decodes to 68 bytes: the 32
bytes of `r`, four zero bytes, the 32 bytes of `s`, for the pair `(r, s)` of `exampleJWS`.
`Verify` reads `signature[32:]`, all 36 bytes after the first 32, as `s`, and returns
success. -/
theorem C19_overlong_signature_accepted :
    exampleVerifier.Verify refDecoder paddedJWS exampleArtifact = .ok ∧
      splitDots paddedJWS = [exampleHeaderB64, examplePayloadB64, paddedSignatureB64] ∧
      b64Decode paddedSignatureB64 = some paddedSignature ∧
      paddedSignature.length = 68 := by
  have hd : b64Decode paddedSignatureB64 = some paddedSignature := by decide!
  have hdot : '.' ∉ paddedSignatureB64 := by decide!
  refine ⟨?_, splitDots_three _ _ _ (by decide!) (by decide!) hdot, hd, by decide!⟩
  have h := verify_example paddedSignatureB64 paddedSignature exampleArtifact hdot hd
    (by decide!) rfl rfl
  have e1 : ofBytes (paddedSignature.take 32) = longSignature.1 := by decide!
  have e2 : ofBytes (paddedSignature.drop 32) = longSignature.2 := by decide!
  rw [e1, e2, if_pos ecdsaVerify_longSignature] at h
  exact h

/-- C20, amended. Take two artifacts whose strings are valid UTF-8 and whose bodies are plain:
at every depth their values have one of the dynamic types nil interface, `bool`, `int`,
`string`, non-nil `[]interface{}` and non-nil `map[string]interface{}`. If `Canonicalize`
succeeds on both and they differ in the ID, the type, the version, the workspace ID, the time
stamp or in the data their bodies hold, at any depth, their canonical bytes differ. -/
theorem C20_canonicalize_injective (a b : Artifact) (ca cb : List Nat)
    (hpa : bodyPlain a.JSONBody = true) (hpb : bodyPlain b.JSONBody = true)
    (ha : a.Canonicalize = some ca) (hb : b.Canonicalize = some cb)
    (hdiff : a.ID ≠ b.ID ∨ a.Type_ ≠ b.Type_ ∨ a.Version ≠ b.Version ∨
      a.WorkspaceID ≠ b.WorkspaceID ∨ a.CreatedAt ≠ b.CreatedAt ∨
      ¬ sameBody a.JSONBody b.JSONBody) : ca ≠ cb := by
  intro e
  subst e
  obtain ⟨h1, h2, h3, h4, h5, h6⟩ := Canonicalize_inj a b ca hpa hpb ha hb
  rcases hdiff with h | h | h | h | h | h
  · exact h h1
  · exact h h2
  · exact h h3
  · exact h h4
  · exact h h5
  · exact h h6

/-- C20, an instance of the amended claim: the example artifact and the artifact with the
body `{"name":"evil-agent"}` have plain bodies and different canonical bytes. -/
theorem C20_witness : utf8 exampleCanonical ≠ utf8 otherBodyCanonical :=
  C20_canonicalize_injective exampleArtifact otherBodyArtifact (utf8 exampleCanonical)
    (utf8 otherBodyCanonical) (by decide) (by decide)
    (by simp only [Artifact.Canonicalize, marshal_example])
    (by decide!)
    (Or.inr (Or.inr (Or.inr (Or.inr (Or.inr not_sameBody_example)))))

/-- C20 fails as stated, in four ways. (1) A Go string need not be valid UTF-8, and
`json.Marshal` writes the escape of U+FFFD for every invalid byte: the artifacts with the
fields of `exampleArtifact` and the one-byte strings `"\xff"` and `"\xfe"` for their type
differ in the type and have the same canonical bytes (on the bytes of a valid type the text is
that of `Canonicalize`). (2) A nil slice and a nil map are written `null`, as the nil
interface is: the bodies `{"a": nil}`, `{"a": []interface{}(nil)}` and
`{"a": map[string]interface{}(nil)}` all give `{"a":null}`. (3) A `[]byte` is written as the
string of its base64 text: the bodies `{"a": []byte("hi")}` and `{"a": "aGk="}` both give
`{"a":"aGk="}`. (4) A `float64` that holds a whole number is written as the `int` is: the
bodies `{"a": 1}` and `{"a": float64(1)}` both give `{"a":1}`. In (2), (3) and (4) the bodies
do not hold the same data and `Canonicalize` succeeds with the same bytes. -/
theorem C20_counterexample :
    (([255] : List Nat) ≠ [254] ∧
      exampleArtifact.CanonicalizeWithType [255] = some (utf8 replacedTypeCanonical) ∧
      exampleArtifact.CanonicalizeWithType [254] = some (utf8 replacedTypeCanonical) ∧
      exampleArtifact.CanonicalizeWithType (utf8 exampleArtifact.Type_) =
        exampleArtifact.Canonicalize) ∧
    (¬ sameBody (withValue .null).JSONBody (withValue .nilSlice).JSONBody ∧
      ¬ sameBody (withValue .null).JSONBody (withValue .nilMap).JSONBody ∧
      ¬ sameBody (withValue .nilSlice).JSONBody (withValue .nilMap).JSONBody ∧
      marshalBody (withValue .null).JSONBody = some "\x7b\"a\":null\x7d".toList ∧
      (withValue .null).Canonicalize ≠ none ∧
      (withValue .null).Canonicalize = (withValue .nilSlice).Canonicalize ∧
      (withValue .null).Canonicalize = (withValue .nilMap).Canonicalize) ∧
    (¬ sameBody (withValue (.bytes [104, 105])).JSONBody
        (withValue (.str "aGk=".toList)).JSONBody ∧
      marshalBody (withValue (.bytes [104, 105])).JSONBody =
        some "\x7b\"a\":\"aGk=\"\x7d".toList ∧
      (withValue (.bytes [104, 105])).Canonicalize ≠ none ∧
      (withValue (.bytes [104, 105])).Canonicalize =
        (withValue (.str "aGk=".toList)).Canonicalize) ∧
    (¬ sameBody (withValue (.int 1)).JSONBody (withValue (.float floatOne)).JSONBody ∧
      marshalBody (withValue (.int 1)).JSONBody = some "\x7b\"a\":1\x7d".toList ∧
      (withValue (.int 1)).Canonicalize ≠ none ∧
      (withValue (.int 1)).Canonicalize = (withValue (.float floatOne)).Canonicalize) := by
  refine ⟨⟨by decide, by decide!, by decide!, ?_⟩,
    ⟨not_sameBody_singleton _ _ _ (by simp [sameVal]),
      not_sameBody_singleton _ _ _ (by simp [sameVal]),
      not_sameBody_singleton _ _ _ (by simp [sameVal]), by decide!, by decide!, by decide!,
      by decide!⟩,
    ⟨not_sameBody_singleton _ _ _ (by simp [sameVal]), by decide!, by decide!, by decide!⟩,
    ⟨not_sameBody_singleton _ _ _ (by simp [sameVal]), by decide!, by decide!, by decide!⟩⟩
  simp only [Artifact.CanonicalizeWithType, Artifact.Canonicalize, marshalWithType_utf8]

end FedMCP
